import Mathlib

/-!
# carl: the CAD sample set (`src/carl/cad/SampleSet.tpp`) and the solver for linear
# Diophantine equations (`src/carl/core/DiophantineEquation.tpp`)

A shallow embedding of `carl::cad::SampleSet`, of `carl::extended_gcd_integer` and of
`carl::solveLinearDiophantine`, and a verification of their natural-language
specification.

## Modelling conventions

* A handle (`RealAlgebraicNumberPtr`) is modelled by the object it points to,
  together with the address `addr` of that object.  Two handles are the same
  pointer iff they are the same record, so `std::find` (pointer comparison)
  is `List.indexOf` on records.
* A `std::list` is a `List`; an iterator is the index of the element it points
  to and `end()` is the length of the list.
* A failing `assert`, and a library call outside its contract (`front()` or
  `pop_front()` of an empty list, erasing `end()`), make the operation return
  `none`.
* The only operation that changes an object is `refine()`, called by bulk
  `simplify()`; the change is made in every view that holds the object
  (`mutate`).  `insert` and bulk `simplify()` allocate new objects, whose
  addresses are arguments of the model.
* Bulk `simplify()` returns an `Outcome`, which tells a fatal run from a run
  that used up the fuel of the model; the latter never happens
  (`simplifyBulk_ne_outOfFuel`).
* `Reachable` are the states reached from the empty set by `insert`, `remove`, the
  four pops and `simplify(from, to)`; `ReachableWithBulk` has bulk `simplify()` among
  the operations as well, and `ReachableWithoutSimplify` has neither of the two.
* `simplifyLoopRun` is the loop of bulk `simplify()` once more, with the way the run
  ends (`SweepEnd`) and the loop state it ends in; it agrees with `simplifyLoop`
  (`simplifyLoop_eq_run`).
* The integers of the Diophantine solver are unbounded (`carl::is_integer` types) and
  are modelled by `Int`.  Its input polynomial is modelled by the vector of its terms,
  each with its coefficient and total degree; `carl::quotient`, `carl::mod` and
  `carl::div` for integers are not part of the sources and are modelled from the
  specification as the truncating division.
* The comparators `Less` and `Equal`, the constructor
  `RealAlgebraicNumberNR::create` and the method `refine()` are not part of the
  sources and are modelled from the specification.
-/

set_option linter.unusedSectionVars false
set_option linter.unusedVariables false

namespace carl
namespace cad

/-! ## The external number type -/

/-- The two classes of real algebraic numbers: `RealAlgebraicNumberNR` (exact
numeric representation) and `RealAlgebraicNumberIR` (isolating interval).  An
interval object carries whether its interval has collapsed to an exact value
(`isNumeric()`) and how often it has been refined (`getRefinementCount()`). -/
inductive Representation where
  | NR : Representation
  | IR (numeric : Bool) (refinementCount : Nat) : Representation
deriving DecidableEq

/-- A real algebraic number object, as far as the sample set consumes it:
its address, the real value it denotes, its root flag and its class. -/
structure RealAlgebraicNumber (α : Type) where
  addr : Nat
  value : α
  isRoot : Bool
  rep : Representation
deriving DecidableEq

/-- The method `isNumericRepresentation()`: is the object of class NR. -/
def RealAlgebraicNumber.isNumericRepresentation {α : Type} (r : RealAlgebraicNumber α) : Bool :=
  match r.rep with
  | Representation.NR => true
  | Representation.IR _ _ => false

/-- The method `isNumeric()`: an NR always is, an IR is once its interval has collapsed. -/
def RealAlgebraicNumber.isNumeric {α : Type} (r : RealAlgebraicNumber α) : Bool :=
  match r.rep with
  | Representation.NR => true
  | Representation.IR numeric _ => numeric

/-- Modelled from the spec: `RealAlgebraicNumberNR::create(value, isRoot)` (the class is
not part of the sources) allocates a new object in numeric representation with the
given value and root flag.  The address `addr` is the one the allocator hands out. -/
def RealAlgebraicNumberNR.create {α : Type} (addr : Nat) (value : α) (isRoot : Bool) :
    RealAlgebraicNumber α :=
  { addr := addr, value := value, isRoot := isRoot, rep := Representation.NR }

/-- Modelled from the spec: the comparator `carl::Less` (not part of the sources), the
strict total order by value. -/
def Less {α : Type} [LinearOrder α] (a b : RealAlgebraicNumber α) : Bool :=
  decide (a.value < b.value)

/-- Modelled from the spec: the comparator `carl::Equal` (not part of the sources),
equality of values. -/
def Equal {α : Type} [LinearOrder α] (a b : RealAlgebraicNumber α) : Bool :=
  decide (a.value = b.value)

/-! ## Standard library algorithms -/

/-- The loop of `std::lower_bound` on a forward range: `first` is the index of the
current left end, `len` the number of remaining candidates.  Every iteration makes
`len` smaller, so `fuel = len` iterations are enough. -/
def lower_bound_loop {β : Type} (comp : β → β → Bool) (l : List β) (value : β) :
    Nat → Nat → Nat → Nat
  | 0, first, _ => first
  | fuel + 1, first, len =>
    if len = 0 then first
    else
      let half := len / 2
      match l[first + half]? with
      | none => first
      | some middle =>
        if comp middle value then
          lower_bound_loop comp l value fuel (first + half + 1) (len - half - 1)
        else
          lower_bound_loop comp l value fuel first half

/-- The call `std::lower_bound(l.begin(), l.end(), value, comp)`: binary search for
the first position whose element is not `comp`-less than `value`. -/
def lower_bound {β : Type} (l : List β) (value : β) (comp : β → β → Bool) : Nat :=
  lower_bound_loop comp l value l.length 0 l.length

/-- The test `position != end() && Equal(*position, r)` of `insert`. -/
def equalAt {α : Type} [LinearOrder α] (l : List (RealAlgebraicNumber α)) (position : Nat)
    (r : RealAlgebraicNumber α) : Bool :=
  match l[position]? with
  | none => false
  | some x => Equal x r

/-- The call `l.insert(position, x)` of `std::list`. -/
def listInsert {β : Type} (l : List β) (position : Nat) (x : β) : List β :=
  l.take position ++ x :: l.drop position

/-- The list is strictly ascending under `Less`. -/
def StrictlyAscending {α : Type} [LinearOrder α] (l : List (RealAlgebraicNumber α)) : Prop :=
  l.Pairwise (fun a b => Less a b = true)

instance decidableStrictlyAscending {α : Type} [LinearOrder α]
    (l : List (RealAlgebraicNumber α)) : Decidable (StrictlyAscending l) :=
  inferInstanceAs (Decidable (l.Pairwise (fun a b => Less a b = true)))

/-! ## The sample set -/

/-- The six containers of `SampleSet`. -/
structure SampleSet (α : Type) where
  samples : List (RealAlgebraicNumber α)
  queue : List (RealAlgebraicNumber α)
  NRqueue : List (RealAlgebraicNumber α)
  IRqueue : List (RealAlgebraicNumber α)
  nonRootQueue : List (RealAlgebraicNumber α)
  rootQueue : List (RealAlgebraicNumber α)
deriving DecidableEq

namespace SampleSet

variable {α : Type} [LinearOrder α]

/-- The freshly constructed, empty sample set. -/
def empty : SampleSet α :=
  { samples := [], queue := [], NRqueue := [], IRqueue := [], nonRootQueue := [], rootQueue := [] }

/-- The method `SampleSet::insert(r)`.  Returns the new set, the returned iterator and the
`inserted` flag.  `fresh` is the address at which `create` allocates the numeric copy
when `r` is a numeric value held in an interval object. -/
def insert (s : SampleSet α) (r : RealAlgebraicNumber α) (fresh : Nat) :
    SampleSet α × Nat × Bool :=
  if r.isNumeric then
    let rNR := if r.isNumericRepresentation then r
      else RealAlgebraicNumberNR.create fresh r.value r.isRoot
    let position := if s.samples.isEmpty then 0 else lower_bound s.samples rNR Less
    if !s.samples.isEmpty && equalAt s.samples position rNR then
      (s, position, false)
    else
      ({ samples := listInsert s.samples position rNR
         queue := s.queue ++ [rNR]
         NRqueue := s.NRqueue ++ [rNR]
         IRqueue := s.IRqueue
         nonRootQueue := if rNR.isRoot then s.nonRootQueue else s.nonRootQueue ++ [rNR]
         rootQueue := if rNR.isRoot then s.rootQueue ++ [rNR] else s.rootQueue },
       position, true)
  else
    let position := if s.samples.isEmpty then 0 else lower_bound s.samples r Less
    if !s.samples.isEmpty && equalAt s.samples position r then
      (s, position, false)
    else
      ({ samples := listInsert s.samples position r
         queue := s.queue ++ [r]
         NRqueue := s.NRqueue
         IRqueue := s.IRqueue ++ [r]
         nonRootQueue := if r.isRoot then s.nonRootQueue else s.nonRootQueue ++ [r]
         rootQueue := if r.isRoot then s.rootQueue ++ [r] else s.rootQueue },
       position, true)

/-- The method `SampleSet::removeFromNonrootRoot(r)`. -/
def removeFromNonrootRoot (s : SampleSet α) (r : RealAlgebraicNumber α) : Option (SampleSet α) :=
  if r.isRoot then
    let pos := s.rootQueue.indexOf r
    if pos = s.rootQueue.length then none
    else some { s with rootQueue := s.rootQueue.eraseIdx pos }
  else
    let pos := s.nonRootQueue.indexOf r
    if pos = s.nonRootQueue.length then none
    else some { s with nonRootQueue := s.nonRootQueue.eraseIdx pos }

/-- The method `SampleSet::removeFromQueue(r)`. -/
def removeFromQueue (s : SampleSet α) (r : RealAlgebraicNumber α) : Option (SampleSet α) :=
  let pos := s.queue.indexOf r
  if pos = s.queue.length then none
  else some { s with queue := s.queue.eraseIdx pos }

/-- The method `SampleSet::removeFromNRIR(r)`. -/
def removeFromNRIR (s : SampleSet α) (r : RealAlgebraicNumber α) : Option (SampleSet α) :=
  if r.isNumericRepresentation then
    let pos := s.NRqueue.indexOf r
    if pos = s.NRqueue.length then none
    else some { s with NRqueue := s.NRqueue.eraseIdx pos }
  else
    let pos := s.IRqueue.indexOf r
    if pos = s.IRqueue.length then none
    else some { s with IRqueue := s.IRqueue.eraseIdx pos }

/-- The method `SampleSet::remove(position)`.  Returns the new set and the iterator returned by
`samples.erase(position)`, which points to the element that followed. -/
def remove (s : SampleSet α) (position : Nat) : Option (SampleSet α × Nat) :=
  match s.samples[position]? with
  | none => none
  | some r =>
    match s.removeFromQueue r with
    | none => none
    | some s1 =>
      match s1.removeFromNRIR r with
      | none => none
      | some s2 =>
        match s2.removeFromNonrootRoot r with
        | none => none
        | some s3 => some ({ s3 with samples := s3.samples.eraseIdx position }, position)

/-- The method `SampleSet::next()`. -/
def next (s : SampleSet α) : Option (RealAlgebraicNumber α) :=
  if s.samples.isEmpty then none else s.queue.head?

/-- The method `SampleSet::nextNR()`. -/
def nextNR (s : SampleSet α) : Option (RealAlgebraicNumber α) :=
  if s.samples.isEmpty then none
  else if s.NRqueue.isEmpty then s.IRqueue.head?
  else s.NRqueue.head?

/-- The method `SampleSet::nextNonRoot()`. -/
def nextNonRoot (s : SampleSet α) : Option (RealAlgebraicNumber α) :=
  if s.samples.isEmpty then none
  else if s.nonRootQueue.isEmpty then s.rootQueue.head?
  else s.nonRootQueue.head?

/-- The method `SampleSet::nextRoot()`. -/
def nextRoot (s : SampleSet α) : Option (RealAlgebraicNumber α) :=
  if s.samples.isEmpty then none
  else if s.rootQueue.isEmpty then s.nonRootQueue.head?
  else s.rootQueue.head?

/-- The call `l.pop_front()` of `std::list`. -/
def pop_front {β : Type} (l : List β) : Option (List β) :=
  match l with
  | [] => none
  | _ :: t => some t

/-- The method `SampleSet::pop()`. -/
def pop (s : SampleSet α) : Option (SampleSet α) :=
  if s.samples.isEmpty then some s
  else
    match s.next with
    | none => none
    | some r =>
      let position := lower_bound s.samples r Less
      if position = s.samples.length then none
      else
        match pop_front s.queue with
        | none => none
        | some q =>
          let s1 := { s with samples := s.samples.eraseIdx position, queue := q }
          match s1.removeFromNRIR r with
          | none => none
          | some s2 => s2.removeFromNonrootRoot r

/-- The method `SampleSet::popNR()`. -/
def popNR (s : SampleSet α) : Option (SampleSet α) :=
  if s.samples.isEmpty then some s
  else
    match s.nextNR with
    | none => none
    | some r =>
      let position := lower_bound s.samples r Less
      if position = s.samples.length then none
      else
        let s1 := { s with samples := s.samples.eraseIdx position }
        let s2 : Option (SampleSet α) :=
          if s1.NRqueue.isEmpty then (pop_front s1.IRqueue).map (fun q => { s1 with IRqueue := q })
          else (pop_front s1.NRqueue).map (fun q => { s1 with NRqueue := q })
        match s2 with
        | none => none
        | some s2 =>
          match s2.removeFromQueue r with
          | none => none
          | some s3 => s3.removeFromNonrootRoot r

/-- The method `SampleSet::popNonroot()`. -/
def popNonroot (s : SampleSet α) : Option (SampleSet α) :=
  if s.samples.isEmpty then some s
  else
    match s.nextNonRoot with
    | none => none
    | some r =>
      let position := lower_bound s.samples r Less
      if position = s.samples.length then none
      else
        let s1 := { s with samples := s.samples.eraseIdx position }
        let s2 : Option (SampleSet α) :=
          if s1.nonRootQueue.isEmpty then
            (pop_front s1.rootQueue).map (fun q => { s1 with rootQueue := q })
          else (pop_front s1.nonRootQueue).map (fun q => { s1 with nonRootQueue := q })
        match s2 with
        | none => none
        | some s2 =>
          match s2.removeFromNRIR r with
          | none => none
          | some s3 => s3.removeFromQueue r

/-- The method `SampleSet::popRoot()`. -/
def popRoot (s : SampleSet α) : Option (SampleSet α) :=
  if s.samples.isEmpty then some s
  else
    match s.nextRoot with
    | none => none
    | some r =>
      let position := lower_bound s.samples r Less
      if position = s.samples.length then none
      else
        let s1 := { s with samples := s.samples.eraseIdx position }
        let s2 : Option (SampleSet α) :=
          if s1.rootQueue.isEmpty then
            (pop_front s1.nonRootQueue).map (fun q => { s1 with nonRootQueue := q })
          else (pop_front s1.rootQueue).map (fun q => { s1 with rootQueue := q })
        match s2 with
        | none => none
        | some s2 =>
          match s2.removeFromNRIR r with
          | none => none
          | some s3 => s3.removeFromQueue r

/-- The method `SampleSet::simplify(from, to, fromIt)`: `fromIt` is an iterator into `IRqueue`.
Returns the new set, the updated `fromIt` and the boolean result. -/
def simplifyIt (s : SampleSet α) (from_ to_ : RealAlgebraicNumber α) (fromIt : Nat) :
    Option (SampleSet α × Nat × Bool) :=
  if from_.isRoot != to_.isRoot then none
  else
    let position := lower_bound s.samples from_ Less
    if position = s.samples.length then some (s, fromIt, false)
    else if s.IRqueue.length ≤ fromIt then none
    else
      let s1 := { s with
        samples := s.samples.set position to_
        NRqueue := s.NRqueue ++ [to_]
        IRqueue := s.IRqueue.eraseIdx fromIt }
      let s2 : Option (SampleSet α) :=
        if from_.isRoot then
          let position := s1.rootQueue.indexOf from_
          if position = s1.rootQueue.length then none
          else some { s1 with rootQueue := s1.rootQueue.set position to_ }
        else
          let position := s1.nonRootQueue.indexOf from_
          if position = s1.nonRootQueue.length then none
          else some { s1 with nonRootQueue := s1.nonRootQueue.set position to_ }
      match s2 with
      | none => none
      | some s2 =>
        let queuePosition := s2.queue.indexOf from_
        if queuePosition = s2.queue.length then none
        else some ({ s2 with queue := s2.queue.set queuePosition to_ }, fromIt, true)

/-- The method `SampleSet::simplify(from, to)`. -/
def simplify (s : SampleSet α) (from_ to_ : RealAlgebraicNumber α) : Option (SampleSet α × Bool) :=
  let position := s.IRqueue.indexOf from_
  if position ≠ s.IRqueue.length then
    (s.simplifyIt from_ to_ position).map (fun res => (res.1, res.2.2))
  else some (s, false)

/-- The method `SampleSet::contains(r)`. -/
def contains (s : SampleSet α) (r : RealAlgebraicNumber α) : Bool :=
  let pos := lower_bound s.samples r Less
  pos != s.samples.length

/-- Insert a list of samples one after the other, each with the address its numeric
copy would be allocated at. -/
def insertAll (s : SampleSet α) : List (RealAlgebraicNumber α × Nat) → SampleSet α
  | [] => s
  | (r, fresh) :: rs => insertAll (s.insert r fresh).1 rs

/-- The states the set can be in: it starts empty and is changed only by the public
operations.  `simplify(from, to)` is called with a numeric object `to` that has the
value of `from`. -/
inductive Reachable : SampleSet α → Prop
  | empty : Reachable empty
  | insert (s : SampleSet α) (r : RealAlgebraicNumber α) (fresh : Nat) :
      Reachable s → Reachable (s.insert r fresh).1
  | remove (s s' : SampleSet α) (position next : Nat) :
      Reachable s → s.remove position = some (s', next) → Reachable s'
  | pop (s s' : SampleSet α) : Reachable s → s.pop = some s' → Reachable s'
  | popNR (s s' : SampleSet α) : Reachable s → s.popNR = some s' → Reachable s'
  | popNonroot (s s' : SampleSet α) : Reachable s → s.popNonroot = some s' → Reachable s'
  | popRoot (s s' : SampleSet α) : Reachable s → s.popRoot = some s' → Reachable s'
  | simplify (s s' : SampleSet α) (from_ to_ : RealAlgebraicNumber α) (b : Bool) :
      Reachable s → to_.isNumericRepresentation = true → to_.value = from_.value →
      s.simplify from_ to_ = some (s', b) → Reachable s'

/-- The list `q` holds, without repetition, exactly the stored samples that satisfy `p`. -/
def IsView (q samples : List (RealAlgebraicNumber α)) (p : RealAlgebraicNumber α → Bool) : Prop :=
  q.Nodup ∧ ∀ x, x ∈ q ↔ x ∈ samples ∧ p x = true

/-- The consistency of the six views: `samples` is strictly ascending, `queue` holds
every stored sample once, and each bucket holds the stored samples of its class once. -/
structure Inv (s : SampleSet α) : Prop where
  sorted : StrictlyAscending s.samples
  queue : IsView s.queue s.samples (fun _ => true)
  NR : IsView s.NRqueue s.samples (fun x => x.isNumericRepresentation)
  IR : IsView s.IRqueue s.samples (fun x => !x.isNumericRepresentation)
  root : IsView s.rootQueue s.samples (fun x => x.isRoot)
  nonRoot : IsView s.nonRootQueue s.samples (fun x => !x.isRoot)

/-- The handle `insert` goes on with after its conversion step (lines 21-29): the
numeric object `rNR` when `r` is numeric, and `r` itself otherwise. -/
def insertedSample (r : RealAlgebraicNumber α) (fresh : Nat) : RealAlgebraicNumber α :=
  if r.isNumeric then
    if r.isNumericRepresentation then r
    else RealAlgebraicNumberNR.create fresh r.value r.isRoot
  else r

end SampleSet

/-! ## Bulk simplification and swap -/

/-- The method `getRefinementCount()` of an interval object: the number of refinement
steps made so far. -/
def RealAlgebraicNumber.getRefinementCount {α : Type} (r : RealAlgebraicNumber α) : Nat :=
  match r.rep with
  | Representation.NR => 0
  | Representation.IR _ refinementCount => refinementCount

/-- Modelled from the spec: the method `refine()` of an interval object (the class is not
part of the sources) makes one narrowing step.  The object keeps its address, the value
it denotes and its root flag; the step is counted; whether the step makes the interval
collapse to its exact value is decided by the interval data, which the sample set does
not see, and is given by `collapses`.  A collapsed object is left as it is. -/
def RealAlgebraicNumber.refine {α : Type} (collapses : RealAlgebraicNumber α → Bool)
    (r : RealAlgebraicNumber α) : RealAlgebraicNumber α :=
  match r.rep with
  | Representation.NR => r
  | Representation.IR numeric refinementCount =>
    if numeric then r
    else { r with rep := Representation.IR (collapses r) (refinementCount + 1) }

/-- A change of the object `x` into `x'`, seen through a list of handles: every handle to
the object now shows the new content. -/
def replaceObject {α : Type} [DecidableEq α] (x x' : RealAlgebraicNumber α)
    (l : List (RealAlgebraicNumber α)) : List (RealAlgebraicNumber α) :=
  l.map (fun y => if y = x then x' else y)

/-- The statement `m[key] = value` of `std::unordered_map`: the entry of `key` is
overwritten, or a new entry is added.  The order of the entries has no meaning. -/
def mapAssign {κ ν : Type} [DecidableEq κ] (m : List (κ × ν)) (key : κ) (value : ν) :
    List (κ × ν) :=
  if m.any (fun p => decide (p.1 = key)) then
    m.map (fun p => if p.1 = key then (key, value) else p)
  else m ++ [(key, value)]

/-- How a run ends: it returns a result, or it is fatal (an assertion fails or a library
call is made outside its contract), or the fuel of the model is used up. -/
inductive Outcome (σ : Type) where
  | returned (result : σ) : Outcome σ
  | fatal : Outcome σ
  | outOfFuel : Outcome σ
deriving DecidableEq

/-- The result of a run that returned. -/
def Outcome.result? {σ : Type} : Outcome σ → Option σ
  | Outcome.returned result => some result
  | Outcome.fatal => none
  | Outcome.outOfFuel => none

/-- The variables of bulk `simplify()`: the set, the iterator `irIter` into `IRqueue`, and
the pair `simplification` (`first` is the substitution map, `second` the flag).  Two
records of what the run did are kept along: the objects `refine()` was called on, in the
order of the calls, and the number of times the loop body was entered. -/
structure SimplifyState (α : Type) where
  set : SampleSet α
  irIter : Nat
  first : List (RealAlgebraicNumber α × RealAlgebraicNumber α)
  second : Bool
  refined : List (RealAlgebraicNumber α)
  iterations : Nat
deriving DecidableEq

namespace SampleSet

variable {α : Type} [LinearOrder α]

/-- A change of the object `x` into `x'`, seen through the six views. -/
def mutate (s : SampleSet α) (x x' : RealAlgebraicNumber α) : SampleSet α :=
  { samples := replaceObject x x' s.samples
    queue := replaceObject x x' s.queue
    NRqueue := replaceObject x x' s.NRqueue
    IRqueue := replaceObject x x' s.IRqueue
    nonRootQueue := replaceObject x x' s.nonRootQueue
    rootQueue := replaceObject x x' s.rootQueue }

/-- The loop of bulk `simplify()` (lines 226-241).  `collapses` drives `refine()`, and
`fresh x` is the address at which `create` allocates the numeric copy of `x`.  Every
pass of the body either erases the current element of `IRqueue` or moves `irIter` on, so
`fuel = IRqueue.size()` passes are enough. -/
def simplifyLoop (collapses : RealAlgebraicNumber α → Bool) (fresh : RealAlgebraicNumber α → Nat) :
    Nat → SimplifyState α → Outcome (SimplifyState α)
  | 0, st =>
    match st.set.IRqueue[st.irIter]? with
    | none => Outcome.returned st
    | some _ => Outcome.outOfFuel
  | fuel + 1, st =>
    match st.set.IRqueue[st.irIter]? with
    | none => Outcome.returned st
    | some x =>
      let refines : Bool := !x.isNumeric && x.getRefinementCount == 0
      let x1 := if refines then x.refine collapses else x
      let st1 : SimplifyState α :=
        if refines then
          { st with
            set := st.set.mutate x x1
            first := st.first.map (fun p =>
              (if p.1 = x then x1 else p.1, if p.2 = x then x1 else p.2))
            refined := st.refined ++ [x] }
        else st
      if x1.isNumeric then
        let nr := RealAlgebraicNumberNR.create (fresh x1) x1.value x1.isRoot
        match st1.set.simplifyIt x1 nr st1.irIter with
        | none => Outcome.fatal
        | some (_, _, false) => Outcome.fatal
        | some (set2, irIter2, true) =>
          match set2.IRqueue[irIter2]? with
          | none => Outcome.fatal
          | some key =>
            simplifyLoop collapses fresh fuel
              { set := set2
                irIter := irIter2
                first := mapAssign st1.first key nr
                second := true
                refined := st1.refined
                iterations := st1.iterations + 1 }
      else
        simplifyLoop collapses fresh fuel
          { st1 with irIter := st1.irIter + 1, iterations := st1.iterations + 1 }

/-- The method `SampleSet::simplify()` (bulk sweep).  The test `this->empty()` is the
emptiness of `samples`; the pair `simplification` starts as the empty map and `false`. -/
def simplifyBulk (collapses : RealAlgebraicNumber α → Bool) (fresh : RealAlgebraicNumber α → Nat)
    (s : SampleSet α) : Outcome (SimplifyState α) :=
  if s.samples.isEmpty then
    Outcome.returned
      { set := s, irIter := 0, first := [], second := false, refined := [], iterations := 0 }
  else
    simplifyLoop collapses fresh s.IRqueue.length
      { set := s, irIter := 0, first := [], second := false, refined := [], iterations := 0 }

/-- The function `std::swap(lhs, rhs)` for sample sets (lines 304-311).  Returns the new
`lhs` and the new `rhs`. -/
def swap (lhs rhs : SampleSet α) : SampleSet α × SampleSet α :=
  ({ lhs with
      samples := rhs.samples
      NRqueue := rhs.NRqueue
      IRqueue := rhs.IRqueue
      nonRootQueue := rhs.nonRootQueue
      rootQueue := rhs.rootQueue },
   { rhs with
      samples := lhs.samples
      NRqueue := lhs.NRqueue
      IRqueue := lhs.IRqueue
      nonRootQueue := lhs.nonRootQueue
      rootQueue := lhs.rootQueue })

end SampleSet

namespace SampleSet

variable {α : Type} [LinearOrder α]

/-- The states the set can be in, together with the times of insertion.  `clock` is
the number of calls made so far, and `born x` is the value of `clock` at the call of
`insert` that stored the sample `x`.  A sample that `simplify(from, to)` puts in the
place of `from` takes over the time of `from`. -/
inductive ReachableAt : SampleSet α → (RealAlgebraicNumber α → Nat) → Nat → Prop
  | empty : ReachableAt empty (fun _ => 0) 0
  | insert (s : SampleSet α) (born : RealAlgebraicNumber α → Nat) (clock : Nat)
      (r : RealAlgebraicNumber α) (fresh : Nat) :
      ReachableAt s born clock →
      ReachableAt (s.insert r fresh).1
        (if (s.insert r fresh).2.2 = true then
          Function.update born (insertedSample r fresh) clock
         else born)
        (clock + 1)
  | remove (s s' : SampleSet α) (born : RealAlgebraicNumber α → Nat) (clock : Nat)
      (position next : Nat) :
      ReachableAt s born clock → s.remove position = some (s', next) →
      ReachableAt s' born (clock + 1)
  | pop (s s' : SampleSet α) (born : RealAlgebraicNumber α → Nat) (clock : Nat) :
      ReachableAt s born clock → s.pop = some s' → ReachableAt s' born (clock + 1)
  | popNR (s s' : SampleSet α) (born : RealAlgebraicNumber α → Nat) (clock : Nat) :
      ReachableAt s born clock → s.popNR = some s' → ReachableAt s' born (clock + 1)
  | popNonroot (s s' : SampleSet α) (born : RealAlgebraicNumber α → Nat) (clock : Nat) :
      ReachableAt s born clock → s.popNonroot = some s' → ReachableAt s' born (clock + 1)
  | popRoot (s s' : SampleSet α) (born : RealAlgebraicNumber α → Nat) (clock : Nat) :
      ReachableAt s born clock → s.popRoot = some s' → ReachableAt s' born (clock + 1)
  | simplify (s s' : SampleSet α) (born : RealAlgebraicNumber α → Nat) (clock : Nat)
      (from_ to_ : RealAlgebraicNumber α) (b : Bool) :
      ReachableAt s born clock → to_.isNumericRepresentation = true →
      to_.value = from_.value → s.simplify from_ to_ = some (s', b) →
      ReachableAt s' (if b = true then Function.update born to_ (born from_) else born)
        (clock + 1)

end SampleSet

namespace SampleSet

variable {α : Type} [LinearOrder α]

/-- The object `x` as one pass of the loop of bulk `simplify()` sees it at the test
`isNumeric()` (line 230): after `refine()` if `x` was neither numeric nor ever refined
(lines 227-229), as it was otherwise. -/
def examined (collapses : RealAlgebraicNumber α → Bool) (x : RealAlgebraicNumber α) :
    RealAlgebraicNumber α :=
  if !x.isNumeric && x.getRefinementCount == 0 then x.refine collapses else x

/-- The numeric object the pass for `x` creates when `x` is numeric at the test
(line 231). -/
def numericCopy (collapses : RealAlgebraicNumber α → Bool) (fresh : RealAlgebraicNumber α → Nat)
    (x : RealAlgebraicNumber α) : RealAlgebraicNumber α :=
  RealAlgebraicNumberNR.create (fresh (examined collapses x)) (examined collapses x).value
    (examined collapses x).isRoot

/-- The handle that stands in the place of `x` after the pass for `x`: the numeric copy
if `x` was numeric at the test, the object `x` itself otherwise. -/
def swept (collapses : RealAlgebraicNumber α → Bool) (fresh : RealAlgebraicNumber α → Nat)
    (x : RealAlgebraicNumber α) : RealAlgebraicNumber α :=
  if (examined collapses x).isNumeric then numericCopy collapses fresh x
  else examined collapses x

end SampleSet

namespace SampleSet

variable {α : Type} [LinearOrder α]

/-- The entries the loop of bulk `simplify()` writes into the map while it sweeps the
list `l` of interval samples: one for every sample that is numeric at its test, under
the key the iterator points to after the promotion, which is the sample behind it. -/
def writtenEntries (collapses : RealAlgebraicNumber α → Bool)
    (fresh : RealAlgebraicNumber α → Nat) :
    List (RealAlgebraicNumber α) → List (RealAlgebraicNumber α × RealAlgebraicNumber α)
  | [] => []
  | [_] => []
  | x :: y :: t =>
    (if (examined collapses x).isNumeric then
      [(examined collapses y, numericCopy collapses fresh x)]
     else []) ++ writtenEntries collapses fresh (y :: t)

end SampleSet

/-! ## Single calls -/

namespace SampleSet

variable {α : Type} [LinearOrder α]

/-- One call of an operation other than `simplify` that returns: it takes the set from
the first state to the second. -/
inductive PlainStep : SampleSet α → SampleSet α → Prop
  | insert (s : SampleSet α) (r : RealAlgebraicNumber α) (fresh : Nat) :
      PlainStep s (s.insert r fresh).1
  | remove (s s' : SampleSet α) (position next : Nat) :
      s.remove position = some (s', next) → PlainStep s s'
  | pop (s s' : SampleSet α) : s.pop = some s' → PlainStep s s'
  | popNR (s s' : SampleSet α) : s.popNR = some s' → PlainStep s s'
  | popNonroot (s s' : SampleSet α) : s.popNonroot = some s' → PlainStep s s'
  | popRoot (s s' : SampleSet α) : s.popRoot = some s' → PlainStep s s'

/-- One call of `simplify(from, to)` that returns, made with a numeric object `to` that
has the value of `from`. -/
inductive SimplifyStep : SampleSet α → SampleSet α → Prop
  | simplify (s s' : SampleSet α) (from_ to_ : RealAlgebraicNumber α) (b : Bool) :
      to_.isNumericRepresentation = true → to_.value = from_.value →
      s.simplify from_ to_ = some (s', b) → SimplifyStep s s'

/-- One call of bulk `simplify()` that returns. -/
inductive BulkStep : SampleSet α → SampleSet α → Prop
  | simplify (s : SampleSet α) (collapses : RealAlgebraicNumber α → Bool)
      (fresh : RealAlgebraicNumber α → Nat) (res : SimplifyState α) :
      s.simplifyBulk collapses fresh = Outcome.returned res → BulkStep s res.set

/-- The states the set can be in when bulk `simplify()` is among the operations: it
starts empty and is changed by calls of `insert`, `remove`, the four pops,
`simplify(from, to)` and `simplify()`. -/
inductive ReachableWithBulk : SampleSet α → Prop
  | empty : ReachableWithBulk empty
  | plain (s s' : SampleSet α) : ReachableWithBulk s → PlainStep s s' → ReachableWithBulk s'
  | simplify (s s' : SampleSet α) :
      ReachableWithBulk s → SimplifyStep s s' → ReachableWithBulk s'
  | bulk (s s' : SampleSet α) : ReachableWithBulk s → BulkStep s s' → ReachableWithBulk s'

/-- The states the set can be in as long as neither `simplify(from, to)` nor `simplify()`
has been called. -/
inductive ReachableWithoutSimplify : SampleSet α → Prop
  | empty : ReachableWithoutSimplify empty
  | plain (s s' : SampleSet α) :
      ReachableWithoutSimplify s → PlainStep s s' → ReachableWithoutSimplify s'

/-- The set with the handle `x` stored: at its sorted position in `samples`, and at the
back of `queue` and of the two buckets of its class. -/
def extended (s : SampleSet α) (x : RealAlgebraicNumber α) : SampleSet α :=
  { samples := listInsert s.samples (lower_bound s.samples x Less) x
    queue := s.queue ++ [x]
    NRqueue := if x.isNumericRepresentation = true then s.NRqueue ++ [x] else s.NRqueue
    IRqueue := if x.isNumericRepresentation = true then s.IRqueue else s.IRqueue ++ [x]
    nonRootQueue := if x.isRoot = true then s.nonRootQueue else s.nonRootQueue ++ [x]
    rootQueue := if x.isRoot = true then s.rootQueue ++ [x] else s.rootQueue }

/-- The set with the handle `r` erased from every container. -/
def erased (s : SampleSet α) (r : RealAlgebraicNumber α) : SampleSet α :=
  { samples := s.samples.erase r
    queue := s.queue.erase r
    NRqueue := s.NRqueue.erase r
    IRqueue := s.IRqueue.erase r
    nonRootQueue := s.nonRootQueue.erase r
    rootQueue := s.rootQueue.erase r }

/-- The set with the interval handle `x` promoted to the numeric handle `n`: `n` stands
in the place of `x` in `samples`, `queue` and the root buckets, `x` is erased from
`IRqueue` and `n` is at the back of `NRqueue`. -/
def promoted (s : SampleSet α) (x n : RealAlgebraicNumber α) : SampleSet α :=
  { samples := replaceObject x n s.samples
    queue := replaceObject x n s.queue
    NRqueue := s.NRqueue ++ [n]
    IRqueue := s.IRqueue.erase x
    nonRootQueue := replaceObject x n s.nonRootQueue
    rootQueue := replaceObject x n s.rootQueue }

end SampleSet

namespace SampleSet

variable {α : Type} [LinearOrder α]

/-- The buckets `IRqueue`, `rootQueue` and `nonRootQueue` hold their samples in the order
of `queue`: each is the sublist of `queue` made of the samples of its class. -/
def FollowsQueue (s : SampleSet α) : Prop :=
  s.IRqueue = s.queue.filter (fun x => !x.isNumericRepresentation) ∧
  s.rootQueue = s.queue.filter (fun x => x.isRoot) ∧
  s.nonRootQueue = s.queue.filter (fun x => !x.isRoot)

end SampleSet

/-! ## Bulk simplification, with the way the run ends -/

/-- How a run of the loop of bulk `simplify()` ends: the loop condition fails and the
method returns; or an assertion inside `simplify(from, to, fromIt)` fails; or that call
returns `false` and `assert(false)` (line 236) is reached; or the map is written through
`*irIter` while `irIter` is `end()` (line 233); or the fuel of the model is used up. -/
inductive SweepEnd where
  | returned : SweepEnd
  | promotionFatal : SweepEnd
  | assertFalse : SweepEnd
  | iteratorAtEnd : SweepEnd
  | outOfFuel : SweepEnd
deriving DecidableEq

/-- The outcome of a run that ends in the given way in the given loop state. -/
def SweepEnd.toOutcome {σ : Type} (e : SweepEnd) (st : σ) : Outcome σ :=
  match e with
  | SweepEnd.returned => Outcome.returned st
  | SweepEnd.outOfFuel => Outcome.outOfFuel
  | _ => Outcome.fatal

namespace SampleSet

variable {α : Type} [LinearOrder α]

/-- The loop of bulk `simplify()` (lines 226-241) once more, now with the way the run
ends and the loop state it ends in, also when it ends fatally.  The state of a fatal end
is the one at the failing statement; `iterations` counts the passes that were entered,
the fatal one included. -/
def simplifyLoopRun (collapses : RealAlgebraicNumber α → Bool)
    (fresh : RealAlgebraicNumber α → Nat) :
    Nat → SimplifyState α → SweepEnd × SimplifyState α
  | 0, st =>
    match st.set.IRqueue[st.irIter]? with
    | none => (SweepEnd.returned, st)
    | some _ => (SweepEnd.outOfFuel, st)
  | fuel + 1, st =>
    match st.set.IRqueue[st.irIter]? with
    | none => (SweepEnd.returned, st)
    | some x =>
      let refines : Bool := !x.isNumeric && x.getRefinementCount == 0
      let x1 := if refines then x.refine collapses else x
      let st1 : SimplifyState α :=
        if refines then
          { st with
            set := st.set.mutate x x1
            first := st.first.map (fun p =>
              (if p.1 = x then x1 else p.1, if p.2 = x then x1 else p.2))
            refined := st.refined ++ [x] }
        else st
      if x1.isNumeric then
        let nr := RealAlgebraicNumberNR.create (fresh x1) x1.value x1.isRoot
        match st1.set.simplifyIt x1 nr st1.irIter with
        | none => (SweepEnd.promotionFatal, { st1 with iterations := st1.iterations + 1 })
        | some (_, _, false) =>
          (SweepEnd.assertFalse, { st1 with iterations := st1.iterations + 1 })
        | some (set2, irIter2, true) =>
          match set2.IRqueue[irIter2]? with
          | none =>
            (SweepEnd.iteratorAtEnd,
              { st1 with set := set2, irIter := irIter2, iterations := st1.iterations + 1 })
          | some key =>
            simplifyLoopRun collapses fresh fuel
              { set := set2
                irIter := irIter2
                first := mapAssign st1.first key nr
                second := true
                refined := st1.refined
                iterations := st1.iterations + 1 }
      else
        simplifyLoopRun collapses fresh fuel
          { st1 with irIter := st1.irIter + 1, iterations := st1.iterations + 1 }

/-- The method `SampleSet::simplify()` (bulk sweep) with the way the run ends and the
loop state it ends in. -/
def simplifyBulkRun (collapses : RealAlgebraicNumber α → Bool)
    (fresh : RealAlgebraicNumber α → Nat) (s : SampleSet α) : SweepEnd × SimplifyState α :=
  if s.samples.isEmpty then
    (SweepEnd.returned,
      { set := s, irIter := 0, first := [], second := false, refined := [], iterations := 0 })
  else
    simplifyLoopRun collapses fresh s.IRqueue.length
      { set := s, irIter := 0, first := [], second := false, refined := [], iterations := 0 }

/-- The operation that claim C35 compares `pop()` with, written after the words of the
claim: the removal at the position in `samples` of the sample that `next()` returns. -/
def popByRemove (s : SampleSet α) : Option (SampleSet α) :=
  match s.next with
  | none => none
  | some r => (s.remove (s.samples.indexOf r)).map Prod.fst

/-- The operation that claim C35 compares `popNR()` with, written after the words of
the claim: the removal at the position in `samples` of the sample that `nextNR()`
returns. -/
def popNRByRemove (s : SampleSet α) : Option (SampleSet α) :=
  match s.nextNR with
  | none => none
  | some r => (s.remove (s.samples.indexOf r)).map Prod.fst

/-- The operation that claim C35 compares `popNonroot()` with, written after the words
of the claim: the removal at the position in `samples` of the sample that
`nextNonRoot()` returns. -/
def popNonrootByRemove (s : SampleSet α) : Option (SampleSet α) :=
  match s.nextNonRoot with
  | none => none
  | some r => (s.remove (s.samples.indexOf r)).map Prod.fst

/-- The operation that claim C35 compares `popRoot()` with, written after the words of
the claim: the removal at the position in `samples` of the sample that `nextRoot()`
returns. -/
def popRootByRemove (s : SampleSet α) : Option (SampleSet α) :=
  match s.nextRoot with
  | none => none
  | some r => (s.remove (s.samples.indexOf r)).map Prod.fst

end SampleSet

/-! ## Concrete samples used in the examples -/

/-- A numeric sample with an integer value. -/
def numSample (addr : Nat) (value : Int) (isRoot : Bool) : RealAlgebraicNumber Int :=
  { addr := addr, value := value, isRoot := isRoot, rep := Representation.NR }

/-- An interval sample denoting an integer value. -/
def intSample (addr : Nat) (value : Int) (isRoot : Bool) (numeric : Bool) :
    RealAlgebraicNumber Int :=
  { addr := addr, value := value, isRoot := isRoot, rep := Representation.IR numeric 0 }

/-- Scenario B: insert `-2` (root), `0` (non-root), `3` (root), all numeric. -/
def scenarioB : SampleSet Int :=
  SampleSet.insertAll SampleSet.empty
    [(numSample 1 (-2) true, 100), (numSample 2 0 false, 101), (numSample 3 3 true, 102)]

/-- A set with two interval samples and one numeric sample: the interval root `-1`, the
numeric non-root `0`, and the root `4` handed over as a collapsed interval, which
`insert` stores as a numeric copy. -/
def mixedSet : SampleSet Int :=
  SampleSet.insertAll SampleSet.empty
    [(intSample 1 (-1) true false, 100), (numSample 2 0 false, 101),
     (intSample 3 4 true true, 102)]

/-- A set holding the single numeric sample `5`. -/
def singletonFive : SampleSet Int :=
  SampleSet.insertAll SampleSet.empty [(numSample 1 5 false, 100)]

/-- Scenario C: a set holding one interval sample that denotes `2` and has never been
refined. -/
def scenarioC : SampleSet Int :=
  SampleSet.insertAll SampleSet.empty [(intSample 1 2 true false, 100)]

/-- A set holding the two interval samples `2` and `7`, both never refined. -/
def twoIntervals : SampleSet Int :=
  SampleSet.insertAll SampleSet.empty
    [(intSample 1 2 true false, 100), (intSample 4 7 false false, 101)]

/-- A refinement oracle under which exactly the object at address `1` collapses. -/
def collapsesFirst (r : RealAlgebraicNumber Int) : Bool := r.addr == 1

/-- An allocator for the numeric copies made by bulk `simplify()`. -/
def freshAddr (r : RealAlgebraicNumber Int) : Nat := r.addr + 1000

/-- A state that no sequence of calls produces: an interval sample sits in `IRqueue` but
not in `samples`. -/
def strayInterval : SampleSet Int :=
  { samples := [], queue := [], NRqueue := [], IRqueue := [intSample 1 2 true false],
    nonRootQueue := [], rootQueue := [] }

/-- The times of insertion in scenario B: `-2` at time `0`, `0` at time `1`, `3` at
time `2`. -/
def bornB : RealAlgebraicNumber Int → Nat :=
  Function.update
    (Function.update
      (Function.update (fun _ => 0) (numSample 1 (-2) true) 0)
      (numSample 2 0 false) 1)
    (numSample 3 3 true) 2

/-- Scenario A: two interval roots with the values `a` and `b` and a numeric non-root
with the value `c`, inserted in this order. -/
def scenarioA {α : Type} [LinearOrder α] (a b c : α) : SampleSet α :=
  SampleSet.insertAll SampleSet.empty
    [({ addr := 1, value := a, isRoot := true, rep := Representation.IR false 0 }, 100),
     ({ addr := 2, value := b, isRoot := true, rep := Representation.IR false 0 }, 101),
     ({ addr := 3, value := c, isRoot := false, rep := Representation.NR }, 102)]

/-- The set `mixedSet` after the call `simplify(from, to)` that puts a numeric object at
address `50` in the place of the interval root `-1`. -/
def mixedSetPromoted : SampleSet Int :=
  SampleSet.promoted mixedSet (intSample 1 (-1) true false) (numSample 50 (-1) true)

end cad

/-! ## Linear Diophantine equations (`src/carl/core/DiophantineEquation.tpp`) -/

/-- Modelled from the spec: `carl::quotient` for integers (this overload is not part of
the sources), the quotient of the division that truncates towards zero. -/
def quotient (a b : Int) : Int := Int.tdiv a b

/-- Modelled from the spec: `carl::mod` for integers (not part of the sources), the
remainder of the division that truncates towards zero.  A zero divisor is outside its
contract. -/
def mod (a b : Int) : Option Int :=
  if b = 0 then none else some (Int.tmod a b)

/-- Modelled from the spec: `carl::div` for integers (not part of the sources), the
quotient of the division that truncates towards zero.  A zero divisor is outside its
contract. -/
def div (a b : Int) : Option Int :=
  if b = 0 then none else some (Int.tdiv a b)

/-- The variables of the loop of `extended_gcd_integer`. -/
structure GcdState where
  r : Int
  old_r : Int
  s : Int
  old_s : Int
  t : Int
  old_t : Int
deriving DecidableEq

/-- The loop `while (r != 0)` of `extended_gcd_integer` (lines 113-127).  Every pass
makes `|r|` smaller, so `fuel = |r|` passes are enough; the result is `none` when the
fuel is used up. -/
def extended_gcd_loop : Nat → GcdState → Option GcdState
  | 0, st => if st.r = 0 then some st else none
  | fuel + 1, st =>
    if st.r = 0 then some st
    else
      let quot := quotient st.old_r st.r
      extended_gcd_loop fuel
        { r := st.old_r - quot * st.r
          old_r := st.r
          s := st.old_s - quot * st.s
          old_s := st.s
          t := st.old_t - quot * st.t
          old_t := st.t }

/-- The function `extended_gcd_integer(a, b, s, t)` (lines 86-135).  Returns the returned
value together with the values left in `s` and `t`. -/
def extended_gcd_integer (a b : Int) : Option (Int × Int × Int) :=
  if a = 0 ∧ b = 0 then some (0, 0, 0)
  else
    match extended_gcd_loop b.natAbs
        { r := b, old_r := a, s := 0, old_s := 1, t := 1, old_t := 0 } with
    | none => none
    | some st =>
      if st.old_r < 0 then some (-st.old_r, -st.old_s, -st.old_t)
      else some (st.old_r, st.old_s, st.old_t)

/-- A term of a polynomial with integer coefficients, as far as the solver consumes it:
its coefficient and the total degree of its monomial (`0` for a constant term). -/
structure Term where
  coeff : Int
  tdeg : Nat
deriving DecidableEq

/-- Modelled from the spec: `Term::isConstant()` (the class is not part of the sources):
the term has no monomial. -/
def Term.isConstant (t : Term) : Bool := t.tdeg == 0

/-- Modelled from the spec: `Term::isLinear()` (the class is not part of the sources):
the term is constant or its monomial has total degree one. -/
def Term.isLinear (t : Term) : Bool := decide (t.tdeg ≤ 1)

/-- A polynomial, as far as the solver consumes it: the vector `mTerms` of its terms,
the trailing term at the front and the leading term at the back. -/
structure MultivariatePolynomial where
  mTerms : List Term
deriving DecidableEq

namespace MultivariatePolynomial

/-- The method `isLinear()` (MultivariatePolynomial.tpp, lines 196-207) under a degree
ordering: the leading term is linear. -/
def isLinear (p : MultivariatePolynomial) : Bool :=
  if p.mTerms.length = 0 then true
  else
    match p.mTerms.getLast? with
    | none => true
    | some t => t.isLinear

/-- The method `hasConstantTerm()` (MultivariatePolynomial.tpp, lines 210-217): the
trailing term is constant. -/
def hasConstantTerm (p : MultivariatePolynomial) : Bool :=
  if p.mTerms.length = 0 then false
  else
    match p.mTerms.head? with
    | none => false
    | some t => t.isConstant

/-- Modelled from the spec: the method `constantPart()` (its definition is not part of
the sources): the coefficient of the constant term, and `0` if there is none. -/
def constantPart (p : MultivariatePolynomial) : Int :=
  match p.mTerms.head? with
  | none => 0
  | some t => if t.isConstant then t.coeff else 0

/-- The method `getTerms()`. -/
def getTerms (p : MultivariatePolynomial) : List Term := p.mTerms

end MultivariatePolynomial

/-- The loop `for (int i = 0; i < coeffs.size(); i++)` of `solveLinearDiophantine`
(lines 48-83), from the counter `i` on, with the current `fromExtendedGcd` and `currGcd`.
The result is `none` when a call is made outside its contract, and when the loop ends:
the function has no `return` behind the loop.  The loop makes at most `coeffs.size()`
passes, which is the `fuel` it is started with.  The counters `i` and `j` are `int` in
the source and natural numbers or integers here, which is the same for vectors of fewer
than `2^31` entries. -/
def solveLinearLoop (const_part : Int) (coeffs : List Int) :
    Nat → Nat → List Int → Int → Option (List Int)
  | 0, _, _, _ => none
  | fuel + 1, i, fromExtendedGcd, currGcd =>
    if coeffs.length ≤ i then none
    else if i = 0 then
      match coeffs[0]? with
      | none => none
      | some first =>
        match mod const_part first with
        | none => none
        | some remainder =>
          if remainder = 0 then
            match div const_part first with
            | none => none
            | some q => some ((List.replicate coeffs.length 0).set 0 (-q))
          else solveLinearLoop const_part coeffs fuel (i + 1) fromExtendedGcd currGcd
    else
      match coeffs[i]? with
      | none => none
      | some coeff =>
        match extended_gcd_integer currGcd coeff with
        | none => none
        | some (gcd, s, t) =>
          let fromExtendedGcd1 := fromExtendedGcd.map (fun r => r * s) ++ [t]
          match mod const_part gcd with
          | none => none
          | some remainder =>
            if remainder = 0 then
              match div const_part gcd with
              | none => none
              | some q =>
                let factor := -q
                let fromExtendedGcd2 := fromExtendedGcd1.map (fun r => r * factor)
                let j : Int := (coeffs.length : Int) - (fromExtendedGcd2.length : Int)
                let pushes : Nat := if j < 0 then 0 else ((coeffs.length : Int) - j).toNat
                some (fromExtendedGcd2 ++ List.replicate pushes 0)
            else if i = coeffs.length - 1 then some (List.replicate coeffs.length 0)
            else solveLinearLoop const_part coeffs fuel (i + 1) fromExtendedGcd1 gcd

/-- The function `solveLinearDiophantine(equation)` (lines 30-84).  The assertion of
line 33 is written `hatConstantTerm()` in the source; the method of this meaning is
`hasConstantTerm()`. -/
def solveLinearDiophantine (equation : MultivariatePolynomial) : Option (List Int) :=
  if !equation.isLinear then none
  else if !equation.hasConstantTerm then none
  else
    let const_part := equation.constantPart
    let terms := equation.getTerms
    let coeffs := (terms.drop 1).map (fun t => t.coeff)
    match coeffs[0]? with
    | none => none
    | some first => solveLinearLoop const_part coeffs coeffs.length 0 [1] first

/-- The sum of the products `a_k * x_k`, the coefficients and the entries of `x` paired
by index, over the indices at which both lists have an entry. -/
def pairedSum (a x : List Int) : Int :=
  (List.zipWith (fun ak xk => ak * xk) a x).sum

/-- The left-hand side `c + a_0 * x_0 + ... ` of the equation at the vector `x`, the
coefficients and the entries of `x` paired by index. -/
def evalLinear (c : Int) (a x : List Int) : Int :=
  c + pairedSum a x

/-- The greatest common divisor of a list of integers. -/
def gcdList (l : List Int) : Nat :=
  l.foldr (fun a g => Int.gcd a g) 0

/-- The polynomial `c + a_0 * x_0 + ... + a_(n-1) * x_(n-1)` with the constant term `c`
stored: the constant term at the front, then one linear term per coefficient. -/
def linearEquation (c : Int) (a : List Int) : MultivariatePolynomial :=
  { mTerms := { coeff := c, tdeg := 0 } :: a.map (fun ak => { coeff := ak, tdeg := 1 }) }

/-- The polynomial `a_0 * x_0 + ... + a_(n-1) * x_(n-1)`, which has no constant term. -/
def homogeneousEquation (a : List Int) : MultivariatePolynomial :=
  { mTerms := a.map (fun ak => { coeff := ak, tdeg := 1 }) }

/-- What the loop of `extended_gcd_integer` keeps true for the inputs `a` and `b`: the
two Bezout equations hold, and the common divisors of `old_r` and `r` are the common
divisors of `a` and `b`. -/
def GcdInvariant (a b : Int) (st : GcdState) : Prop :=
  st.old_s * a + st.old_t * b = st.old_r ∧ st.s * a + st.t * b = st.r ∧
  ∀ d : Int, (d ∣ st.old_r ∧ d ∣ st.r) ↔ (d ∣ a ∧ d ∣ b)

namespace cad

/-! ## Binary search -/

/-- The loop of `std::lower_bound` returns the partition point `k` of a range that is
partitioned with respect to `comp · value`, provided the fuel covers the length. -/
theorem lower_bound_loop_eq {β : Type} (comp : β → β → Bool) (l : List β) (value : β) (k : Nat)
    (hk : ∀ i m, l[i]? = some m → (comp m value = true ↔ i < k)) :
    ∀ fuel first len, len ≤ fuel → first ≤ k → k ≤ first + len → first + len ≤ l.length →
      lower_bound_loop comp l value fuel first len = k := by
  intro fuel
  induction fuel with
  | zero =>
    intro first len h1 h2 h3 _
    simp only [lower_bound_loop]
    omega
  | succ n ih =>
    intro first len h1 h2 h3 h4
    unfold lower_bound_loop
    by_cases h0 : len = 0
    · simp only [h0, if_true]
      omega
    · simp only [h0, if_false]
      have hidx : first + len / 2 < l.length := by omega
      have hget : l[first + len / 2]? = some (l.get ⟨first + len / 2, hidx⟩) := by
        simp [List.getElem?_eq_getElem hidx]
      rw [hget]
      simp only []
      have hiff := hk _ _ hget
      by_cases hc : comp (l.get ⟨first + len / 2, hidx⟩) value = true
      · rw [if_pos hc]
        have := hiff.1 hc
        apply ih <;> omega
      · rw [if_neg hc]
        have : ¬ first + len / 2 < k := fun h => hc (hiff.2 h)
        apply ih <;> omega

/-- In a list where `p` can only switch from true to false, `p` holds exactly at the
indices below the length of the longest initial segment satisfying `p`. -/
theorem partition_takeWhile {β : Type} (p : β → Bool) (l : List β)
    (hp : l.Pairwise (fun a b => p b = true → p a = true)) :
    ∀ i m, l[i]? = some m → (p m = true ↔ i < (l.takeWhile p).length) := by
  induction l with
  | nil => intro i m h; simp at h
  | cons a t ih =>
    intro i m h
    rw [List.pairwise_cons] at hp
    cases i with
    | zero =>
      simp at h
      subst h
      by_cases ha : p a = true <;> simp [List.takeWhile, ha]
    | succ j =>
      simp at h
      by_cases ha : p a = true
      · simp [List.takeWhile, ha]
        exact ih hp.2 j m h
      · simp [List.takeWhile, ha]
        by_contra hm
        exact ha (hp.1 m (List.getElem?_mem h) (by simpa using hm))

/-- On a partitioned list `std::lower_bound` returns the length of the longest initial segment of
elements that are `comp`-less than the value. -/
theorem lower_bound_eq_takeWhile {β : Type} (comp : β → β → Bool) (l : List β) (value : β)
    (hp : l.Pairwise (fun a b => comp b value = true → comp a value = true)) :
    lower_bound l value comp = (l.takeWhile (fun x => comp x value)).length := by
  unfold lower_bound
  apply lower_bound_loop_eq comp l value _
    (partition_takeWhile (fun x => comp x value) l hp)
  · exact le_refl _
  · exact Nat.zero_le _
  · simpa using (List.takeWhile_sublist (fun x => comp x value) (l := l)).length_le
  · simp

/-! ## Binary search in a strictly ascending list -/

section sorted
variable {α : Type} [LinearOrder α]

theorem Less_iff (a b : RealAlgebraicNumber α) : Less a b = true ↔ a.value < b.value := by
  simp [Less]

theorem Equal_iff (a b : RealAlgebraicNumber α) : Equal a b = true ↔ a.value = b.value := by
  simp [Equal]

theorem strictlyAscending_cons (a : RealAlgebraicNumber α) (l : List (RealAlgebraicNumber α)) :
    StrictlyAscending (a :: l) ↔ (∀ b ∈ l, a.value < b.value) ∧ StrictlyAscending l := by
  simp [StrictlyAscending, List.pairwise_cons, Less_iff]

/-- In a strictly ascending list `std::lower_bound` is the number of leading entries
that are less than the value searched for. -/
theorem lower_bound_sorted (l : List (RealAlgebraicNumber α)) (r : RealAlgebraicNumber α)
    (hs : StrictlyAscending l) :
    lower_bound l r Less = (l.takeWhile (fun x => Less x r)).length := by
  apply lower_bound_eq_takeWhile
  refine List.Pairwise.imp ?_ hs
  intro a b hab hb
  rw [Less_iff] at *
  exact lt_trans hab hb

/-- Searching for a value that some entry `x` has lands on `x`. -/
theorem lower_bound_of_mem (l : List (RealAlgebraicNumber α)) (x r : RealAlgebraicNumber α)
    (hs : StrictlyAscending l) (hx : x ∈ l) (hv : x.value = r.value) :
    lower_bound l r Less = l.indexOf x := by
  rw [lower_bound_sorted l r hs]
  induction l with
  | nil => simp at hx
  | cons a t ih =>
    rw [strictlyAscending_cons] at hs
    by_cases hax : a = x
    · subst hax
      simp [List.takeWhile, Less, hv]
    · have hxt : x ∈ t := by
        rcases List.mem_cons.1 hx with h | h
        · exact absurd h.symm hax
        · exact h
      have hlt : a.value < r.value := hv ▸ hs.1 x hxt
      rw [List.indexOf_cons_ne _ hax]
      simp [List.takeWhile, Less, hlt]
      exact ih hs.2 hxt

/-- The dereference test of `insert` succeeds exactly when the value is stored. -/
theorem equalAt_lower_bound (l : List (RealAlgebraicNumber α)) (r : RealAlgebraicNumber α)
    (hs : StrictlyAscending l) :
    equalAt l (lower_bound l r Less) r = true ↔ ∃ x ∈ l, x.value = r.value := by
  rw [lower_bound_sorted l r hs]
  induction l with
  | nil => simp [equalAt]
  | cons a t ih =>
    rw [strictlyAscending_cons] at hs
    by_cases hlt : a.value < r.value
    · have hne : ¬ a.value = r.value := ne_of_lt hlt
      have ih' := ih hs.2
      simp only [equalAt] at ih'
      simp [List.takeWhile, Less, hlt, equalAt, hne]
      exact ih'
    · by_cases heq : a.value = r.value
      · simp [List.takeWhile, Less, hlt, equalAt, Equal, heq]
      · simp [List.takeWhile, Less, hlt, equalAt, Equal, heq]
        intro x hx hxv
        have := hs.1 x hx
        rw [hxv] at this
        exact hlt this

/-- Inserting a value that is not stored at the position found by `std::lower_bound`
puts it behind all smaller and in front of all larger entries. -/
theorem lower_bound_split (l : List (RealAlgebraicNumber α)) (r : RealAlgebraicNumber α)
    (hs : StrictlyAscending l) (hnew : ∀ x ∈ l, x.value ≠ r.value) :
    (∀ a ∈ l.take (lower_bound l r Less), a.value < r.value) ∧
    (∀ b ∈ l.drop (lower_bound l r Less), r.value < b.value) := by
  rw [lower_bound_sorted l r hs]
  induction l with
  | nil => simp
  | cons a t ih =>
    rw [strictlyAscending_cons] at hs
    have ih' := ih hs.2 (fun x hx => hnew x (List.mem_cons_of_mem _ hx))
    by_cases hlt : a.value < r.value
    · simp [List.takeWhile, Less, hlt]
      exact ih'
    · have hgt : r.value < a.value :=
        lt_of_le_of_ne (not_lt.1 hlt) (fun h => hnew a (List.mem_cons_self _ _) h.symm)
      simp [List.takeWhile, Less, hlt]
      exact ⟨hgt, fun b hb => lt_trans hgt (hs.1 b hb)⟩

theorem mem_listInsert {β : Type} (l : List β) (k : Nat) (x y : β) :
    y ∈ listInsert l k x ↔ y = x ∨ y ∈ l := by
  conv_rhs => rw [← List.take_append_drop k l]
  simp only [listInsert, List.mem_append, List.mem_cons]
  tauto

theorem length_listInsert {β : Type} (l : List β) (k : Nat) (x : β) :
    (listInsert l k x).length = l.length + 1 := by
  have := congrArg List.length (List.take_append_drop k l)
  simp only [List.length_append] at this
  simp only [listInsert, List.length_append, List.length_cons]
  omega

/-- Insertion at the position found by `std::lower_bound` keeps the list strictly
ascending. -/
theorem strictlyAscending_listInsert (l : List (RealAlgebraicNumber α))
    (r : RealAlgebraicNumber α) (hs : StrictlyAscending l)
    (hnew : ∀ x ∈ l, x.value ≠ r.value) :
    StrictlyAscending (listInsert l (lower_bound l r Less) r) := by
  obtain ⟨h1, h2⟩ := lower_bound_split l r hs hnew
  have hs' : StrictlyAscending (l.take (lower_bound l r Less) ++ l.drop (lower_bound l r Less)) := by
    rw [List.take_append_drop]; exact hs
  unfold StrictlyAscending at *
  unfold listInsert
  rw [List.pairwise_append] at hs' ⊢
  refine ⟨hs'.1, ?_, ?_⟩
  · rw [List.pairwise_cons]
    exact ⟨fun b hb => (Less_iff _ _).2 (h2 b hb), hs'.2.1⟩
  · intro a ha b hb
    rcases List.mem_cons.1 hb with h | h
    · subst h; exact (Less_iff _ _).2 (h1 a ha)
    · exact hs'.2.2 a ha b h

end sorted

/-! ## The removal helpers in closed form -/

namespace SampleSet
variable {α : Type} [LinearOrder α]

theorem strictlyAscending_nodup (l : List (RealAlgebraicNumber α)) (hs : StrictlyAscending l) :
    l.Nodup := by
  refine List.Pairwise.imp ?_ hs
  intro a b hab heq
  rw [Less_iff, heq] at hab
  exact lt_irrefl _ hab

/-- Two stored samples with the same value are the same handle. -/
theorem eq_of_value_eq (l : List (RealAlgebraicNumber α)) (hs : StrictlyAscending l)
    (x y : RealAlgebraicNumber α) (hx : x ∈ l) (hy : y ∈ l) (hv : x.value = y.value) : x = y := by
  induction l with
  | nil => simp at hx
  | cons a t ih =>
    rw [strictlyAscending_cons] at hs
    rcases List.mem_cons.1 hx with h1 | h1 <;> rcases List.mem_cons.1 hy with h2 | h2
    · rw [h1, h2]
    · subst h1; exact absurd hv (ne_of_lt (hs.1 y h2))
    · subst h2; exact absurd hv.symm (ne_of_lt (hs.1 x h1))
    · exact ih hs.2 h1 h2

theorem removeFromQueue_eq (s : SampleSet α) (r : RealAlgebraicNumber α) (h : r ∈ s.queue) :
    s.removeFromQueue r = some { s with queue := s.queue.erase r } := by
  have : ¬ List.indexOf r s.queue = s.queue.length := fun e => List.indexOf_eq_length.1 e h
  simp [removeFromQueue, this, List.eraseIdx_indexOf_eq_erase]

theorem removeFromNRIR_eq (s : SampleSet α) (r : RealAlgebraicNumber α)
    (hN : r.isNumericRepresentation = true → r ∈ s.NRqueue ∧ r ∉ s.IRqueue)
    (hI : r.isNumericRepresentation = false → r ∈ s.IRqueue ∧ r ∉ s.NRqueue) :
    s.removeFromNRIR r =
      some { s with NRqueue := s.NRqueue.erase r, IRqueue := s.IRqueue.erase r } := by
  cases hr : r.isNumericRepresentation
  · obtain ⟨h1, h2⟩ := hI hr
    have : ¬ List.indexOf r s.IRqueue = s.IRqueue.length := fun e => List.indexOf_eq_length.1 e h1
    simp [removeFromNRIR, hr, this, List.eraseIdx_indexOf_eq_erase, List.erase_of_not_mem h2]
  · obtain ⟨h1, h2⟩ := hN hr
    have : ¬ List.indexOf r s.NRqueue = s.NRqueue.length := fun e => List.indexOf_eq_length.1 e h1
    simp [removeFromNRIR, hr, this, List.eraseIdx_indexOf_eq_erase, List.erase_of_not_mem h2]

theorem removeFromNonrootRoot_eq (s : SampleSet α) (r : RealAlgebraicNumber α)
    (hR : r.isRoot = true → r ∈ s.rootQueue ∧ r ∉ s.nonRootQueue)
    (hN : r.isRoot = false → r ∈ s.nonRootQueue ∧ r ∉ s.rootQueue) :
    s.removeFromNonrootRoot r =
      some { s with nonRootQueue := s.nonRootQueue.erase r, rootQueue := s.rootQueue.erase r } := by
  cases hr : r.isRoot
  · obtain ⟨h1, h2⟩ := hN hr
    have : ¬ List.indexOf r s.nonRootQueue = s.nonRootQueue.length :=
      fun e => List.indexOf_eq_length.1 e h1
    simp [removeFromNonrootRoot, hr, this, List.eraseIdx_indexOf_eq_erase,
      List.erase_of_not_mem h2]
  · obtain ⟨h1, h2⟩ := hR hr
    have : ¬ List.indexOf r s.rootQueue = s.rootQueue.length :=
      fun e => List.indexOf_eq_length.1 e h1
    simp [removeFromNonrootRoot, hr, this, List.eraseIdx_indexOf_eq_erase,
      List.erase_of_not_mem h2]

/-- Where a stored sample sits in the kind buckets. -/
theorem Inv.kind_bucket {s : SampleSet α} (h : Inv s) (r : RealAlgebraicNumber α)
    (hr : r ∈ s.samples) :
    (r.isNumericRepresentation = true → r ∈ s.NRqueue ∧ r ∉ s.IRqueue) ∧
    (r.isNumericRepresentation = false → r ∈ s.IRqueue ∧ r ∉ s.NRqueue) := by
  constructor
  · intro hk
    exact ⟨(h.NR.2 r).2 ⟨hr, hk⟩, fun hi => by simpa [hk] using ((h.IR.2 r).1 hi).2⟩
  · intro hk
    exact ⟨(h.IR.2 r).2 ⟨hr, by simp [hk]⟩, fun hi => by simpa [hk] using ((h.NR.2 r).1 hi).2⟩

/-- Where a stored sample sits in the root buckets. -/
theorem Inv.root_bucket {s : SampleSet α} (h : Inv s) (r : RealAlgebraicNumber α)
    (hr : r ∈ s.samples) :
    (r.isRoot = true → r ∈ s.rootQueue ∧ r ∉ s.nonRootQueue) ∧
    (r.isRoot = false → r ∈ s.nonRootQueue ∧ r ∉ s.rootQueue) := by
  constructor
  · intro hk
    exact ⟨(h.root.2 r).2 ⟨hr, hk⟩, fun hi => by simpa [hk] using ((h.nonRoot.2 r).1 hi).2⟩
  · intro hk
    exact ⟨(h.nonRoot.2 r).2 ⟨hr, by simp [hk]⟩,
      fun hi => by simpa [hk] using ((h.root.2 r).1 hi).2⟩

theorem Inv.mem_queue {s : SampleSet α} (h : Inv s) (r : RealAlgebraicNumber α) :
    r ∈ s.queue ↔ r ∈ s.samples := by
  simpa using h.queue.2 r

/-- The position `std::lower_bound` finds for a stored sample is the position of that
very handle, and erasing there erases the handle. -/
theorem Inv.lower_bound_stored {s : SampleSet α} (h : Inv s) (r : RealAlgebraicNumber α)
    (hr : r ∈ s.samples) :
    lower_bound s.samples r Less ≠ s.samples.length ∧
    s.samples.eraseIdx (lower_bound s.samples r Less) = s.samples.erase r := by
  rw [lower_bound_of_mem s.samples r r h.sorted hr rfl]
  exact ⟨fun e => List.indexOf_eq_length.1 e hr, List.eraseIdx_indexOf_eq_erase _ _⟩

end SampleSet

/-! ## The removing operations in closed form -/

namespace SampleSet
variable {α : Type} [LinearOrder α]

theorem pop_front_eq_erase {β : Type} [DecidableEq β] (q : List β) (r : β)
    (h : q.head? = some r) : pop_front q = some (q.erase r) := by
  cases q with
  | nil => simp at h
  | cons a t =>
    simp at h
    subst h
    simp [pop_front]

theorem mem_of_head? {β : Type} (q : List β) (r : β) (h : q.head? = some r) : r ∈ q := by
  cases q with
  | nil => simp at h
  | cons a t =>
    simp at h
    subst h
    simp

theorem isEmpty_false_of_mem {β : Type} (l : List β) (r : β) (h : r ∈ l) :
    l.isEmpty = false := by
  cases l with
  | nil => simp at h
  | cons a t => rfl

/-- For a stored sample found at position `position`, `remove` erases the handle from
every view. -/
theorem remove_eq (s : SampleSet α) (h : Inv s) (position : Nat) (r : RealAlgebraicNumber α)
    (hr : s.samples[position]? = some r) :
    s.remove position = some (
      { samples := s.samples.erase r
        queue := s.queue.erase r
        NRqueue := s.NRqueue.erase r
        IRqueue := s.IRqueue.erase r
        nonRootQueue := s.nonRootQueue.erase r
        rootQueue := s.rootQueue.erase r }, position) := by
  have hmem : r ∈ s.samples := List.getElem?_mem hr
  have hlt : position < s.samples.length := by
    by_contra hc
    rw [List.getElem?_eq_none (not_lt.1 hc)] at hr
    exact Option.noConfusion hr
  have hget : s.samples[position] = r := by
    rw [List.getElem?_eq_getElem hlt] at hr
    exact Option.some.inj hr
  have he : s.samples.eraseIdx position = s.samples.erase r := by
    rw [← hget, (strictlyAscending_nodup _ h.sorted).erase_getElem]
  unfold remove
  rw [hr]
  simp only []
  rw [removeFromQueue_eq s r ((h.mem_queue r).2 hmem)]
  simp only []
  rw [removeFromNRIR_eq _ r]
  · simp only []
    rw [removeFromNonrootRoot_eq _ r]
    · simp only [he]
    · exact (h.root_bucket r hmem).1
    · exact (h.root_bucket r hmem).2
  · exact (h.kind_bucket r hmem).1
  · exact (h.kind_bucket r hmem).2

/-- Under the invariant `pop` erases the front of `queue` from every view. -/
theorem pop_eq (s : SampleSet α) (h : Inv s) (r : RealAlgebraicNumber α)
    (hr : s.queue.head? = some r) :
    s.pop = some
      { samples := s.samples.erase r
        queue := s.queue.erase r
        NRqueue := s.NRqueue.erase r
        IRqueue := s.IRqueue.erase r
        nonRootQueue := s.nonRootQueue.erase r
        rootQueue := s.rootQueue.erase r } := by
  have hmem : r ∈ s.samples := (h.mem_queue r).1 (mem_of_head? _ _ hr)
  have hne := isEmpty_false_of_mem _ _ hmem
  obtain ⟨hlb, he⟩ := h.lower_bound_stored r hmem
  unfold pop
  simp only [hne, next, Bool.false_eq_true, if_false, hr, hlb, pop_front_eq_erase _ _ hr, he]
  rw [removeFromNRIR_eq _ r]
  · simp only []
    rw [removeFromNonrootRoot_eq _ r]
    · exact (h.root_bucket r hmem).1
    · exact (h.root_bucket r hmem).2
  · exact (h.kind_bucket r hmem).1
  · exact (h.kind_bucket r hmem).2

end SampleSet

namespace SampleSet
variable {α : Type} [LinearOrder α]

theorem head?_of_isEmpty {β : Type} (q : List β) (h : q.isEmpty = true) : q = [] := by
  cases q with
  | nil => rfl
  | cons a t => simp at h

/-- What `nextNR` returns: the front of `NRqueue`, or of `IRqueue` when `NRqueue` is empty. -/
theorem nextNR_cases (s : SampleSet α) (r : RealAlgebraicNumber α) (hr : s.nextNR = some r) :
    s.samples.isEmpty = false ∧
    ((s.NRqueue.isEmpty = true ∧ s.IRqueue.head? = some r) ∨
     (s.NRqueue.isEmpty = false ∧ s.NRqueue.head? = some r)) := by
  unfold nextNR at hr
  cases he : s.samples.isEmpty
  · cases hq : s.NRqueue.isEmpty <;> simp [he, hq] at hr <;> simp [hr]
  · simp [he] at hr

/-- What `nextNonRoot` returns. -/
theorem nextNonRoot_cases (s : SampleSet α) (r : RealAlgebraicNumber α)
    (hr : s.nextNonRoot = some r) :
    s.samples.isEmpty = false ∧
    ((s.nonRootQueue.isEmpty = true ∧ s.rootQueue.head? = some r) ∨
     (s.nonRootQueue.isEmpty = false ∧ s.nonRootQueue.head? = some r)) := by
  unfold nextNonRoot at hr
  cases he : s.samples.isEmpty
  · cases hq : s.nonRootQueue.isEmpty <;> simp [he, hq] at hr <;> simp [hr]
  · simp [he] at hr

/-- What `nextRoot` returns. -/
theorem nextRoot_cases (s : SampleSet α) (r : RealAlgebraicNumber α)
    (hr : s.nextRoot = some r) :
    s.samples.isEmpty = false ∧
    ((s.rootQueue.isEmpty = true ∧ s.nonRootQueue.head? = some r) ∨
     (s.rootQueue.isEmpty = false ∧ s.rootQueue.head? = some r)) := by
  unfold nextRoot at hr
  cases he : s.samples.isEmpty
  · cases hq : s.rootQueue.isEmpty <;> simp [he, hq] at hr <;> simp [hr]
  · simp [he] at hr

/-- Under the invariant `popNR` erases the sample returned by `nextNR` from every view. -/
theorem popNR_eq (s : SampleSet α) (h : Inv s) (r : RealAlgebraicNumber α)
    (hr : s.nextNR = some r) :
    s.popNR = some
      { samples := s.samples.erase r
        queue := s.queue.erase r
        NRqueue := s.NRqueue.erase r
        IRqueue := s.IRqueue.erase r
        nonRootQueue := s.nonRootQueue.erase r
        rootQueue := s.rootQueue.erase r } := by
  obtain ⟨hne, hcase⟩ := nextNR_cases s r hr
  have hmem : r ∈ s.samples := by
    rcases hcase with ⟨_, hh⟩ | ⟨_, hh⟩
    · exact ((h.IR.2 r).1 (mem_of_head? _ _ hh)).1
    · exact ((h.NR.2 r).1 (mem_of_head? _ _ hh)).1
  obtain ⟨hlb, he⟩ := h.lower_bound_stored r hmem
  unfold popNR
  rw [hr]
  simp only [hne, Bool.false_eq_true, if_false, hlb, he]
  have hstep : (if s.NRqueue.isEmpty = true then
        (pop_front s.IRqueue).map (fun q => ({ s with samples := s.samples.erase r, IRqueue := q } : SampleSet α))
      else (pop_front s.NRqueue).map (fun q => ({ s with samples := s.samples.erase r, NRqueue := q } : SampleSet α))) =
      some { s with samples := s.samples.erase r, NRqueue := s.NRqueue.erase r,
                    IRqueue := s.IRqueue.erase r } := by
    rcases hcase with ⟨he1, hh⟩ | ⟨he1, hh⟩
    · have hnil := head?_of_isEmpty _ he1
      rw [if_pos he1, pop_front_eq_erase _ _ hh]
      simp [hnil]
    · have hnot : r ∉ s.IRqueue := fun hi => by
        have h1 := ((h.NR.2 r).1 (mem_of_head? _ _ hh)).2
        have h2 := ((h.IR.2 r).1 hi).2
        simp [h1] at h2
      rw [if_neg (by simp [he1]), pop_front_eq_erase _ _ hh]
      simp [List.erase_of_not_mem hnot]
  rw [hstep]
  simp only []
  rw [removeFromQueue_eq _ r]
  · simp only []
    rw [removeFromNonrootRoot_eq _ r]
    · exact (h.root_bucket r hmem).1
    · exact (h.root_bucket r hmem).2
  · exact (h.mem_queue r).2 hmem

end SampleSet

namespace SampleSet
variable {α : Type} [LinearOrder α]

/-- Under the invariant `popNonroot` erases the sample returned by `nextNonRoot` from
every view. -/
theorem popNonroot_eq (s : SampleSet α) (h : Inv s) (r : RealAlgebraicNumber α)
    (hr : s.nextNonRoot = some r) :
    s.popNonroot = some
      { samples := s.samples.erase r
        queue := s.queue.erase r
        NRqueue := s.NRqueue.erase r
        IRqueue := s.IRqueue.erase r
        nonRootQueue := s.nonRootQueue.erase r
        rootQueue := s.rootQueue.erase r } := by
  obtain ⟨hne, hcase⟩ := nextNonRoot_cases s r hr
  have hmem : r ∈ s.samples := by
    rcases hcase with ⟨_, hh⟩ | ⟨_, hh⟩
    · exact ((h.root.2 r).1 (mem_of_head? _ _ hh)).1
    · exact ((h.nonRoot.2 r).1 (mem_of_head? _ _ hh)).1
  obtain ⟨hlb, he⟩ := h.lower_bound_stored r hmem
  unfold popNonroot
  rw [hr]
  simp only [hne, Bool.false_eq_true, if_false, hlb, he]
  have hstep : (if s.nonRootQueue.isEmpty = true then
        (pop_front s.rootQueue).map
          (fun q => ({ s with samples := s.samples.erase r, rootQueue := q } : SampleSet α))
      else (pop_front s.nonRootQueue).map
          (fun q => ({ s with samples := s.samples.erase r, nonRootQueue := q } : SampleSet α))) =
      some { s with samples := s.samples.erase r, nonRootQueue := s.nonRootQueue.erase r,
                    rootQueue := s.rootQueue.erase r } := by
    rcases hcase with ⟨he1, hh⟩ | ⟨he1, hh⟩
    · have hnil := head?_of_isEmpty _ he1
      rw [if_pos he1, pop_front_eq_erase _ _ hh]
      simp [hnil]
    · have hnot : r ∉ s.rootQueue := fun hi => by
        have h1 := ((h.nonRoot.2 r).1 (mem_of_head? _ _ hh)).2
        have h2 := ((h.root.2 r).1 hi).2
        simp [h2] at h1
      rw [if_neg (by simp [he1]), pop_front_eq_erase _ _ hh]
      simp [List.erase_of_not_mem hnot]
  rw [hstep]
  simp only []
  rw [removeFromNRIR_eq _ r]
  · simp only []
    rw [removeFromQueue_eq _ r]
    exact (h.mem_queue r).2 hmem
  · exact (h.kind_bucket r hmem).1
  · exact (h.kind_bucket r hmem).2

/-- Under the invariant `popRoot` erases the sample returned by `nextRoot` from every
view. -/
theorem popRoot_eq (s : SampleSet α) (h : Inv s) (r : RealAlgebraicNumber α)
    (hr : s.nextRoot = some r) :
    s.popRoot = some
      { samples := s.samples.erase r
        queue := s.queue.erase r
        NRqueue := s.NRqueue.erase r
        IRqueue := s.IRqueue.erase r
        nonRootQueue := s.nonRootQueue.erase r
        rootQueue := s.rootQueue.erase r } := by
  obtain ⟨hne, hcase⟩ := nextRoot_cases s r hr
  have hmem : r ∈ s.samples := by
    rcases hcase with ⟨_, hh⟩ | ⟨_, hh⟩
    · exact ((h.nonRoot.2 r).1 (mem_of_head? _ _ hh)).1
    · exact ((h.root.2 r).1 (mem_of_head? _ _ hh)).1
  obtain ⟨hlb, he⟩ := h.lower_bound_stored r hmem
  unfold popRoot
  rw [hr]
  simp only [hne, Bool.false_eq_true, if_false, hlb, he]
  have hstep : (if s.rootQueue.isEmpty = true then
        (pop_front s.nonRootQueue).map
          (fun q => ({ s with samples := s.samples.erase r, nonRootQueue := q } : SampleSet α))
      else (pop_front s.rootQueue).map
          (fun q => ({ s with samples := s.samples.erase r, rootQueue := q } : SampleSet α))) =
      some { s with samples := s.samples.erase r, nonRootQueue := s.nonRootQueue.erase r,
                    rootQueue := s.rootQueue.erase r } := by
    rcases hcase with ⟨he1, hh⟩ | ⟨he1, hh⟩
    · have hnil := head?_of_isEmpty _ he1
      rw [if_pos he1, pop_front_eq_erase _ _ hh]
      simp [hnil]
    · have hnot : r ∉ s.nonRootQueue := fun hi => by
        have h1 := ((h.root.2 r).1 (mem_of_head? _ _ hh)).2
        have h2 := ((h.nonRoot.2 r).1 hi).2
        simp [h1] at h2
      rw [if_neg (by simp [he1]), pop_front_eq_erase _ _ hh]
      simp [List.erase_of_not_mem hnot]
  rw [hstep]
  simp only []
  rw [removeFromNRIR_eq _ r]
  · simp only []
    rw [removeFromQueue_eq _ r]
    exact (h.mem_queue r).2 hmem
  · exact (h.kind_bucket r hmem).1
  · exact (h.kind_bucket r hmem).2

end SampleSet

/-! ## `insert` in closed form -/

namespace SampleSet
variable {α : Type} [LinearOrder α]

theorem insertedSample_value (r : RealAlgebraicNumber α) (fresh : Nat) :
    (insertedSample r fresh).value = r.value := by
  unfold insertedSample
  split_ifs <;> rfl

theorem insertedSample_isRoot (r : RealAlgebraicNumber α) (fresh : Nat) :
    (insertedSample r fresh).isRoot = r.isRoot := by
  unfold insertedSample
  split_ifs <;> rfl

theorem insertedSample_isNumericRepresentation (r : RealAlgebraicNumber α) (fresh : Nat) :
    (insertedSample r fresh).isNumericRepresentation = r.isNumeric := by
  unfold insertedSample
  cases hrep : r.rep with
  | NR =>
    simp [RealAlgebraicNumber.isNumeric, RealAlgebraicNumber.isNumericRepresentation, hrep]
  | IR n c =>
    cases n <;>
      simp [RealAlgebraicNumber.isNumeric, RealAlgebraicNumber.isNumericRepresentation, hrep,
        RealAlgebraicNumberNR.create]

theorem lower_bound_nil {β : Type} (value : β) (comp : β → β → Bool) :
    lower_bound [] value comp = 0 := rfl

theorem insert_position (l : List (RealAlgebraicNumber α)) (x : RealAlgebraicNumber α) :
    (if l.isEmpty = true then 0 else lower_bound l x Less) = lower_bound l x Less := by
  cases l with
  | nil => rfl
  | cons a t => simp

theorem insert_test (l : List (RealAlgebraicNumber α)) (k : Nat) (x : RealAlgebraicNumber α) :
    (!l.isEmpty && equalAt l k x) = equalAt l k x := by
  cases l with
  | nil => simp [equalAt]
  | cons a t => simp

/-- Both branches of `insert` written as one: search for the converted handle, give up
when its value is stored, otherwise add it to `samples`, `queue` and the two buckets of
its class. -/
theorem insert_unfold (s : SampleSet α) (r : RealAlgebraicNumber α) (fresh : Nat) :
    s.insert r fresh =
      if equalAt s.samples (lower_bound s.samples (insertedSample r fresh) Less)
          (insertedSample r fresh) = true then
        (s, lower_bound s.samples (insertedSample r fresh) Less, false)
      else
        ({ samples := listInsert s.samples
              (lower_bound s.samples (insertedSample r fresh) Less) (insertedSample r fresh)
           queue := s.queue ++ [insertedSample r fresh]
           NRqueue := if r.isNumeric = true then s.NRqueue ++ [insertedSample r fresh]
             else s.NRqueue
           IRqueue := if r.isNumeric = true then s.IRqueue
             else s.IRqueue ++ [insertedSample r fresh]
           nonRootQueue := if r.isRoot = true then s.nonRootQueue
             else s.nonRootQueue ++ [insertedSample r fresh]
           rootQueue := if r.isRoot = true then s.rootQueue ++ [insertedSample r fresh]
             else s.rootQueue },
         lower_bound s.samples (insertedSample r fresh) Less, true) := by
  have hroot := insertedSample_isRoot r fresh
  unfold insert
  by_cases h1 : r.isNumeric = true
  · have hx : insertedSample r fresh =
        (if r.isNumericRepresentation = true then r
          else RealAlgebraicNumberNR.create fresh r.value r.isRoot) := by
      simp [insertedSample, h1]
    simp only [h1, if_true, ← hx, insert_position, insert_test, hroot]
  · have hx : insertedSample r fresh = r := by simp [insertedSample, h1]
    simp only [h1, if_false, hx, insert_position, insert_test, Bool.false_eq_true]

/-- The value is already stored: `insert` changes nothing and reports `false`. -/
theorem insert_old (s : SampleSet α) (hs : StrictlyAscending s.samples)
    (r : RealAlgebraicNumber α) (fresh : Nat) (hex : ∃ y ∈ s.samples, y.value = r.value) :
    s.insert r fresh = (s, lower_bound s.samples (insertedSample r fresh) Less, false) := by
  rw [insert_unfold]
  have : equalAt s.samples (lower_bound s.samples (insertedSample r fresh) Less)
      (insertedSample r fresh) = true := by
    rw [equalAt_lower_bound _ _ hs]
    simpa [insertedSample_value] using hex
  rw [if_pos this]

/-- The value is not yet stored: `insert` adds the converted handle. -/
theorem insert_new (s : SampleSet α) (hs : StrictlyAscending s.samples)
    (r : RealAlgebraicNumber α) (fresh : Nat) (hnew : ∀ y ∈ s.samples, y.value ≠ r.value) :
    s.insert r fresh =
        ({ samples := listInsert s.samples
              (lower_bound s.samples (insertedSample r fresh) Less) (insertedSample r fresh)
           queue := s.queue ++ [insertedSample r fresh]
           NRqueue := if r.isNumeric = true then s.NRqueue ++ [insertedSample r fresh]
             else s.NRqueue
           IRqueue := if r.isNumeric = true then s.IRqueue
             else s.IRqueue ++ [insertedSample r fresh]
           nonRootQueue := if r.isRoot = true then s.nonRootQueue
             else s.nonRootQueue ++ [insertedSample r fresh]
           rootQueue := if r.isRoot = true then s.rootQueue ++ [insertedSample r fresh]
             else s.rootQueue },
         lower_bound s.samples (insertedSample r fresh) Less, true) := by
  rw [insert_unfold]
  have : ¬ equalAt s.samples (lower_bound s.samples (insertedSample r fresh) Less)
      (insertedSample r fresh) = true := by
    rw [equalAt_lower_bound _ _ hs]
    rintro ⟨y, hy, hv⟩
    rw [insertedSample_value] at hv
    exact hnew y hy hv
  rw [if_neg this]

end SampleSet

/-! ## Replacing one handle by another -/

section replace
variable {β : Type} [DecidableEq β]

theorem mem_set_indexOf (l : List β) (a b x : β) (hn : l.Nodup) (ha : a ∈ l) :
    x ∈ l.set (l.indexOf a) b ↔ x = b ∨ (x ∈ l ∧ x ≠ a) := by
  induction l with
  | nil => simp at ha
  | cons c t ih =>
    rw [List.nodup_cons] at hn
    by_cases hca : c = a
    · subst hca
      simp only [List.indexOf_cons_self, List.set_cons_zero, List.mem_cons]
      constructor
      · rintro (h | h)
        · exact Or.inl h
        · exact Or.inr ⟨Or.inr h, fun e => hn.1 (e ▸ h)⟩
      · rintro (h | ⟨h1 | h1, h2⟩)
        · exact Or.inl h
        · exact absurd h1 h2
        · exact Or.inr h1
    · have hat : a ∈ t := by
        rcases List.mem_cons.1 ha with h | h
        · exact absurd h.symm hca
        · exact h
      rw [List.indexOf_cons_ne _ hca]
      simp only [List.set_cons_succ, List.mem_cons, ih hn.2 hat]
      constructor
      · rintro (h | h | ⟨h1, h2⟩)
        · exact Or.inr ⟨Or.inl h, fun e => hca (h ▸ e)⟩
        · exact Or.inl h
        · exact Or.inr ⟨Or.inr h1, h2⟩
      · rintro (h | ⟨h1 | h1, h2⟩)
        · exact Or.inr (Or.inl h)
        · exact Or.inl h1
        · exact Or.inr (Or.inr ⟨h1, h2⟩)

theorem nodup_set_indexOf (l : List β) (a b : β) (hn : l.Nodup) (hb : b ∉ l) :
    (l.set (l.indexOf a) b).Nodup := by
  induction l with
  | nil => simp
  | cons c t ih =>
    rw [List.nodup_cons] at hn
    have hbt : b ∉ t := fun h => hb (List.mem_cons_of_mem _ h)
    by_cases hca : c = a
    · subst hca
      simp only [List.indexOf_cons_self, List.set_cons_zero, List.nodup_cons]
      exact ⟨hbt, hn.2⟩
    · rw [List.indexOf_cons_ne _ hca]
      simp only [List.set_cons_succ, List.nodup_cons]
      refine ⟨?_, ih hn.2 hbt⟩
      intro hc
      rcases List.mem_or_eq_of_mem_set hc with h | h
      · exact hn.1 h
      · exact hb (h ▸ List.mem_cons_self _ _)

theorem length_set_indexOf (l : List β) (a b : β) :
    (l.set (l.indexOf a) b).length = l.length := by
  simp

theorem map_set_indexOf {γ : Type} (f : β → γ) (l : List β) (a b : β) (hab : f b = f a) :
    (l.set (l.indexOf a) b).map f = l.map f := by
  induction l with
  | nil => simp
  | cons c t ih =>
    by_cases hca : c = a
    · subst hca
      simp [hab]
    · rw [List.indexOf_cons_ne _ hca]
      simp [ih]

end replace

/-! ## `simplify(from, to)` in closed form -/

namespace SampleSet
variable {α : Type} [LinearOrder α]

/-- Not an interval sample of the set: `simplify(from, to)` changes nothing and
returns `false`. -/
theorem simplify_absent (s : SampleSet α) (from_ to_ : RealAlgebraicNumber α)
    (hf : from_ ∉ s.IRqueue) : s.simplify from_ to_ = some (s, false) := by
  have : List.indexOf from_ s.IRqueue = s.IRqueue.length := List.indexOf_eq_length.2 hf
  simp [simplify, this]

/-- An interval sample of the set, and a replacement with the same root flag:
`simplify(from, to)` puts `to` in the place of `from` in `samples`, `queue` and the root
bucket, appends it to `NRqueue`, erases `from` from `IRqueue` and returns `true`. -/
theorem simplify_eq (s : SampleSet α) (h : Inv s) (from_ to_ : RealAlgebraicNumber α)
    (hf : from_ ∈ s.IRqueue) (hroot : from_.isRoot = to_.isRoot) :
    s.simplify from_ to_ = some (
      { samples := s.samples.set (s.samples.indexOf from_) to_
        queue := s.queue.set (s.queue.indexOf from_) to_
        NRqueue := s.NRqueue ++ [to_]
        IRqueue := s.IRqueue.erase from_
        nonRootQueue := if from_.isRoot = true then s.nonRootQueue
          else s.nonRootQueue.set (s.nonRootQueue.indexOf from_) to_
        rootQueue := if from_.isRoot = true then s.rootQueue.set (s.rootQueue.indexOf from_) to_
          else s.rootQueue }, true) := by
  have hmem : from_ ∈ s.samples := ((h.IR.2 from_).1 hf).1
  have hidx : ¬ List.indexOf from_ s.IRqueue = s.IRqueue.length :=
    fun e => List.indexOf_eq_length.1 e hf
  have hidx2 : ¬ s.IRqueue.length ≤ List.indexOf from_ s.IRqueue :=
    not_le.2 (List.indexOf_lt_length.2 hf)
  have hlb : lower_bound s.samples from_ Less = s.samples.indexOf from_ :=
    lower_bound_of_mem s.samples from_ from_ h.sorted hmem rfl
  have hlb2 : ¬ List.indexOf from_ s.samples = s.samples.length :=
    fun e => List.indexOf_eq_length.1 e hmem
  have hq : ¬ List.indexOf from_ s.queue = s.queue.length :=
    fun e => List.indexOf_eq_length.1 e ((h.mem_queue from_).2 hmem)
  unfold simplify
  simp only [ne_eq, hidx, not_false_eq_true, if_true]
  unfold simplifyIt
  simp only [hroot, bne_self_eq_false, Bool.false_eq_true, if_false, hlb, hlb2, hidx2,
    List.eraseIdx_indexOf_eq_erase]
  cases hr : to_.isRoot
  · have hr' : from_.isRoot = false := hroot.trans hr
    have hnr : ¬ List.indexOf from_ s.nonRootQueue = s.nonRootQueue.length :=
      fun e => List.indexOf_eq_length.1 e ((h.root_bucket from_ hmem).2 hr').1
    simp [hr', hnr, hq]
  · have hr' : from_.isRoot = true := hroot.trans hr
    have hnr : ¬ List.indexOf from_ s.rootQueue = s.rootQueue.length :=
      fun e => List.indexOf_eq_length.1 e ((h.root_bucket from_ hmem).1 hr').1
    simp [hr', hnr, hq]

/-- With different root flags the assertion of `simplify(from, to, fromIt)` fails. -/
theorem simplify_root_mismatch (s : SampleSet α) (from_ to_ : RealAlgebraicNumber α)
    (hf : from_ ∈ s.IRqueue) (hroot : from_.isRoot ≠ to_.isRoot) :
    s.simplify from_ to_ = none := by
  have hidx : ¬ List.indexOf from_ s.IRqueue = s.IRqueue.length :=
    fun e => List.indexOf_eq_length.1 e hf
  unfold simplify
  simp only [ne_eq, hidx, not_false_eq_true, if_true]
  unfold simplifyIt
  simp [hroot]

end SampleSet

/-! ## The invariant is kept by every operation -/

namespace SampleSet
variable {α : Type} [LinearOrder α]

theorem IsView.erase_view {q l : List (RealAlgebraicNumber α)} {p : RealAlgebraicNumber α → Bool}
    (h : IsView q l p) (hl : l.Nodup) (r : RealAlgebraicNumber α) :
    IsView (q.erase r) (l.erase r) p := by
  refine ⟨h.1.erase r, fun x => ?_⟩
  rw [h.1.mem_erase_iff, hl.mem_erase_iff, h.2 x]
  tauto

theorem IsView.insert_in {q l : List (RealAlgebraicNumber α)} {p : RealAlgebraicNumber α → Bool}
    (h : IsView q l p) (r : RealAlgebraicNumber α) (k : Nat) (hr : r ∉ l) (hp : p r = true) :
    IsView (q ++ [r]) (listInsert l k r) p := by
  have hrq : r ∉ q := fun hq => hr ((h.2 r).1 hq).1
  refine ⟨?_, fun x => ?_⟩
  · rw [List.nodup_append]
    refine ⟨h.1, List.nodup_singleton r, ?_⟩
    intro a ha hb
    rw [List.mem_singleton] at hb
    exact hrq (hb ▸ ha)
  · rw [List.mem_append, List.mem_singleton, mem_listInsert, h.2 x]
    constructor
    · rintro (⟨h1, h2⟩ | h1)
      · exact ⟨Or.inr h1, h2⟩
      · exact ⟨Or.inl h1, h1 ▸ hp⟩
    · rintro ⟨h1 | h1, h2⟩
      · exact Or.inr h1
      · exact Or.inl ⟨h1, h2⟩

theorem IsView.insert_out {q l : List (RealAlgebraicNumber α)} {p : RealAlgebraicNumber α → Bool}
    (h : IsView q l p) (r : RealAlgebraicNumber α) (k : Nat) (hp : p r = false) :
    IsView q (listInsert l k r) p := by
  refine ⟨h.1, fun x => ?_⟩
  rw [mem_listInsert, h.2 x]
  constructor
  · rintro ⟨h1, h2⟩
    exact ⟨Or.inr h1, h2⟩
  · rintro ⟨h1 | h1, h2⟩
    · rw [h1, hp] at h2
      exact absurd h2 (by simp)
    · exact ⟨h1, h2⟩

theorem Inv.empty : Inv (SampleSet.empty : SampleSet α) := by
  refine ⟨?_, ?_, ?_, ?_, ?_, ?_⟩ <;> simp [SampleSet.empty, StrictlyAscending, IsView]

/-- The invariant survives `insert`. -/
theorem Inv.insert {s : SampleSet α} (h : Inv s) (r : RealAlgebraicNumber α) (fresh : Nat) :
    Inv (s.insert r fresh).1 := by
  by_cases hex : ∃ y ∈ s.samples, y.value = r.value
  · rw [insert_old s h.sorted r fresh hex]
    exact h
  · have hnew : ∀ y ∈ s.samples, y.value ≠ r.value := fun y hy hv => hex ⟨y, hy, hv⟩
    rw [insert_new s h.sorted r fresh hnew]
    have hnew' : ∀ y ∈ s.samples, y.value ≠ (insertedSample r fresh).value := by
      rw [insertedSample_value]; exact hnew
    have hnot : insertedSample r fresh ∉ s.samples := fun hm => hnew' _ hm rfl
    have hk := insertedSample_isNumericRepresentation r fresh
    have hrt := insertedSample_isRoot r fresh
    refine ⟨strictlyAscending_listInsert _ _ h.sorted hnew', ?_, ?_, ?_, ?_, ?_⟩
    · exact h.queue.insert_in _ _ hnot rfl
    · by_cases hn : r.isNumeric = true
      · simp only [hn, if_true]
        exact h.NR.insert_in _ _ hnot (by simp [hk, hn])
      · simp only [hn, if_false]
        exact h.NR.insert_out _ _ (by simpa [hk] using hn)
    · by_cases hn : r.isNumeric = true
      · simp only [hn, if_true]
        exact h.IR.insert_out _ _ (by simp [hk, hn])
      · simp only [hn, if_false]
        exact h.IR.insert_in _ _ hnot (by simpa [hk] using hn)
    · by_cases hn : r.isRoot = true
      · simp only [hn, if_true]
        exact h.root.insert_in _ _ hnot (by simp [hrt, hn])
      · simp only [hn, if_false]
        exact h.root.insert_out _ _ (by simpa [hrt] using hn)
    · by_cases hn : r.isRoot = true
      · simp only [hn, if_true]
        exact h.nonRoot.insert_out _ _ (by simp [hrt, hn])
      · simp only [hn, if_false]
        exact h.nonRoot.insert_in _ _ hnot (by simpa [hrt] using hn)

/-- The invariant survives erasing one handle from every view. -/
theorem Inv.erase_everywhere {s : SampleSet α} (h : Inv s) (r : RealAlgebraicNumber α) :
    Inv { samples := s.samples.erase r
          queue := s.queue.erase r
          NRqueue := s.NRqueue.erase r
          IRqueue := s.IRqueue.erase r
          nonRootQueue := s.nonRootQueue.erase r
          rootQueue := s.rootQueue.erase r } := by
  have hn := strictlyAscending_nodup _ h.sorted
  exact ⟨List.Pairwise.sublist (List.erase_sublist r s.samples) h.sorted,
    h.queue.erase_view hn r, h.NR.erase_view hn r, h.IR.erase_view hn r, h.root.erase_view hn r,
    h.nonRoot.erase_view hn r⟩

end SampleSet

namespace SampleSet
variable {α : Type} [LinearOrder α]

theorem strictlyAscending_iff_map (l : List (RealAlgebraicNumber α)) :
    StrictlyAscending l ↔ (l.map (fun x => x.value)).Pairwise (fun a b => a < b) := by
  simp [StrictlyAscending, List.pairwise_map, Less_iff]

/-- A sample that replaces a stored one of the same value and of the other class is
not itself stored. -/
theorem Inv.replacement_fresh {s : SampleSet α} (h : Inv s) (from_ to_ : RealAlgebraicNumber α)
    (hf : from_ ∈ s.IRqueue) (hk : to_.isNumericRepresentation = true)
    (hv : to_.value = from_.value) : to_ ∉ s.samples := by
  intro ht
  have hfs := (h.IR.2 from_).1 hf
  have := eq_of_value_eq _ h.sorted to_ from_ ht hfs.1 hv
  rw [this] at hk
  simp [hk] at hfs

theorem IsView.replace {q l : List (RealAlgebraicNumber α)} {p : RealAlgebraicNumber α → Bool}
    (h : IsView q l p) (hl : l.Nodup) (a b : RealAlgebraicNumber α) (ha : a ∈ q) (hb : b ∉ l)
    (hp : p b = true) :
    IsView (q.set (q.indexOf a) b) (l.set (l.indexOf a) b) p := by
  have hal : a ∈ l := ((h.2 a).1 ha).1
  have hbq : b ∉ q := fun hq => hb ((h.2 b).1 hq).1
  refine ⟨nodup_set_indexOf q a b h.1 hbq, fun x => ?_⟩
  rw [mem_set_indexOf q a b x h.1 ha, mem_set_indexOf l a b x hl hal, h.2 x]
  constructor
  · rintro (h1 | ⟨⟨h1, h2⟩, h3⟩)
    · exact ⟨Or.inl h1, h1 ▸ hp⟩
    · exact ⟨Or.inr ⟨h1, h3⟩, h2⟩
  · rintro ⟨h1 | ⟨h1, h3⟩, h2⟩
    · exact Or.inl h1
    · exact Or.inr ⟨⟨h1, h2⟩, h3⟩

theorem IsView.replace_out {q l : List (RealAlgebraicNumber α)}
    {p : RealAlgebraicNumber α → Bool}
    (h : IsView q l p) (hl : l.Nodup) (a b : RealAlgebraicNumber α) (hal : a ∈ l)
    (hpa : p a = false) (hpb : p b = false) :
    IsView q (l.set (l.indexOf a) b) p := by
  refine ⟨h.1, fun x => ?_⟩
  rw [mem_set_indexOf l a b x hl hal, h.2 x]
  constructor
  · rintro ⟨h1, h2⟩
    refine ⟨Or.inr ⟨h1, fun e => ?_⟩, h2⟩
    rw [e, hpa] at h2
    exact absurd h2 (by simp)
  · rintro ⟨h1 | ⟨h1, _⟩, h2⟩
    · rw [h1, hpb] at h2
      exact absurd h2 (by simp)
    · exact ⟨h1, h2⟩

/-- The invariant survives a successful `simplify(from, to)` whose `to` is a numeric
object with the value and the root flag of `from`. -/
theorem Inv.simplify {s : SampleSet α} (h : Inv s) (from_ to_ : RealAlgebraicNumber α)
    (hf : from_ ∈ s.IRqueue) (hroot : from_.isRoot = to_.isRoot)
    (hk : to_.isNumericRepresentation = true) (hv : to_.value = from_.value) :
    Inv { samples := s.samples.set (s.samples.indexOf from_) to_
          queue := s.queue.set (s.queue.indexOf from_) to_
          NRqueue := s.NRqueue ++ [to_]
          IRqueue := s.IRqueue.erase from_
          nonRootQueue := if from_.isRoot = true then s.nonRootQueue
            else s.nonRootQueue.set (s.nonRootQueue.indexOf from_) to_
          rootQueue := if from_.isRoot = true then s.rootQueue.set (s.rootQueue.indexOf from_) to_
            else s.rootQueue } := by
  have hn := strictlyAscending_nodup _ h.sorted
  have hfs := (h.IR.2 from_).1 hf
  have hmem : from_ ∈ s.samples := hfs.1
  have hfk : from_.isNumericRepresentation = false := by simpa using hfs.2
  have hfresh := h.replacement_fresh from_ to_ hf hk hv
  have hmemset := fun x => mem_set_indexOf s.samples from_ to_ x hn hmem
  refine ⟨?_, ?_, ?_, ?_, ?_, ?_⟩
  · rw [strictlyAscending_iff_map, map_set_indexOf _ _ _ _ hv, ← strictlyAscending_iff_map]
    exact h.sorted
  · exact h.queue.replace hn from_ to_ ((h.mem_queue from_).2 hmem) hfresh rfl
  · have hto : to_ ∉ s.NRqueue := fun hq => hfresh ((h.NR.2 to_).1 hq).1
    refine ⟨?_, fun x => ?_⟩
    · rw [List.nodup_append]
      refine ⟨h.NR.1, List.nodup_singleton to_, ?_⟩
      intro a ha hb
      rw [List.mem_singleton] at hb
      exact hto (hb ▸ ha)
    · rw [List.mem_append, List.mem_singleton, hmemset x, h.NR.2 x]
      constructor
      · rintro (⟨h1, h2⟩ | h1)
        · refine ⟨Or.inr ⟨h1, fun e => ?_⟩, h2⟩
          subst e
          simp [hfk] at h2
        · exact ⟨Or.inl h1, h1 ▸ hk⟩
      · rintro ⟨h1 | ⟨h1, _⟩, h2⟩
        · exact Or.inr h1
        · exact Or.inl ⟨h1, h2⟩
  · refine ⟨h.IR.1.erase from_, fun x => ?_⟩
    rw [h.IR.1.mem_erase_iff, hmemset x, h.IR.2 x]
    constructor
    · rintro ⟨h1, h2, h3⟩
      exact ⟨Or.inr ⟨h2, h1⟩, h3⟩
    · rintro ⟨h1 | ⟨h1, h2⟩, h3⟩
      · subst h1
        simp [hk] at h3
      · exact ⟨h2, h1, h3⟩
  · by_cases hr : from_.isRoot = true
    · simp only [hr, if_true]
      exact h.root.replace hn from_ to_ ((h.root_bucket from_ hmem).1 hr).1 hfresh
        (hroot ▸ hr)
    · simp only [hr, if_false]
      exact h.root.replace_out hn from_ to_ hmem (by simpa using hr)
        (by rw [← hroot]; simpa using hr)
  · by_cases hr : from_.isRoot = true
    · simp only [hr, if_true]
      exact h.nonRoot.replace_out hn from_ to_ hmem (by simp [hr]) (by simp [← hroot, hr])
    · have hr' : from_.isRoot = false := by simpa using hr
      simp only [hr, if_false]
      exact h.nonRoot.replace hn from_ to_ ((h.root_bucket from_ hmem).2 hr').1 hfresh
        (by simp [← hroot, hr'])

/-- A non-empty set has a non-empty `queue`. -/
theorem Inv.next_some {s : SampleSet α} (h : Inv s) (hne : s.samples ≠ []) :
    ∃ r, s.next = some r ∧ s.queue.head? = some r ∧ r ∈ s.samples := by
  obtain ⟨a, t, hat⟩ := List.exists_cons_of_ne_nil hne
  have ha : a ∈ s.queue := (h.mem_queue a).2 (by rw [hat]; exact List.mem_cons_self _ _)
  cases hq : s.queue with
  | nil => rw [hq] at ha; simp at ha
  | cons b u =>
    refine ⟨b, ?_, rfl, ?_⟩
    · simp [next, hat, hq]
    · exact (h.mem_queue b).1 (by rw [hq]; exact List.mem_cons_self _ _)

/-- In a non-empty set `nextNR` finds a sample. -/
theorem Inv.nextNR_some {s : SampleSet α} (h : Inv s) (hne : s.samples ≠ []) :
    ∃ r, s.nextNR = some r ∧ r ∈ s.samples := by
  obtain ⟨a, t, hat⟩ := List.exists_cons_of_ne_nil hne
  have ha : a ∈ s.samples := by rw [hat]; exact List.mem_cons_self _ _
  cases hq : s.NRqueue with
  | cons b u =>
    refine ⟨b, by simp [nextNR, hat, hq], ?_⟩
    exact ((h.NR.2 b).1 (by rw [hq]; exact List.mem_cons_self _ _)).1
  | nil =>
    cases hq2 : s.IRqueue with
    | cons b u =>
      refine ⟨b, by simp [nextNR, hat, hq, hq2], ?_⟩
      exact ((h.IR.2 b).1 (by rw [hq2]; exact List.mem_cons_self _ _)).1
    | nil =>
      exfalso
      cases hk : a.isNumericRepresentation
      · have := ((h.kind_bucket a ha).2 hk).1
        rw [hq2] at this; simp at this
      · have := ((h.kind_bucket a ha).1 hk).1
        rw [hq] at this; simp at this

/-- In a non-empty set `nextNonRoot` finds a sample. -/
theorem Inv.nextNonRoot_some {s : SampleSet α} (h : Inv s) (hne : s.samples ≠ []) :
    ∃ r, s.nextNonRoot = some r ∧ r ∈ s.samples := by
  obtain ⟨a, t, hat⟩ := List.exists_cons_of_ne_nil hne
  have ha : a ∈ s.samples := by rw [hat]; exact List.mem_cons_self _ _
  cases hq : s.nonRootQueue with
  | cons b u =>
    refine ⟨b, by simp [nextNonRoot, hat, hq], ?_⟩
    exact ((h.nonRoot.2 b).1 (by rw [hq]; exact List.mem_cons_self _ _)).1
  | nil =>
    cases hq2 : s.rootQueue with
    | cons b u =>
      refine ⟨b, by simp [nextNonRoot, hat, hq, hq2], ?_⟩
      exact ((h.root.2 b).1 (by rw [hq2]; exact List.mem_cons_self _ _)).1
    | nil =>
      exfalso
      cases hk : a.isRoot
      · have := ((h.root_bucket a ha).2 hk).1
        rw [hq] at this; simp at this
      · have := ((h.root_bucket a ha).1 hk).1
        rw [hq2] at this; simp at this

/-- In a non-empty set `nextRoot` finds a sample. -/
theorem Inv.nextRoot_some {s : SampleSet α} (h : Inv s) (hne : s.samples ≠ []) :
    ∃ r, s.nextRoot = some r ∧ r ∈ s.samples := by
  obtain ⟨a, t, hat⟩ := List.exists_cons_of_ne_nil hne
  have ha : a ∈ s.samples := by rw [hat]; exact List.mem_cons_self _ _
  cases hq : s.rootQueue with
  | cons b u =>
    refine ⟨b, by simp [nextRoot, hat, hq], ?_⟩
    exact ((h.root.2 b).1 (by rw [hq]; exact List.mem_cons_self _ _)).1
  | nil =>
    cases hq2 : s.nonRootQueue with
    | cons b u =>
      refine ⟨b, by simp [nextRoot, hat, hq, hq2], ?_⟩
      exact ((h.nonRoot.2 b).1 (by rw [hq2]; exact List.mem_cons_self _ _)).1
    | nil =>
      exfalso
      cases hk : a.isRoot
      · have := ((h.root_bucket a ha).2 hk).1
        rw [hq2] at this; simp at this
      · have := ((h.root_bucket a ha).1 hk).1
        rw [hq] at this; simp at this

end SampleSet

namespace SampleSet
variable {α : Type} [LinearOrder α]

theorem pop_of_empty (s : SampleSet α) (he : s.samples = []) : s.pop = some s := by
  simp [pop, he]

theorem popNR_of_empty (s : SampleSet α) (he : s.samples = []) : s.popNR = some s := by
  simp [popNR, he]

theorem popNonroot_of_empty (s : SampleSet α) (he : s.samples = []) :
    s.popNonroot = some s := by
  simp [popNonroot, he]

theorem popRoot_of_empty (s : SampleSet α) (he : s.samples = []) : s.popRoot = some s := by
  simp [popRoot, he]

theorem remove_of_invalid (s : SampleSet α) (position : Nat)
    (hp : s.samples[position]? = none) : s.remove position = none := by
  simp [remove, hp]

/-- Every reachable state satisfies the invariant. -/
theorem Reachable.inv {s : SampleSet α} (h : Reachable s) : Inv s := by
  induction h with
  | empty => exact Inv.empty
  | insert s r fresh _ ih => exact ih.insert r fresh
  | remove s s' position next _ hstep ih =>
    cases hp : s.samples[position]? with
    | none =>
      rw [remove_of_invalid s position hp] at hstep
      exact Option.noConfusion hstep
    | some r =>
      rw [remove_eq s ih position r hp] at hstep
      have : _ = s' := congrArg Prod.fst (Option.some.inj hstep)
      rw [← this]
      exact ih.erase_everywhere r
  | pop s s' _ hstep ih =>
    by_cases he : s.samples = []
    · rw [pop_of_empty s he] at hstep
      rw [← Option.some.inj hstep]
      exact ih
    · obtain ⟨r, _, hr, _⟩ := ih.next_some he
      rw [pop_eq s ih r hr] at hstep
      rw [← Option.some.inj hstep]
      exact ih.erase_everywhere r
  | popNR s s' _ hstep ih =>
    by_cases he : s.samples = []
    · rw [popNR_of_empty s he] at hstep
      rw [← Option.some.inj hstep]
      exact ih
    · obtain ⟨r, hr, _⟩ := ih.nextNR_some he
      rw [popNR_eq s ih r hr] at hstep
      rw [← Option.some.inj hstep]
      exact ih.erase_everywhere r
  | popNonroot s s' _ hstep ih =>
    by_cases he : s.samples = []
    · rw [popNonroot_of_empty s he] at hstep
      rw [← Option.some.inj hstep]
      exact ih
    · obtain ⟨r, hr, _⟩ := ih.nextNonRoot_some he
      rw [popNonroot_eq s ih r hr] at hstep
      rw [← Option.some.inj hstep]
      exact ih.erase_everywhere r
  | popRoot s s' _ hstep ih =>
    by_cases he : s.samples = []
    · rw [popRoot_of_empty s he] at hstep
      rw [← Option.some.inj hstep]
      exact ih
    · obtain ⟨r, hr, _⟩ := ih.nextRoot_some he
      rw [popRoot_eq s ih r hr] at hstep
      rw [← Option.some.inj hstep]
      exact ih.erase_everywhere r
  | simplify s s' from_ to_ b _ hk hv hstep ih =>
    by_cases hf : from_ ∈ s.IRqueue
    · by_cases hroot : from_.isRoot = to_.isRoot
      · rw [simplify_eq s ih from_ to_ hf hroot] at hstep
        have : _ = s' := congrArg Prod.fst (Option.some.inj hstep)
        rw [← this]
        exact ih.simplify from_ to_ hf hroot hk hv
      · rw [simplify_root_mismatch s from_ to_ hf hroot] at hstep
        exact Option.noConfusion hstep
    · rw [simplify_absent s from_ to_ hf] at hstep
      have : _ = s' := congrArg Prod.fst (Option.some.inj hstep)
      rw [← this]
      exact ih

/-- Inserting a list of samples into a reachable state gives a reachable state. -/
theorem Reachable.insertAll {s : SampleSet α} (h : Reachable s)
    (rs : List (RealAlgebraicNumber α × Nat)) : Reachable (s.insertAll rs) := by
  induction rs generalizing s with
  | nil => exact h
  | cons a t ih =>
    obtain ⟨r, fresh⟩ := a
    exact ih (Reachable.insert s r fresh h)

end SampleSet

/-! ## The claims -/

section claims
variable {α : Type} [LinearOrder α]
open SampleSet

/-- C1 (view consistency): in every reachable state a handle is in `samples` iff it is
in `queue`; a stored handle occurs exactly once in `samples` and in `queue`, exactly
once in `NRqueue` and `IRqueue` taken together and exactly once in `rootQueue` and
`nonRootQueue` taken together; a handle that is not stored occurs in no view. -/
theorem C1_view_consistency (s : SampleSet α) (h : Reachable s) (x : RealAlgebraicNumber α) :
    (x ∈ s.samples ↔ x ∈ s.queue) ∧
    (x ∈ s.samples →
      s.samples.count x = 1 ∧ s.queue.count x = 1 ∧
      s.NRqueue.count x + s.IRqueue.count x = 1 ∧
      s.rootQueue.count x + s.nonRootQueue.count x = 1) ∧
    (x ∉ s.samples →
      x ∉ s.queue ∧ x ∉ s.NRqueue ∧ x ∉ s.IRqueue ∧ x ∉ s.rootQueue ∧ x ∉ s.nonRootQueue) := by
  have hi := h.inv
  refine ⟨(hi.mem_queue x).symm, ?_, ?_⟩
  · intro hx
    refine ⟨List.count_eq_one_of_mem (strictlyAscending_nodup _ hi.sorted) hx,
      List.count_eq_one_of_mem hi.queue.1 ((hi.mem_queue x).2 hx), ?_, ?_⟩
    · cases hk : x.isNumericRepresentation
      · obtain ⟨h1, h2⟩ := (hi.kind_bucket x hx).2 hk
        rw [List.count_eq_one_of_mem hi.IR.1 h1, List.count_eq_zero_of_not_mem h2]
      · obtain ⟨h1, h2⟩ := (hi.kind_bucket x hx).1 hk
        rw [List.count_eq_one_of_mem hi.NR.1 h1, List.count_eq_zero_of_not_mem h2]
    · cases hk : x.isRoot
      · obtain ⟨h1, h2⟩ := (hi.root_bucket x hx).2 hk
        rw [List.count_eq_one_of_mem hi.nonRoot.1 h1, List.count_eq_zero_of_not_mem h2]
      · obtain ⟨h1, h2⟩ := (hi.root_bucket x hx).1 hk
        rw [List.count_eq_one_of_mem hi.root.1 h1, List.count_eq_zero_of_not_mem h2]
  · intro hx
    exact ⟨fun hq => hx ((hi.mem_queue x).1 hq), fun hq => hx ((hi.NR.2 x).1 hq).1,
      fun hq => hx ((hi.IR.2 x).1 hq).1, fun hq => hx ((hi.root.2 x).1 hq).1,
      fun hq => hx ((hi.nonRoot.2 x).1 hq).1⟩

/-- The set `mixedSet` is reachable. -/
theorem mixedSet_reachable : Reachable mixedSet :=
  Reachable.insertAll Reachable.empty _

/-- The set `scenarioB` is reachable. -/
theorem scenarioB_reachable : Reachable scenarioB :=
  Reachable.insertAll Reachable.empty _

/-- The set `singletonFive` is reachable. -/
theorem singletonFive_reachable : Reachable singletonFive :=
  Reachable.insertAll Reachable.empty _

/-- C1 at `mixedSet` and its stored interval root `-1`. -/
theorem C1_view_consistency_witness :
    Reachable mixedSet ∧
    ((intSample 1 (-1) true false ∈ mixedSet.samples ↔
        intSample 1 (-1) true false ∈ mixedSet.queue) ∧
    (intSample 1 (-1) true false ∈ mixedSet.samples →
      mixedSet.samples.count (intSample 1 (-1) true false) = 1 ∧
      mixedSet.queue.count (intSample 1 (-1) true false) = 1 ∧
      mixedSet.NRqueue.count (intSample 1 (-1) true false) +
        mixedSet.IRqueue.count (intSample 1 (-1) true false) = 1 ∧
      mixedSet.rootQueue.count (intSample 1 (-1) true false) +
        mixedSet.nonRootQueue.count (intSample 1 (-1) true false) = 1) ∧
    (intSample 1 (-1) true false ∉ mixedSet.samples →
      intSample 1 (-1) true false ∉ mixedSet.queue ∧
      intSample 1 (-1) true false ∉ mixedSet.NRqueue ∧
      intSample 1 (-1) true false ∉ mixedSet.IRqueue ∧
      intSample 1 (-1) true false ∉ mixedSet.rootQueue ∧
      intSample 1 (-1) true false ∉ mixedSet.nonRootQueue)) :=
  ⟨mixedSet_reachable,
    C1_view_consistency mixedSet mixedSet_reachable (intSample 1 (-1) true false)⟩

/-- C2 (sorted invariant): after every call of a sequence of operations that starts
from the empty set, `samples` is strictly ascending under `Less`, and no two of its
entries are value-equal. -/
theorem C2_sorted_invariant (s : SampleSet α) (h : Reachable s) :
    StrictlyAscending s.samples ∧ s.samples.Pairwise (fun a b => Equal a b = false) := by
  refine ⟨h.inv.sorted, List.Pairwise.imp ?_ h.inv.sorted⟩
  intro a b hab
  rw [Less_iff] at hab
  simp [Equal, ne_of_lt hab]

/-- C2 at `mixedSet`. -/
theorem C2_sorted_invariant_witness :
    Reachable mixedSet ∧
    StrictlyAscending mixedSet.samples ∧
    mixedSet.samples.Pairwise (fun a b => Equal a b = false) :=
  ⟨mixedSet_reachable, C2_sorted_invariant mixedSet mixedSet_reachable⟩

/-- C3 (deduplication by value): in a reachable state, inserting a sample whose value
some stored sample already has returns `inserted = false` and leaves all six views as
they were, whatever the address, class and root flag of the input. -/
theorem C3_insert_dedup (s : SampleSet α) (h : Reachable s) (r : RealAlgebraicNumber α)
    (fresh : Nat) (hex : ∃ y ∈ s.samples, y.value = r.value) :
    (s.insert r fresh).2.2 = false ∧
    (s.insert r fresh).1.samples = s.samples ∧
    (s.insert r fresh).1.queue = s.queue ∧
    (s.insert r fresh).1.NRqueue = s.NRqueue ∧
    (s.insert r fresh).1.IRqueue = s.IRqueue ∧
    (s.insert r fresh).1.rootQueue = s.rootQueue ∧
    (s.insert r fresh).1.nonRootQueue = s.nonRootQueue := by
  rw [insert_old s h.inv.sorted r fresh hex]
  exact ⟨rfl, rfl, rfl, rfl, rfl, rfl, rfl⟩

/-- C3 at `scenarioB`: the value `0` is stored as a numeric non-root; a collapsed
interval root with value `0` at another address is not inserted. -/
theorem C3_insert_dedup_witness :
    Reachable scenarioB ∧
    (∃ y ∈ scenarioB.samples, y.value = (intSample 7 0 true true).value) ∧
    (scenarioB.insert (intSample 7 0 true true) 200).2.2 = false ∧
    (scenarioB.insert (intSample 7 0 true true) 200).1.samples = scenarioB.samples ∧
    (scenarioB.insert (intSample 7 0 true true) 200).1.queue = scenarioB.queue ∧
    (scenarioB.insert (intSample 7 0 true true) 200).1.NRqueue = scenarioB.NRqueue ∧
    (scenarioB.insert (intSample 7 0 true true) 200).1.IRqueue = scenarioB.IRqueue ∧
    (scenarioB.insert (intSample 7 0 true true) 200).1.rootQueue = scenarioB.rootQueue ∧
    (scenarioB.insert (intSample 7 0 true true) 200).1.nonRootQueue =
      scenarioB.nonRootQueue :=
  ⟨scenarioB_reachable, ⟨numSample 2 0 false, by decide, by decide⟩,
    C3_insert_dedup scenarioB scenarioB_reachable (intSample 7 0 true true) 200
      ⟨numSample 2 0 false, by decide, by decide⟩⟩

end claims

section claims
variable {α : Type} [LinearOrder α]
open SampleSet

/-- C4 (effect of a successful insert): in a reachable state, inserting a sample `r`
whose value is not stored returns `inserted = true`.  The new sample `x` is `r` itself,
unless `r` is a numeric value held in an interval object, in which case it is the
numeric copy of `r`; it has the value and the root flag of `r`.  Afterwards `samples`
is the old list with `x` put at the returned position, behind all smaller and in front
of all larger entries; `queue` is the old queue with `x` appended; the kind bucket of
the class of `x` and the root bucket of the root flag of `x` have `x` appended; the other
two buckets are unchanged. -/
theorem C4_insert_effect (s : SampleSet α) (h : Reachable s) (r : RealAlgebraicNumber α)
    (fresh : Nat) (hnew : ∀ y ∈ s.samples, y.value ≠ r.value) :
    (s.insert r fresh).2.2 = true ∧
    (insertedSample r fresh).value = r.value ∧
    (insertedSample r fresh).isRoot = r.isRoot ∧
    (r.isNumeric = false ∨ r.isNumericRepresentation = true → insertedSample r fresh = r) ∧
    (r.isNumeric = true → r.isNumericRepresentation = false →
      insertedSample r fresh = RealAlgebraicNumberNR.create fresh r.value r.isRoot) ∧
    (s.insert r fresh).1.samples =
      s.samples.take (s.insert r fresh).2.1 ++
        insertedSample r fresh :: s.samples.drop (s.insert r fresh).2.1 ∧
    (∀ a ∈ s.samples.take (s.insert r fresh).2.1, a.value < (insertedSample r fresh).value) ∧
    (∀ b ∈ s.samples.drop (s.insert r fresh).2.1, (insertedSample r fresh).value < b.value) ∧
    (s.insert r fresh).1.queue = s.queue ++ [insertedSample r fresh] ∧
    ((insertedSample r fresh).isNumericRepresentation = true →
      (s.insert r fresh).1.NRqueue = s.NRqueue ++ [insertedSample r fresh] ∧
      (s.insert r fresh).1.IRqueue = s.IRqueue) ∧
    ((insertedSample r fresh).isNumericRepresentation = false →
      (s.insert r fresh).1.IRqueue = s.IRqueue ++ [insertedSample r fresh] ∧
      (s.insert r fresh).1.NRqueue = s.NRqueue) ∧
    ((insertedSample r fresh).isRoot = true →
      (s.insert r fresh).1.rootQueue = s.rootQueue ++ [insertedSample r fresh] ∧
      (s.insert r fresh).1.nonRootQueue = s.nonRootQueue) ∧
    ((insertedSample r fresh).isRoot = false →
      (s.insert r fresh).1.nonRootQueue = s.nonRootQueue ++ [insertedSample r fresh] ∧
      (s.insert r fresh).1.rootQueue = s.rootQueue) := by
  have hs := h.inv.sorted
  have hnew' : ∀ y ∈ s.samples, y.value ≠ (insertedSample r fresh).value := by
    rw [insertedSample_value]; exact hnew
  obtain ⟨hlo, hhi⟩ := lower_bound_split s.samples (insertedSample r fresh) hs hnew'
  rw [insert_new s hs r fresh hnew]
  refine ⟨rfl, insertedSample_value r fresh, insertedSample_isRoot r fresh, ?_, ?_, rfl,
    hlo, hhi, rfl, ?_, ?_, ?_, ?_⟩
  · rintro (hn | hn)
    · simp [insertedSample, hn]
    · unfold insertedSample
      split_ifs <;> rfl
  · intro h1 h2
    simp [insertedSample, h1, h2]
  · intro hn
    rw [insertedSample_isNumericRepresentation] at hn
    simp [hn]
  · intro hn
    rw [insertedSample_isNumericRepresentation] at hn
    simp [hn]
  · intro hn
    rw [insertedSample_isRoot] at hn
    simp [hn]
  · intro hn
    rw [insertedSample_isRoot] at hn
    simp [hn]

/-- C4 at `scenarioB`: the collapsed interval root `1` is not stored yet; its numeric
copy is put between `0` and `3`. -/
theorem C4_insert_effect_witness :
    Reachable scenarioB ∧
    (∀ y ∈ scenarioB.samples, y.value ≠ (intSample 7 1 true true).value) ∧
    (scenarioB.insert (intSample 7 1 true true) 200).2.2 = true ∧
    insertedSample (intSample 7 1 true true) 200 = RealAlgebraicNumberNR.create 200 1 true ∧
    (scenarioB.insert (intSample 7 1 true true) 200).1.samples =
      scenarioB.samples.take (scenarioB.insert (intSample 7 1 true true) 200).2.1 ++
        insertedSample (intSample 7 1 true true) 200 ::
          scenarioB.samples.drop (scenarioB.insert (intSample 7 1 true true) 200).2.1 ∧
    (scenarioB.insert (intSample 7 1 true true) 200).1.queue =
      scenarioB.queue ++ [insertedSample (intSample 7 1 true true) 200] ∧
    (scenarioB.insert (intSample 7 1 true true) 200).1.NRqueue =
      scenarioB.NRqueue ++ [insertedSample (intSample 7 1 true true) 200] ∧
    (scenarioB.insert (intSample 7 1 true true) 200).1.rootQueue =
      scenarioB.rootQueue ++ [insertedSample (intSample 7 1 true true) 200] := by
  have hC := C4_insert_effect scenarioB scenarioB_reachable (intSample 7 1 true true) 200
    (by decide)
  exact ⟨scenarioB_reachable, by decide, hC.1, hC.2.2.2.2.1 (by decide) (by decide),
    hC.2.2.2.2.2.1, hC.2.2.2.2.2.2.2.2.1, (hC.2.2.2.2.2.2.2.2.2.1 (by decide)).1,
    (hC.2.2.2.2.2.2.2.2.2.2.2.1 (by decide)).1⟩

/-- The values stored after an `insert` are the old ones and the value of the input. -/
theorem values_insert (s : SampleSet α) (hs : StrictlyAscending s.samples)
    (r : RealAlgebraicNumber α) (fresh : Nat) (v : α) :
    v ∈ (s.insert r fresh).1.samples.map (fun x => x.value) ↔
      v = r.value ∨ v ∈ s.samples.map (fun x => x.value) := by
  by_cases hex : ∃ y ∈ s.samples, y.value = r.value
  · rw [insert_old s hs r fresh hex]
    constructor
    · exact Or.inr
    · rintro (h1 | h1)
      · obtain ⟨y, hy, hv⟩ := hex
        exact List.mem_map.2 ⟨y, hy, by rw [h1, hv]⟩
      · exact h1
  · have hnew : ∀ y ∈ s.samples, y.value ≠ r.value := fun y hy hv => hex ⟨y, hy, hv⟩
    rw [insert_new s hs r fresh hnew]
    simp only [List.mem_map, mem_listInsert]
    constructor
    · rintro ⟨a, ha | ha, rfl⟩
      · left; rw [ha, insertedSample_value]
      · exact Or.inr ⟨a, ha, rfl⟩
    · rintro (h1 | ⟨a, ha, rfl⟩)
      · exact ⟨insertedSample r fresh, Or.inl rfl, by rw [h1, insertedSample_value]⟩
      · exact ⟨a, Or.inr ha, rfl⟩

/-- The values stored after a run of inserts are the old ones and those of the inputs. -/
theorem values_insertAll (rs : List (RealAlgebraicNumber α × Nat)) (s : SampleSet α)
    (h : Inv s) (v : α) :
    v ∈ (s.insertAll rs).samples.map (fun x => x.value) ↔
      v ∈ s.samples.map (fun x => x.value) ∨ v ∈ rs.map (fun p => p.1.value) := by
  induction rs generalizing s with
  | nil => simp [insertAll]
  | cons a t ih =>
    obtain ⟨r, fresh⟩ := a
    simp only [insertAll, List.map_cons, List.mem_cons]
    rw [ih _ (h.insert r fresh), values_insert s h.sorted r fresh v]
    tauto

/-- Under the invariant `queue` has as many entries as `samples`. -/
theorem SampleSet.Inv.length_queue {s : SampleSet α} (h : Inv s) :
    s.queue.length = s.samples.length := by
  apply List.Perm.length_eq
  rw [List.perm_ext_iff_of_nodup h.queue.1 (strictlyAscending_nodup _ h.sorted)]
  exact h.mem_queue

/-- C5 (size law): after inserting any list of samples into the empty set, `samples`
and `queue` each have as many entries as there are distinct values among the inputs. -/
theorem C5_size_law (rs : List (RealAlgebraicNumber α × Nat)) :
    ((SampleSet.empty : SampleSet α).insertAll rs).samples.length =
      (rs.map (fun p => p.1.value)).toFinset.card ∧
    ((SampleSet.empty : SampleSet α).insertAll rs).queue.length =
      (rs.map (fun p => p.1.value)).toFinset.card := by
  have hi : Inv ((SampleSet.empty : SampleSet α).insertAll rs) :=
    (Reachable.insertAll Reachable.empty rs).inv
  have hnd : (((SampleSet.empty : SampleSet α).insertAll rs).samples.map
      (fun x => x.value)).Nodup := by
    have := (strictlyAscending_iff_map _).1 hi.sorted
    exact List.Pairwise.imp (fun hab => ne_of_lt hab) this
  have hset : (((SampleSet.empty : SampleSet α).insertAll rs).samples.map
      (fun x => x.value)).toFinset = (rs.map (fun p => p.1.value)).toFinset := by
    ext v
    rw [List.mem_toFinset, List.mem_toFinset, values_insertAll rs _ Inv.empty v]
    simp [SampleSet.empty]
  have hlen : ((SampleSet.empty : SampleSet α).insertAll rs).samples.length =
      (rs.map (fun p => p.1.value)).toFinset.card := by
    rw [← hset, List.toFinset_card_of_nodup hnd, List.length_map]
  exact ⟨hlen, by rw [hi.length_queue, hlen]⟩

end claims

section claims
variable {α : Type} [LinearOrder α]
open SampleSet

theorem length_takeWhile_eq_length_iff {β : Type} (p : β → Bool) (l : List β) :
    (l.takeWhile p).length = l.length ↔ ∀ x ∈ l, p x = true := by
  induction l with
  | nil => simp
  | cons a t ih =>
    by_cases ha : p a = true
    · simp [List.takeWhile, ha, ih]
    · simp [List.takeWhile, ha]

/-- What `contains` computes in a reachable state: whether some stored value is not
smaller than the value asked for. -/
theorem contains_iff_exists_ge (s : SampleSet α) (h : Reachable s)
    (r : RealAlgebraicNumber α) :
    s.contains r = true ↔ ∃ x ∈ s.samples, r.value ≤ x.value := by
  unfold SampleSet.contains
  simp only [bne_iff_ne, ne_eq]
  rw [lower_bound_sorted s.samples r h.inv.sorted, length_takeWhile_eq_length_iff]
  simp [Less_iff]

/-- C6 (membership), the code at a failing input: the reachable set that stores only
the value `5` answers `contains(3) = true`, although no stored entry is value-equal
to `3`. -/
theorem C6_contains_smaller_value :
    Reachable singletonFive ∧
    singletonFive.samples.map (fun x => x.value) = [5] ∧
    singletonFive.contains (numSample 2 3 false) = true ∧
    ¬ ∃ x ∈ singletonFive.samples, x.value = (numSample 2 3 false).value :=
  ⟨singletonFive_reachable, by decide, by decide, by decide⟩

/-- Once a handle is erased from every view of a consistent set it occurs in none. -/
theorem SampleSet.Inv.erased_absent {s : SampleSet α} (h : Inv s) (r : RealAlgebraicNumber α) :
    r ∉ s.samples.erase r ∧ r ∉ s.queue.erase r ∧ r ∉ s.NRqueue.erase r ∧
    r ∉ s.IRqueue.erase r ∧ r ∉ s.rootQueue.erase r ∧ r ∉ s.nonRootQueue.erase r :=
  ⟨(strictlyAscending_nodup _ h.sorted).not_mem_erase, h.queue.1.not_mem_erase,
    h.NR.1.not_mem_erase, h.IR.1.not_mem_erase, h.root.1.not_mem_erase,
    h.nonRoot.1.not_mem_erase⟩

/-- C7 (pop completeness): in a reachable non-empty state `next()` returns a sample `r`
and `pop()` succeeds; afterwards `r` occurs in none of the six views, and every view is
its old content with `r` erased.  In scenario B (`-2`, `0`, `3` inserted as numerics)
`pop()` leaves `samples = [0, 3]` and `queue = [0, 3]`. -/
theorem C7_pop_completeness (s : SampleSet α) (h : Reachable s) (hne : s.samples ≠ []) :
    (∃ r s', s.next = some r ∧ s.pop = some s' ∧
      r ∉ s'.samples ∧ r ∉ s'.queue ∧ r ∉ s'.NRqueue ∧ r ∉ s'.IRqueue ∧
      r ∉ s'.rootQueue ∧ r ∉ s'.nonRootQueue ∧
      s'.samples = s.samples.erase r ∧ s'.queue = s.queue.erase r ∧
      s'.NRqueue = s.NRqueue.erase r ∧ s'.IRqueue = s.IRqueue.erase r ∧
      s'.rootQueue = s.rootQueue.erase r ∧ s'.nonRootQueue = s.nonRootQueue.erase r) ∧
    scenarioB.pop.map (fun t => (t.samples.map (fun x => x.value),
      t.queue.map (fun x => x.value))) = some ([0, 3], [0, 3]) := by
  refine ⟨?_, by decide⟩
  obtain ⟨r, hnext, hhead, _⟩ := h.inv.next_some hne
  obtain ⟨a1, a2, a3, a4, a5, a6⟩ := h.inv.erased_absent r
  exact ⟨r, _, hnext, pop_eq s h.inv r hhead, a1, a2, a3, a4, a5, a6,
    rfl, rfl, rfl, rfl, rfl, rfl⟩

/-- C7 at scenario B. -/
theorem C7_pop_completeness_witness :
    Reachable scenarioB ∧ scenarioB.samples ≠ [] ∧
    (∃ r s', scenarioB.next = some r ∧ scenarioB.pop = some s' ∧
      r ∉ s'.samples ∧ r ∉ s'.queue ∧ r ∉ s'.NRqueue ∧ r ∉ s'.IRqueue ∧
      r ∉ s'.rootQueue ∧ r ∉ s'.nonRootQueue ∧
      s'.samples = scenarioB.samples.erase r ∧ s'.queue = scenarioB.queue.erase r ∧
      s'.NRqueue = scenarioB.NRqueue.erase r ∧ s'.IRqueue = scenarioB.IRqueue.erase r ∧
      s'.rootQueue = scenarioB.rootQueue.erase r ∧
      s'.nonRootQueue = scenarioB.nonRootQueue.erase r) :=
  ⟨scenarioB_reachable, by decide,
    (C7_pop_completeness scenarioB scenarioB_reachable (by decide)).1⟩

/-- C8 (priority pops): in a reachable non-empty state each of `nextNR()`,
`nextNonRoot()` and `nextRoot()` returns a sample `r` (from its bucket or from the
fallback bucket) and the matching pop succeeds; afterwards `r` occurs in none of the
six views, and every view is its old content with `r` erased. -/
theorem C8_priority_pops (s : SampleSet α) (h : Reachable s) (hne : s.samples ≠ []) :
    (∃ r s', s.nextNR = some r ∧ s.popNR = some s' ∧ r ∈ s.samples ∧
      r ∉ s'.samples ∧ r ∉ s'.queue ∧ r ∉ s'.NRqueue ∧ r ∉ s'.IRqueue ∧
      r ∉ s'.rootQueue ∧ r ∉ s'.nonRootQueue ∧
      s'.samples = s.samples.erase r ∧ s'.queue = s.queue.erase r ∧
      s'.NRqueue = s.NRqueue.erase r ∧ s'.IRqueue = s.IRqueue.erase r ∧
      s'.rootQueue = s.rootQueue.erase r ∧ s'.nonRootQueue = s.nonRootQueue.erase r) ∧
    (∃ r s', s.nextNonRoot = some r ∧ s.popNonroot = some s' ∧ r ∈ s.samples ∧
      r ∉ s'.samples ∧ r ∉ s'.queue ∧ r ∉ s'.NRqueue ∧ r ∉ s'.IRqueue ∧
      r ∉ s'.rootQueue ∧ r ∉ s'.nonRootQueue ∧
      s'.samples = s.samples.erase r ∧ s'.queue = s.queue.erase r ∧
      s'.NRqueue = s.NRqueue.erase r ∧ s'.IRqueue = s.IRqueue.erase r ∧
      s'.rootQueue = s.rootQueue.erase r ∧ s'.nonRootQueue = s.nonRootQueue.erase r) ∧
    (∃ r s', s.nextRoot = some r ∧ s.popRoot = some s' ∧ r ∈ s.samples ∧
      r ∉ s'.samples ∧ r ∉ s'.queue ∧ r ∉ s'.NRqueue ∧ r ∉ s'.IRqueue ∧
      r ∉ s'.rootQueue ∧ r ∉ s'.nonRootQueue ∧
      s'.samples = s.samples.erase r ∧ s'.queue = s.queue.erase r ∧
      s'.NRqueue = s.NRqueue.erase r ∧ s'.IRqueue = s.IRqueue.erase r ∧
      s'.rootQueue = s.rootQueue.erase r ∧ s'.nonRootQueue = s.nonRootQueue.erase r) := by
  refine ⟨?_, ?_, ?_⟩
  · obtain ⟨r, hnext, hmem⟩ := h.inv.nextNR_some hne
    obtain ⟨a1, a2, a3, a4, a5, a6⟩ := h.inv.erased_absent r
    exact ⟨r, _, hnext, popNR_eq s h.inv r hnext, hmem, a1, a2, a3, a4, a5, a6,
      rfl, rfl, rfl, rfl, rfl, rfl⟩
  · obtain ⟨r, hnext, hmem⟩ := h.inv.nextNonRoot_some hne
    obtain ⟨a1, a2, a3, a4, a5, a6⟩ := h.inv.erased_absent r
    exact ⟨r, _, hnext, popNonroot_eq s h.inv r hnext, hmem, a1, a2, a3, a4, a5, a6,
      rfl, rfl, rfl, rfl, rfl, rfl⟩
  · obtain ⟨r, hnext, hmem⟩ := h.inv.nextRoot_some hne
    obtain ⟨a1, a2, a3, a4, a5, a6⟩ := h.inv.erased_absent r
    exact ⟨r, _, hnext, popRoot_eq s h.inv r hnext, hmem, a1, a2, a3, a4, a5, a6,
      rfl, rfl, rfl, rfl, rfl, rfl⟩

end claims

section claims
variable {α : Type} [LinearOrder α]
open SampleSet

/-- C8 at `mixedSet`. -/
theorem C8_priority_pops_witness :
    Reachable mixedSet ∧ mixedSet.samples ≠ [] ∧
    (∃ r s', mixedSet.nextNR = some r ∧ mixedSet.popNR = some s' ∧ r ∈ mixedSet.samples ∧
      r ∉ s'.samples ∧ r ∉ s'.queue ∧ r ∉ s'.NRqueue ∧ r ∉ s'.IRqueue ∧
      r ∉ s'.rootQueue ∧ r ∉ s'.nonRootQueue ∧
      s'.samples = mixedSet.samples.erase r ∧ s'.queue = mixedSet.queue.erase r ∧
      s'.NRqueue = mixedSet.NRqueue.erase r ∧ s'.IRqueue = mixedSet.IRqueue.erase r ∧
      s'.rootQueue = mixedSet.rootQueue.erase r ∧
      s'.nonRootQueue = mixedSet.nonRootQueue.erase r) :=
  ⟨mixedSet_reachable, by decide,
    (C8_priority_pops mixedSet mixedSet_reachable (by decide)).1⟩

/-- C9 (remove): in a reachable state, `remove` at a valid position `i` succeeds.  It
erases the entry `r` at index `i` from `samples`, erases the handle `r` from `queue`
and from the buckets (the kind bucket and the root bucket that hold it; the other two
do not hold it and stay as they are), so that `r` occurs in no view afterwards and all
other entries keep their order.  The returned position is `i`, which in the new list is
the position of the entry that followed `r`, or the end. -/
theorem C9_remove (s : SampleSet α) (h : Reachable s) (i : Nat) (hi : i < s.samples.length) :
    ∃ r s', s.samples[i]? = some r ∧ s.remove i = some (s', i) ∧
      s'.samples = s.samples.eraseIdx i ∧ s'.samples = s.samples.erase r ∧
      s'.queue = s.queue.erase r ∧
      s'.NRqueue = s.NRqueue.erase r ∧ s'.IRqueue = s.IRqueue.erase r ∧
      s'.rootQueue = s.rootQueue.erase r ∧ s'.nonRootQueue = s.nonRootQueue.erase r ∧
      r ∈ s.queue ∧
      (r.isNumericRepresentation = true → r ∈ s.NRqueue ∧ r ∉ s.IRqueue) ∧
      (r.isNumericRepresentation = false → r ∈ s.IRqueue ∧ r ∉ s.NRqueue) ∧
      (r.isRoot = true → r ∈ s.rootQueue ∧ r ∉ s.nonRootQueue) ∧
      (r.isRoot = false → r ∈ s.nonRootQueue ∧ r ∉ s.rootQueue) ∧
      r ∉ s'.samples ∧ r ∉ s'.queue ∧ r ∉ s'.NRqueue ∧ r ∉ s'.IRqueue ∧
      r ∉ s'.rootQueue ∧ r ∉ s'.nonRootQueue ∧
      s'.samples[i]? = s.samples[i + 1]? ∧ s'.samples.length + 1 = s.samples.length := by
  have hinv := h.inv
  have hget : s.samples[i]? = some s.samples[i] := List.getElem?_eq_getElem hi
  have hmem : s.samples[i] ∈ s.samples := List.getElem_mem hi
  have he : s.samples.erase s.samples[i] = s.samples.eraseIdx i :=
    (strictlyAscending_nodup _ hinv.sorted).erase_getElem i hi
  obtain ⟨a1, a2, a3, a4, a5, a6⟩ := hinv.erased_absent s.samples[i]
  refine ⟨s.samples[i], _, hget, remove_eq s hinv i _ hget, he, rfl, rfl, rfl, rfl, rfl, rfl,
    (hinv.mem_queue _).2 hmem, (hinv.kind_bucket _ hmem).1, (hinv.kind_bucket _ hmem).2,
    (hinv.root_bucket _ hmem).1, (hinv.root_bucket _ hmem).2, a1, a2, a3, a4, a5, a6, ?_, ?_⟩
  · simp only [he]
    rw [List.getElem?_eraseIdx]
    simp
  · simp only [he]
    rw [List.length_eraseIdx]
    simp only [hi, if_true]
    omega

/-- C9 at `mixedSet`, position `1`. -/
theorem C9_remove_witness :
    Reachable mixedSet ∧ 1 < mixedSet.samples.length ∧
    ∃ s', mixedSet.remove 1 = some (s', 1) ∧
      s'.samples = mixedSet.samples.eraseIdx 1 ∧
      s'.queue = mixedSet.queue.erase (numSample 2 0 false) ∧
      s'.NRqueue = mixedSet.NRqueue.erase (numSample 2 0 false) ∧
      s'.nonRootQueue = mixedSet.nonRootQueue.erase (numSample 2 0 false) := by
  obtain ⟨r, s', h1, h2, h3, _, h5, h6, _, _, h9, _⟩ :=
    C9_remove mixedSet mixedSet_reachable 1 (by decide)
  have hr : r = numSample 2 0 false := by
    have : mixedSet.samples[1]? = some (numSample 2 0 false) := by decide
    rw [this] at h1
    exact (Option.some.inj h1).symm
  subst hr
  exact ⟨mixedSet_reachable, by decide, s', h2, h3, h5, h6, h9⟩

end claims

section claims
variable {α : Type} [LinearOrder α]
open SampleSet

/-- C10 (effect of a successful `simplify(from, to)`): in a reachable state that stores
the interval sample `from`, for a numeric sample `to` with the value and the root flag
of `from`, the call returns `true`.  Afterwards `samples` and `queue` hold `to` at the
index that held `from` and are otherwise unchanged, the root bucket that held `from`
holds `to` at the same index (the other root bucket is unchanged), `NRqueue` is the old
`NRqueue` with `to` appended and `IRqueue` is the old `IRqueue` with `from` erased. -/
theorem C10_simplify_effect (s : SampleSet α) (h : Reachable s)
    (from_ to_ : RealAlgebraicNumber α) (hstored : from_ ∈ s.samples)
    (hfk : from_.isNumericRepresentation = false) (htk : to_.isNumericRepresentation = true)
    (hv : to_.value = from_.value) (hroot : to_.isRoot = from_.isRoot) :
    ∃ s', s.simplify from_ to_ = some (s', true) ∧ Reachable s' ∧
      s.samples.indexOf from_ < s.samples.length ∧
      s'.samples = s.samples.set (s.samples.indexOf from_) to_ ∧
      s.queue.indexOf from_ < s.queue.length ∧
      s'.queue = s.queue.set (s.queue.indexOf from_) to_ ∧
      (from_.isRoot = true →
        s.rootQueue.indexOf from_ < s.rootQueue.length ∧
        s'.rootQueue = s.rootQueue.set (s.rootQueue.indexOf from_) to_ ∧
        s'.nonRootQueue = s.nonRootQueue) ∧
      (from_.isRoot = false →
        s.nonRootQueue.indexOf from_ < s.nonRootQueue.length ∧
        s'.nonRootQueue = s.nonRootQueue.set (s.nonRootQueue.indexOf from_) to_ ∧
        s'.rootQueue = s.rootQueue) ∧
      s'.NRqueue = s.NRqueue ++ [to_] ∧
      s'.IRqueue = s.IRqueue.erase from_ := by
  have hinv := h.inv
  have hf : from_ ∈ s.IRqueue := ((hinv.kind_bucket from_ hstored).2 hfk).1
  have hstep := simplify_eq s hinv from_ to_ hf hroot.symm
  refine ⟨_, hstep, Reachable.simplify s _ from_ to_ true h htk hv hstep,
    List.indexOf_lt_length.2 hstored, rfl,
    List.indexOf_lt_length.2 ((hinv.mem_queue from_).2 hstored), rfl, ?_, ?_, rfl, rfl⟩
  · intro hr
    exact ⟨List.indexOf_lt_length.2 ((hinv.root_bucket from_ hstored).1 hr).1,
      by simp [hr], by simp [hr]⟩
  · intro hr
    exact ⟨List.indexOf_lt_length.2 ((hinv.root_bucket from_ hstored).2 hr).1,
      by simp [hr], by simp [hr]⟩

/-- C10 at `mixedSet`: the interval root `-1` is replaced by a numeric `-1`. -/
theorem C10_simplify_effect_witness :
    Reachable mixedSet ∧
    intSample 1 (-1) true false ∈ mixedSet.samples ∧
    (intSample 1 (-1) true false).isNumericRepresentation = false ∧
    (numSample 50 (-1) true).isNumericRepresentation = true ∧
    (numSample 50 (-1) true).value = (intSample 1 (-1) true false).value ∧
    (numSample 50 (-1) true).isRoot = (intSample 1 (-1) true false).isRoot ∧
    ∃ s', mixedSet.simplify (intSample 1 (-1) true false) (numSample 50 (-1) true) =
        some (s', true) ∧
      s'.samples = mixedSet.samples.set
        (mixedSet.samples.indexOf (intSample 1 (-1) true false)) (numSample 50 (-1) true) ∧
      s'.queue = mixedSet.queue.set
        (mixedSet.queue.indexOf (intSample 1 (-1) true false)) (numSample 50 (-1) true) ∧
      s'.rootQueue = mixedSet.rootQueue.set
        (mixedSet.rootQueue.indexOf (intSample 1 (-1) true false)) (numSample 50 (-1) true) ∧
      s'.NRqueue = mixedSet.NRqueue ++ [numSample 50 (-1) true] ∧
      s'.IRqueue = mixedSet.IRqueue.erase (intSample 1 (-1) true false) := by
  obtain ⟨s', h1, _, _, h4, _, h6, h7, _, h9, h10⟩ :=
    C10_simplify_effect mixedSet mixedSet_reachable (intSample 1 (-1) true false)
      (numSample 50 (-1) true) (by decide) (by decide) (by decide) (by decide) (by decide)
  exact ⟨mixedSet_reachable, by decide, by decide, by decide, by decide, by decide,
    s', h1, h4, h6, (h7 (by decide)).2.1, h9, h10⟩

end claims

/-! ## The results of `simplify(from, to, fromIt)` -/

namespace SampleSet
variable {α : Type} [LinearOrder α]

/-- Every result of `simplify(from, to, fromIt)`: `false` comes from the early return
before any write; `true` comes with `to` written over the entry of `samples` found by the
binary search, appended to `NRqueue`, written over `from` in `queue` and in the root
bucket of `from`, and with the element at `fromIt` erased from `IRqueue`. -/
theorem simplifyIt_some (s s2 : SampleSet α) (from_ to_ : RealAlgebraicNumber α)
    (fromIt it2 : Nat) (b : Bool) (h : s.simplifyIt from_ to_ fromIt = some (s2, it2, b)) :
    it2 = fromIt ∧ from_.isRoot = to_.isRoot ∧
    (b = false → s2 = s ∧ lower_bound s.samples from_ Less = s.samples.length) ∧
    (b = true →
      lower_bound s.samples from_ Less ≠ s.samples.length ∧
      fromIt < s.IRqueue.length ∧ from_ ∈ s.queue ∧
      s2.samples = s.samples.set (lower_bound s.samples from_ Less) to_ ∧
      s2.queue = s.queue.set (s.queue.indexOf from_) to_ ∧
      s2.NRqueue = s.NRqueue ++ [to_] ∧
      s2.IRqueue = s.IRqueue.eraseIdx fromIt ∧
      s2.rootQueue = (if from_.isRoot = true then
        s.rootQueue.set (s.rootQueue.indexOf from_) to_ else s.rootQueue) ∧
      s2.nonRootQueue = (if from_.isRoot = true then s.nonRootQueue
        else s.nonRootQueue.set (s.nonRootQueue.indexOf from_) to_)) := by
  unfold simplifyIt at h
  by_cases h1 : from_.isRoot = to_.isRoot
  · simp only [h1, bne_self_eq_false, Bool.false_eq_true, if_false] at h
    by_cases h2 : lower_bound s.samples from_ Less = s.samples.length
    · simp only [h2, if_true, Option.some.injEq, Prod.mk.injEq] at h
      obtain ⟨e1, e2, e3⟩ := h
      subst e1 e2 e3
      simp [h1, h2]
    · by_cases h3 : s.IRqueue.length ≤ fromIt
      · simp [h2, h3] at h
      · simp only [h2, h3, if_false] at h
        have hq : from_ ∈ s.queue ∨ from_ ∉ s.queue := Classical.em _
        cases hr : to_.isRoot
        · simp only [hr, Bool.false_eq_true, if_false] at h
          by_cases hp : List.indexOf from_ s.nonRootQueue = s.nonRootQueue.length
          · simp [hp] at h
          · simp only [hp, if_false] at h
            by_cases hq : List.indexOf from_ s.queue = s.queue.length
            · simp [hq] at h
            · simp only [hq, if_false, Option.some.injEq, Prod.mk.injEq] at h
              obtain ⟨e1, e2, e3⟩ := h
              subst e1 e2 e3
              have hmem : from_ ∈ s.queue := by
                by_contra hc
                exact hq (List.indexOf_eq_length.2 hc)
              simp [h1, hr, h2, hmem]
              omega
        · simp only [hr, if_true] at h
          by_cases hp : List.indexOf from_ s.rootQueue = s.rootQueue.length
          · simp [hp] at h
          · simp only [hp, if_false] at h
            by_cases hq : List.indexOf from_ s.queue = s.queue.length
            · simp [hq] at h
            · simp only [hq, if_false, Option.some.injEq, Prod.mk.injEq] at h
              obtain ⟨e1, e2, e3⟩ := h
              subst e1 e2 e3
              have hmem : from_ ∈ s.queue := by
                by_contra hc
                exact hq (List.indexOf_eq_length.2 hc)
              simp [h1, hr, h2, hmem]
              omega
  · have : (from_.isRoot != to_.isRoot) = true := by simpa using h1
    simp [this] at h

/-- Every result of `simplify(from, to)`: the boolean and the new set are those of
`simplify(from, to, fromIt)` at the position of `from` in `IRqueue`, or `false` and the
old set when `from` is not in `IRqueue`. -/
theorem simplify_some (s s' : SampleSet α) (from_ to_ : RealAlgebraicNumber α) (b : Bool)
    (h : s.simplify from_ to_ = some (s', b)) :
    (from_ ∉ s.IRqueue ∧ s' = s ∧ b = false) ∨
    (from_ ∈ s.IRqueue ∧
      s.simplifyIt from_ to_ (s.IRqueue.indexOf from_) =
        some (s', s.IRqueue.indexOf from_, b)) := by
  unfold simplify at h
  by_cases hf : from_ ∈ s.IRqueue
  · right
    have hidx : ¬ List.indexOf from_ s.IRqueue = s.IRqueue.length :=
      fun e => List.indexOf_eq_length.1 e hf
    simp only [ne_eq, hidx, not_false_eq_true, if_true] at h
    cases hres : s.simplifyIt from_ to_ (List.indexOf from_ s.IRqueue) with
    | none => rw [hres] at h; simp at h
    | some res =>
      obtain ⟨s2, it2, b2⟩ := res
      rw [hres] at h
      simp only [Option.map_some', Option.some.injEq, Prod.mk.injEq] at h
      obtain ⟨e1, e2⟩ := h
      subst e1 e2
      have := (simplifyIt_some s s2 from_ to_ _ it2 b2 hres).1
      subst this
      exact ⟨hf, rfl⟩
  · left
    have hidx : List.indexOf from_ s.IRqueue = s.IRqueue.length := List.indexOf_eq_length.2 hf
    simp only [ne_eq, hidx, not_true_eq_false, if_false, Option.some.injEq, Prod.mk.injEq] at h
    exact ⟨hf, h.1.symm, h.2.symm⟩

end SampleSet

section claims
variable {α : Type} [LinearOrder α]
open SampleSet

/-- C11 (result of `simplify(from, to)`): in a reachable state, for `to` with the root
flag of `from`, the call returns; it returns `false` if and only if the handle `from`
does not occur in `IRqueue`, and `true` whenever `from` occurs in `IRqueue`. -/
theorem C11_simplify_result (s : SampleSet α) (h : Reachable s)
    (from_ to_ : RealAlgebraicNumber α) (hroot : to_.isRoot = from_.isRoot) :
    ∃ s' b, s.simplify from_ to_ = some (s', b) ∧
      (b = false ↔ from_ ∉ s.IRqueue) ∧ (from_ ∈ s.IRqueue → b = true) := by
  by_cases hf : from_ ∈ s.IRqueue
  · exact ⟨_, true, simplify_eq s h.inv from_ to_ hf hroot.symm, by simp [hf], fun _ => rfl⟩
  · exact ⟨s, false, simplify_absent s from_ to_ hf, by simp [hf], fun hc => absurd hc hf⟩

/-- C11 at `mixedSet`: the interval root `-1` is in `IRqueue`, so the call returns
`true`. -/
theorem C11_simplify_result_witness :
    Reachable mixedSet ∧
    (numSample 50 (-1) true).isRoot = (intSample 1 (-1) true false).isRoot ∧
    ∃ s' b, mixedSet.simplify (intSample 1 (-1) true false) (numSample 50 (-1) true) =
        some (s', b) ∧
      (b = false ↔ intSample 1 (-1) true false ∉ mixedSet.IRqueue) ∧
      (intSample 1 (-1) true false ∈ mixedSet.IRqueue → b = true) :=
  ⟨mixedSet_reachable, by decide,
    C11_simplify_result mixedSet mixedSet_reachable (intSample 1 (-1) true false)
      (numSample 50 (-1) true) (by decide)⟩

/-- C12 (atomicity of a failed simplify): in every state, reachable or not, whenever
`simplify(from, to)` returns `false`, each of the six views is what it was before the
call. -/
theorem C12_failed_simplify_atomic (s s' : SampleSet α) (from_ to_ : RealAlgebraicNumber α)
    (h : s.simplify from_ to_ = some (s', false)) :
    s'.samples = s.samples ∧ s'.queue = s.queue ∧ s'.NRqueue = s.NRqueue ∧
    s'.IRqueue = s.IRqueue ∧ s'.rootQueue = s.rootQueue ∧
    s'.nonRootQueue = s.nonRootQueue := by
  have hs : s' = s := by
    rcases simplify_some s s' from_ to_ false h with ⟨_, h1, _⟩ | ⟨_, h2⟩
    · exact h1
    · exact ((simplifyIt_some s s' from_ to_ _ _ false h2).2.2.1 rfl).1
  rw [hs]
  exact ⟨rfl, rfl, rfl, rfl, rfl, rfl⟩

/-- C12 at `strayInterval`: `from` is found in `IRqueue` but the search in `samples`
ends at `end()`, so the three-argument overload returns `false`; nothing has changed. -/
theorem C12_failed_simplify_atomic_witness :
    strayInterval.simplify (intSample 1 2 true false) (numSample 9 2 true) =
      some (strayInterval, false) ∧
    strayInterval.samples = strayInterval.samples ∧
    strayInterval.queue = strayInterval.queue ∧
    strayInterval.NRqueue = strayInterval.NRqueue ∧
    strayInterval.IRqueue = strayInterval.IRqueue ∧
    strayInterval.rootQueue = strayInterval.rootQueue ∧
    strayInterval.nonRootQueue = strayInterval.nonRootQueue :=
  ⟨by decide,
    C12_failed_simplify_atomic strayInterval strayInterval (intSample 1 2 true false)
      (numSample 9 2 true) (by decide)⟩

end claims

/-! ## Bulk `simplify()` -/

namespace SampleSet
variable {α : Type} [LinearOrder α]

theorem length_replaceObject (x x' : RealAlgebraicNumber α) (l : List (RealAlgebraicNumber α)) :
    (replaceObject x x' l).length = l.length := by
  simp [replaceObject]

/-- One pass of the loop body of bulk `simplify()` written out: what the next loop state
is, or that the pass is fatal. -/
theorem simplifyLoop_succ (collapses : RealAlgebraicNumber α → Bool)
    (fresh : RealAlgebraicNumber α → Nat) (fuel : Nat) (st : SimplifyState α)
    (x : RealAlgebraicNumber α) (hx : st.set.IRqueue[st.irIter]? = some x) :
    simplifyLoop collapses fresh (fuel + 1) st =
      (let refines : Bool := !x.isNumeric && x.getRefinementCount == 0
       let x1 := if refines then x.refine collapses else x
       let st1 : SimplifyState α :=
         if refines then
           { st with
             set := st.set.mutate x x1
             first := st.first.map (fun p =>
               (if p.1 = x then x1 else p.1, if p.2 = x then x1 else p.2))
             refined := st.refined ++ [x] }
         else st
       if x1.isNumeric then
         let nr := RealAlgebraicNumberNR.create (fresh x1) x1.value x1.isRoot
         match st1.set.simplifyIt x1 nr st1.irIter with
         | none => Outcome.fatal
         | some (_, _, false) => Outcome.fatal
         | some (set2, irIter2, true) =>
           match set2.IRqueue[irIter2]? with
           | none => Outcome.fatal
           | some key =>
             simplifyLoop collapses fresh fuel
               { set := set2
                 irIter := irIter2
                 first := mapAssign st1.first key nr
                 second := true
                 refined := st1.refined
                 iterations := st1.iterations + 1 }
       else
         simplifyLoop collapses fresh fuel
           { st1 with irIter := st1.irIter + 1, iterations := st1.iterations + 1 }) := by
  rw [simplifyLoop]
  simp only [hx]

/-- The loop ends as soon as `irIter` is `end()`. -/
theorem simplifyLoop_end (collapses : RealAlgebraicNumber α → Bool)
    (fresh : RealAlgebraicNumber α → Nat) (fuel : Nat) (st : SimplifyState α)
    (hx : st.set.IRqueue[st.irIter]? = none) :
    simplifyLoop collapses fresh fuel st = Outcome.returned st := by
  cases fuel <;> rw [simplifyLoop] <;> simp only [hx]

end SampleSet

namespace SampleSet
variable {α : Type} [LinearOrder α]

/-- The fuel of the model is never the reason for the loop to stop: with at least as
much fuel as there are elements from `irIter` to the end of `IRqueue`, the loop returns
or is fatal. -/
theorem simplifyLoop_ne_outOfFuel (collapses : RealAlgebraicNumber α → Bool)
    (fresh : RealAlgebraicNumber α → Nat) :
    ∀ (fuel : Nat) (st : SimplifyState α), st.set.IRqueue.length - st.irIter ≤ fuel →
      simplifyLoop collapses fresh fuel st ≠ Outcome.outOfFuel := by
  intro fuel
  induction fuel with
  | zero =>
    intro st hm
    have : st.set.IRqueue[st.irIter]? = none := List.getElem?_eq_none (by omega)
    rw [simplifyLoop_end _ _ _ _ this]
    exact fun h => Outcome.noConfusion h
  | succ n ih =>
    intro st hm
    cases hx : st.set.IRqueue[st.irIter]? with
    | none =>
      rw [simplifyLoop_end _ _ _ _ hx]
      exact fun h => Outcome.noConfusion h
    | some x =>
      have hlt : st.irIter < st.set.IRqueue.length := by
        by_contra hc
        rw [List.getElem?_eq_none (not_lt.1 hc)] at hx
        exact Option.noConfusion hx
      rw [simplifyLoop_succ _ _ _ _ x hx]
      simp only []
      by_cases hr : (!x.isNumeric && x.getRefinementCount == 0) = true
      · simp only [hr, if_true]
        split_ifs with hnum
        · split
          · exact fun h => Outcome.noConfusion h
          · exact fun h => Outcome.noConfusion h
          · rename_i set2 irIter2 heq
            split
            · exact fun h => Outcome.noConfusion h
            · apply ih
              obtain ⟨h1, _, _, h4⟩ := simplifyIt_some _ _ _ _ _ _ _ heq
              obtain ⟨_, _, _, _, _, _, h5, _⟩ := h4 rfl
              simp only [h5, h1, mutate, length_replaceObject, List.length_eraseIdx]
              split_ifs
              omega
        · apply ih
          simp only [mutate, length_replaceObject]
          omega
      · simp only [hr, if_false, Bool.false_eq_true]
        split_ifs with hnum
        · split
          · exact fun h => Outcome.noConfusion h
          · exact fun h => Outcome.noConfusion h
          · rename_i set2 irIter2 heq
            split
            · exact fun h => Outcome.noConfusion h
            · apply ih
              obtain ⟨h1, _, _, h4⟩ := simplifyIt_some _ _ _ _ _ _ _ heq
              obtain ⟨_, _, _, _, _, _, h5, _⟩ := h4 rfl
              simp only [h5, h1, List.length_eraseIdx]
              split_ifs
              omega
        · apply ih
          simp only []
          omega

/-- Bulk `simplify()` returns or is fatal: the fuel of the model is never used up. -/
theorem simplifyBulk_ne_outOfFuel (collapses : RealAlgebraicNumber α → Bool)
    (fresh : RealAlgebraicNumber α → Nat) (s : SampleSet α) :
    s.simplifyBulk collapses fresh ≠ Outcome.outOfFuel := by
  unfold simplifyBulk
  split_ifs
  · exact fun h => Outcome.noConfusion h
  · exact simplifyLoop_ne_outOfFuel collapses fresh _ _ (by simp)

/-- On an empty set bulk `simplify()` returns the empty map and `false` at once. -/
theorem simplifyBulk_of_empty (collapses : RealAlgebraicNumber α → Bool)
    (fresh : RealAlgebraicNumber α → Nat) (s : SampleSet α) (he : s.samples = []) :
    s.simplifyBulk collapses fresh = Outcome.returned
      { set := s, irIter := 0, first := [], second := false, refined := [],
        iterations := 0 } := by
  simp [simplifyBulk, he]

end SampleSet

namespace SampleSet
variable {α : Type} [LinearOrder α]

theorem mapAssign_ne_nil {κ ν : Type} [DecidableEq κ] (m : List (κ × ν)) (key : κ) (value : ν) :
    mapAssign m key value ≠ [] := by
  unfold mapAssign
  split_ifs with h
  · intro hc
    rw [List.map_eq_nil_iff] at hc
    rw [hc] at h
    simp at h
  · simp

/-- Whenever the loop of bulk `simplify()` returns, the flag is `true` exactly if a
promotion was made since the loop state `st`: a promotion is what makes `NRqueue` grow
and what writes into the map. -/
theorem simplifyLoop_second (collapses : RealAlgebraicNumber α → Bool)
    (fresh : RealAlgebraicNumber α → Nat) (n0 : Nat) :
    ∀ (fuel : Nat) (st res : SimplifyState α),
      n0 ≤ st.set.NRqueue.length →
      (st.second = true ↔ n0 < st.set.NRqueue.length) →
      (st.second = true ↔ st.first ≠ []) →
      simplifyLoop collapses fresh fuel st = Outcome.returned res →
      (res.second = true ↔ n0 < res.set.NRqueue.length) ∧
      (res.second = true ↔ res.first ≠ []) := by
  intro fuel
  induction fuel with
  | zero =>
    intro st res h0 h1 h2 hres
    cases hx : st.set.IRqueue[st.irIter]? with
    | none =>
      rw [simplifyLoop_end _ _ _ _ hx] at hres
      cases hres
      exact ⟨h1, h2⟩
    | some x =>
      rw [simplifyLoop] at hres
      simp [hx] at hres
  | succ n ih =>
    intro st res h0 h1 h2 hres
    cases hx : st.set.IRqueue[st.irIter]? with
    | none =>
      rw [simplifyLoop_end _ _ _ _ hx] at hres
      cases hres
      exact ⟨h1, h2⟩
    | some x =>
      rw [simplifyLoop_succ _ _ _ _ x hx] at hres
      simp only [] at hres
      by_cases hr : (!x.isNumeric && x.getRefinementCount == 0) = true
      · simp only [hr, if_true] at hres
        split_ifs at hres with hnum
        · split at hres
          · exact Outcome.noConfusion hres
          · exact Outcome.noConfusion hres
          · rename_i set2 irIter2 heq
            split at hres
            · exact Outcome.noConfusion hres
            · obtain ⟨_, _, _, h4⟩ := simplifyIt_some _ _ _ _ _ _ _ heq
              obtain ⟨_, _, _, _, _, h5, _⟩ := h4 rfl
              have hlen : n0 < set2.NRqueue.length := by
                simp only [h5, mutate, length_replaceObject, List.length_append,
                  List.length_singleton] at *
                omega
              refine ih _ res (le_of_lt hlen) ?_ ?_ hres
              · simp [hlen]
              · simp [mapAssign_ne_nil]
        · refine ih _ res ?_ ?_ ?_ hres
          · simpa [mutate, length_replaceObject] using h0
          · simpa [mutate, length_replaceObject] using h1
          · simpa using h2
      · simp only [hr, if_false, Bool.false_eq_true] at hres
        split_ifs at hres with hnum
        · split at hres
          · exact Outcome.noConfusion hres
          · exact Outcome.noConfusion hres
          · rename_i set2 irIter2 heq
            split at hres
            · exact Outcome.noConfusion hres
            · obtain ⟨_, _, _, h4⟩ := simplifyIt_some _ _ _ _ _ _ _ heq
              obtain ⟨_, _, _, _, _, h5, _⟩ := h4 rfl
              have hlen : n0 < set2.NRqueue.length := by
                simp only [h5, List.length_append, List.length_singleton] at *
                omega
              refine ih _ res (le_of_lt hlen) ?_ ?_ hres
              · simp [hlen]
              · simp [mapAssign_ne_nil]
        · exact ih _ res (by simpa using h0) (by simpa using h1) (by simpa using h2) hres

/-- Whenever bulk `simplify()` returns, its flag is `true` exactly if a promotion was
made, that is exactly if `NRqueue` has grown and exactly if the map is not empty. -/
theorem simplifyBulk_second (collapses : RealAlgebraicNumber α → Bool)
    (fresh : RealAlgebraicNumber α → Nat) (s : SampleSet α) (res : SimplifyState α)
    (h : s.simplifyBulk collapses fresh = Outcome.returned res) :
    (res.second = true ↔ s.NRqueue.length < res.set.NRqueue.length) ∧
    (res.second = true ↔ res.first ≠ []) := by
  unfold simplifyBulk at h
  split_ifs at h
  · cases h
    simp
  · exact simplifyLoop_second collapses fresh s.NRqueue.length _ _ res (le_refl _)
      (by simp) (by simp) h

end SampleSet

section claims
variable {α : Type} [LinearOrder α]
open SampleSet

/-- The set `scenarioC` is reachable. -/
theorem scenarioC_reachable : Reachable scenarioC :=
  Reachable.insertAll Reachable.empty _

/-- The set `twoIntervals` is reachable. -/
theorem twoIntervals_reachable : Reachable twoIntervals :=
  Reachable.insertAll Reachable.empty _

/-- C13 (substitution map of bulk `simplify()`), the code at two failing inputs.  The
map is written through `irIter` after `simplify(from, to, fromIt)` has moved it on.
In scenario C the only interval sample is promoted, `irIter` is `end()` and the write
dereferences it: the run is fatal.  In `twoIntervals` the sample at address `1`
(value `2`) is promoted and the sample at address `4` (value `7`) is not; the map that
is returned has the single key address `4`, mapped to the numeric `2`. -/
theorem C13_map_written_through_moved_iterator :
    Reachable scenarioC ∧
    scenarioC.IRqueue = [intSample 1 2 true false] ∧
    ((intSample 1 2 true false).refine (fun _ => true)).isNumeric = true ∧
    scenarioC.simplifyBulk (fun _ => true) freshAddr = Outcome.fatal ∧
    Reachable twoIntervals ∧
    twoIntervals.IRqueue = [intSample 1 2 true false, intSample 4 7 false false] ∧
    ((intSample 1 2 true false).refine collapsesFirst).isNumeric = true ∧
    ((intSample 4 7 false false).refine collapsesFirst).isNumeric = false ∧
    (twoIntervals.simplifyBulk collapsesFirst freshAddr).result?.map (fun res => res.first) =
      some [((intSample 4 7 false false).refine collapsesFirst,
             RealAlgebraicNumberNR.create 1001 2 true)] ∧
    (twoIntervals.simplifyBulk collapsesFirst freshAddr).result?.map
        (fun res => res.set.samples) =
      some [RealAlgebraicNumberNR.create 1001 2 true,
            (intSample 4 7 false false).refine collapsesFirst] :=
  ⟨scenarioC_reachable, by decide, by decide, by decide, twoIntervals_reachable, by decide,
    by decide, by decide, by decide, by decide⟩

/-- C14 (post-state of bulk `simplify()`), the code at a failing input: `mixedSet` is
reachable and its only interval sample is numeric after its refinement step, but the
sweep is fatal (at the write into the map behind the promotion), so it leaves no
post-state. -/
theorem C14_sweep_fatal_after_last_promotion :
    Reachable mixedSet ∧
    mixedSet.IRqueue = [intSample 1 (-1) true false] ∧
    ((intSample 1 (-1) true false).refine (fun _ => true)).isNumeric = true ∧
    mixedSet.simplifyBulk (fun _ => true) freshAddr = Outcome.fatal ∧
    (mixedSet.simplifyBulk (fun _ => true) freshAddr).result? = none :=
  ⟨mixedSet_reachable, by decide, by decide, by decide, by decide⟩

/-- C15 (flag of bulk `simplify()`), the code at a failing input: in `twoIntervals`
with both intervals collapsing, the first promotion is made (the three-argument
`simplify` returns `true` for it), but the sweep is fatal at the last promotion and
returns no flag. -/
theorem C15_no_flag_after_last_promotion :
    Reachable twoIntervals ∧
    ((twoIntervals.mutate (intSample 1 2 true false)
        ((intSample 1 2 true false).refine (fun _ => true))).simplifyIt
      ((intSample 1 2 true false).refine (fun _ => true))
      (RealAlgebraicNumberNR.create 1001 2 true) 0).map (fun res => res.2.2) = some true ∧
    twoIntervals.simplifyBulk (fun _ => true) freshAddr = Outcome.fatal ∧
    (twoIntervals.simplifyBulk (fun _ => true) freshAddr).result? = none :=
  ⟨twoIntervals_reachable, by decide, by decide, by decide⟩

/-- What `std::swap` does: the five views it names are exchanged, `queue` stays. -/
theorem swap_views (lhs rhs : SampleSet α) :
    (swap lhs rhs).1.samples = rhs.samples ∧ (swap lhs rhs).2.samples = lhs.samples ∧
    (swap lhs rhs).1.NRqueue = rhs.NRqueue ∧ (swap lhs rhs).2.NRqueue = lhs.NRqueue ∧
    (swap lhs rhs).1.IRqueue = rhs.IRqueue ∧ (swap lhs rhs).2.IRqueue = lhs.IRqueue ∧
    (swap lhs rhs).1.rootQueue = rhs.rootQueue ∧ (swap lhs rhs).2.rootQueue = lhs.rootQueue ∧
    (swap lhs rhs).1.nonRootQueue = rhs.nonRootQueue ∧
    (swap lhs rhs).2.nonRootQueue = lhs.nonRootQueue ∧
    (swap lhs rhs).1.queue = lhs.queue ∧ (swap lhs rhs).2.queue = rhs.queue :=
  ⟨rfl, rfl, rfl, rfl, rfl, rfl, rfl, rfl, rfl, rfl, rfl, rfl⟩

/-- C16 (swap), the code at a failing input: after `swap(A, B)` with `A` scenario B and
`B` the empty set, `A` has the empty `samples` of `B` but still its own `queue` of three
entries, and `B` has the three `samples` of `A` but still its own empty `queue`. -/
theorem C16_swap_keeps_queue :
    (swap scenarioB SampleSet.empty).1.samples = [] ∧
    (swap scenarioB SampleSet.empty).1.queue = scenarioB.queue ∧
    scenarioB.queue.length = 3 ∧
    (swap scenarioB SampleSet.empty).1.queue ≠ (SampleSet.empty : SampleSet Int).queue ∧
    (swap scenarioB SampleSet.empty).2.samples = scenarioB.samples ∧
    (swap scenarioB SampleSet.empty).2.queue = [] ∧
    (swap scenarioB SampleSet.empty).2.queue ≠ scenarioB.queue :=
  ⟨by decide, by decide, by decide, by decide, by decide, by decide, by decide⟩

/-- C18 (numeric fallback law): in every state with a non-empty `samples`, `nextNR()`
returns the front of `NRqueue` when `NRqueue` is not empty, and the front of `IRqueue`
when `NRqueue` is empty and `IRqueue` is not. -/
theorem C18_numeric_fallback (s : SampleSet α) (hne : s.samples ≠ []) :
    (s.NRqueue ≠ [] → ∃ x, s.NRqueue.head? = some x ∧ s.nextNR = some x) ∧
    (s.NRqueue = [] → s.IRqueue ≠ [] →
      ∃ x, s.IRqueue.head? = some x ∧ s.nextNR = some x) := by
  have hs : s.samples.isEmpty = false := by
    cases hl : s.samples with
    | nil => exact absurd hl hne
    | cons a t => rfl
  constructor
  · intro hq
    cases hl : s.NRqueue with
    | nil => exact absurd hl hq
    | cons a t => exact ⟨a, rfl, by simp [nextNR, hs, hl]⟩
  · intro hq hi
    cases hl : s.IRqueue with
    | nil => exact absurd hl hi
    | cons a t => exact ⟨a, rfl, by simp [nextNR, hs, hq, hl]⟩

/-- C18 at `scenarioC`, where `NRqueue` is empty and the fallback is used. -/
theorem C18_numeric_fallback_witness :
    scenarioC.samples ≠ [] ∧
    (scenarioC.NRqueue ≠ [] →
      ∃ x, scenarioC.NRqueue.head? = some x ∧ scenarioC.nextNR = some x) ∧
    (scenarioC.NRqueue = [] → scenarioC.IRqueue ≠ [] →
      ∃ x, scenarioC.IRqueue.head? = some x ∧ scenarioC.nextNR = some x) :=
  ⟨by decide, C18_numeric_fallback scenarioC (by decide)⟩

/-- C19 (root and non-root fallback laws): in every state with a non-empty `samples`,
`nextNonRoot()` returns the front of `nonRootQueue` if that is not empty and otherwise
the front of `rootQueue`; `nextRoot()` returns the front of `rootQueue` if that is not
empty and otherwise the front of `nonRootQueue`.  (The front of an empty list is no
sample; the peek then returns none either.) -/
theorem C19_root_fallback (s : SampleSet α) (hne : s.samples ≠ []) :
    (s.nonRootQueue ≠ [] →
      ∃ x, s.nonRootQueue.head? = some x ∧ s.nextNonRoot = some x) ∧
    (s.nonRootQueue = [] → s.nextNonRoot = s.rootQueue.head?) ∧
    (s.rootQueue ≠ [] → ∃ x, s.rootQueue.head? = some x ∧ s.nextRoot = some x) ∧
    (s.rootQueue = [] → s.nextRoot = s.nonRootQueue.head?) := by
  have hs : s.samples.isEmpty = false := by
    cases hl : s.samples with
    | nil => exact absurd hl hne
    | cons a t => rfl
  refine ⟨?_, ?_, ?_, ?_⟩
  · intro hq
    cases hl : s.nonRootQueue with
    | nil => exact absurd hl hq
    | cons a t => exact ⟨a, rfl, by simp [nextNonRoot, hs, hl]⟩
  · intro hq
    simp [nextNonRoot, hs, hq]
  · intro hq
    cases hl : s.rootQueue with
    | nil => exact absurd hl hq
    | cons a t => exact ⟨a, rfl, by simp [nextRoot, hs, hl]⟩
  · intro hq
    simp [nextRoot, hs, hq]

/-- C19 at `scenarioC`, whose only sample is a root: `nextNonRoot()` falls back to
`rootQueue`. -/
theorem C19_root_fallback_witness :
    scenarioC.samples ≠ [] ∧
    (scenarioC.nonRootQueue ≠ [] →
      ∃ x, scenarioC.nonRootQueue.head? = some x ∧ scenarioC.nextNonRoot = some x) ∧
    (scenarioC.nonRootQueue = [] → scenarioC.nextNonRoot = scenarioC.rootQueue.head?) ∧
    (scenarioC.rootQueue ≠ [] →
      ∃ x, scenarioC.rootQueue.head? = some x ∧ scenarioC.nextRoot = some x) ∧
    (scenarioC.rootQueue = [] → scenarioC.nextRoot = scenarioC.nonRootQueue.head?) :=
  ⟨by decide, C19_root_fallback scenarioC (by decide)⟩

end claims

/-! ## Insertion order -/

namespace SampleSet
variable {α : Type} [LinearOrder α]

/-- Forgetting the times of insertion gives a reachable state. -/
theorem ReachableAt.reachable {s : SampleSet α} {born : RealAlgebraicNumber α → Nat}
    {clock : Nat} (h : ReachableAt s born clock) : Reachable s := by
  induction h with
  | empty => exact Reachable.empty
  | insert s born clock r fresh _ ih => exact Reachable.insert s r fresh ih
  | remove s s' born clock position next _ hstep ih =>
    exact Reachable.remove s s' position next ih hstep
  | pop s s' born clock _ hstep ih => exact Reachable.pop s s' ih hstep
  | popNR s s' born clock _ hstep ih => exact Reachable.popNR s s' ih hstep
  | popNonroot s s' born clock _ hstep ih => exact Reachable.popNonroot s s' ih hstep
  | popRoot s s' born clock _ hstep ih => exact Reachable.popRoot s s' ih hstep
  | simplify s s' born clock from_ to_ b _ hk hv hstep ih =>
    exact Reachable.simplify s s' from_ to_ b ih hk hv hstep

/-- Every reachable state comes with times of insertion. -/
theorem Reachable.exists_times {s : SampleSet α} (h : Reachable s) :
    ∃ born clock, ReachableAt s born clock := by
  induction h with
  | empty => exact ⟨_, _, ReachableAt.empty⟩
  | insert s r fresh _ ih =>
    obtain ⟨born, clock, hb⟩ := ih
    exact ⟨_, _, ReachableAt.insert s born clock r fresh hb⟩
  | remove s s' position next _ hstep ih =>
    obtain ⟨born, clock, hb⟩ := ih
    exact ⟨_, _, ReachableAt.remove s s' born clock position next hb hstep⟩
  | pop s s' _ hstep ih =>
    obtain ⟨born, clock, hb⟩ := ih
    exact ⟨_, _, ReachableAt.pop s s' born clock hb hstep⟩
  | popNR s s' _ hstep ih =>
    obtain ⟨born, clock, hb⟩ := ih
    exact ⟨_, _, ReachableAt.popNR s s' born clock hb hstep⟩
  | popNonroot s s' _ hstep ih =>
    obtain ⟨born, clock, hb⟩ := ih
    exact ⟨_, _, ReachableAt.popNonroot s s' born clock hb hstep⟩
  | popRoot s s' _ hstep ih =>
    obtain ⟨born, clock, hb⟩ := ih
    exact ⟨_, _, ReachableAt.popRoot s s' born clock hb hstep⟩
  | simplify s s' from_ to_ b _ hk hv hstep ih =>
    obtain ⟨born, clock, hb⟩ := ih
    exact ⟨_, _, ReachableAt.simplify s s' born clock from_ to_ b hb hk hv hstep⟩

/-- Every state a removing operation leads to is the old state with one handle erased
from every view, or the old state. -/
theorem erased_of_step {s s' : SampleSet α} (h : Inv s)
    (hstep : (∃ position next, s.remove position = some (s', next)) ∨ s.pop = some s' ∨
      s.popNR = some s' ∨ s.popNonroot = some s' ∨ s.popRoot = some s') :
    s' = s ∨ ∃ r, s' =
      { samples := s.samples.erase r
        queue := s.queue.erase r
        NRqueue := s.NRqueue.erase r
        IRqueue := s.IRqueue.erase r
        nonRootQueue := s.nonRootQueue.erase r
        rootQueue := s.rootQueue.erase r } := by
  rcases hstep with ⟨position, next, hs⟩ | hs | hs | hs | hs
  · cases hp : s.samples[position]? with
    | none =>
      rw [remove_of_invalid s position hp] at hs
      exact Option.noConfusion hs
    | some r =>
      rw [remove_eq s h position r hp] at hs
      have : _ = s' := congrArg Prod.fst (Option.some.inj hs)
      exact Or.inr ⟨r, this.symm⟩
  · by_cases he : s.samples = []
    · rw [pop_of_empty s he] at hs
      exact Or.inl (Option.some.inj hs).symm
    · obtain ⟨r, _, hr, _⟩ := h.next_some he
      rw [pop_eq s h r hr] at hs
      exact Or.inr ⟨r, (Option.some.inj hs).symm⟩
  · by_cases he : s.samples = []
    · rw [popNR_of_empty s he] at hs
      exact Or.inl (Option.some.inj hs).symm
    · obtain ⟨r, hr, _⟩ := h.nextNR_some he
      rw [popNR_eq s h r hr] at hs
      exact Or.inr ⟨r, (Option.some.inj hs).symm⟩
  · by_cases he : s.samples = []
    · rw [popNonroot_of_empty s he] at hs
      exact Or.inl (Option.some.inj hs).symm
    · obtain ⟨r, hr, _⟩ := h.nextNonRoot_some he
      rw [popNonroot_eq s h r hr] at hs
      exact Or.inr ⟨r, (Option.some.inj hs).symm⟩
  · by_cases he : s.samples = []
    · rw [popRoot_of_empty s he] at hs
      exact Or.inl (Option.some.inj hs).symm
    · obtain ⟨r, hr, _⟩ := h.nextRoot_some he
      rw [popRoot_eq s h r hr] at hs
      exact Or.inr ⟨r, (Option.some.inj hs).symm⟩

end SampleSet

namespace SampleSet
variable {α : Type} [LinearOrder α]

theorem map_update_of_not_mem {β γ : Type} [DecidableEq β] (f : β → γ) (l : List β) (b : β)
    (v : γ) (hb : b ∉ l) : l.map (Function.update f b v) = l.map f := by
  apply List.map_congr_left
  intro a ha
  exact Function.update_noteq (fun e : a = b => hb (e ▸ ha)) _ _

/-- Writing `b` over `a` in a list and giving `b` the time of `a` leaves the list of
times as it was. -/
theorem map_set_indexOf_update {β γ : Type} [DecidableEq β] (f : β → γ) (l : List β) (a b : β)
    (hb : b ∉ l) :
    (l.set (l.indexOf a) b).map (Function.update f b (f a)) = l.map f := by
  induction l with
  | nil => simp
  | cons c t ih =>
    have hbt : b ∉ t := fun h => hb (List.mem_cons_of_mem _ h)
    have hcb : c ≠ b := fun e => hb (e ▸ List.mem_cons_self _ _)
    by_cases hca : c = a
    · subst hca
      simp only [List.indexOf_cons_self, List.set_cons_zero, List.map_cons,
        Function.update_same, map_update_of_not_mem f t b _ hbt]
    · rw [List.indexOf_cons_ne _ hca]
      simp only [List.set_cons_succ, List.map_cons, ih hbt, Function.update_noteq hcb]

/-- In every reachable state `queue` is in the order of the times of insertion, and all
these times are in the past. -/
theorem ReachableAt.queue_order {s : SampleSet α} {born : RealAlgebraicNumber α → Nat}
    {clock : Nat} (h : ReachableAt s born clock) :
    (s.queue.map born).Pairwise (fun a b => a < b) ∧ ∀ x ∈ s.queue, born x < clock := by
  have step : ∀ (s s' : SampleSet α) (born : RealAlgebraicNumber α → Nat) (clock : Nat),
      Inv s →
      ((s.queue.map born).Pairwise (fun a b => a < b) ∧ ∀ x ∈ s.queue, born x < clock) →
      ((∃ position next, s.remove position = some (s', next)) ∨ s.pop = some s' ∨
        s.popNR = some s' ∨ s.popNonroot = some s' ∨ s.popRoot = some s') →
      ((s'.queue.map born).Pairwise (fun a b => a < b) ∧
        ∀ x ∈ s'.queue, born x < clock + 1) := by
    intro s s' born clock hinv ih hstep
    rcases erased_of_step hinv hstep with e | ⟨r, e⟩
    · rw [e]
      exact ⟨ih.1, fun x hx => Nat.lt_succ_of_lt (ih.2 x hx)⟩
    · rw [e]
      refine ⟨List.Pairwise.sublist ((List.erase_sublist r s.queue).map born) ih.1, ?_⟩
      intro x hx
      exact Nat.lt_succ_of_lt (ih.2 x (List.mem_of_mem_erase hx))
  induction h with
  | empty => simp [SampleSet.empty]
  | insert s born clock r fresh hprev ih =>
    have hinv := hprev.reachable.inv
    by_cases hex : ∃ y ∈ s.samples, y.value = r.value
    · rw [insert_old s hinv.sorted r fresh hex]
      simp only [Bool.false_eq_true, if_false]
      exact ⟨ih.1, fun x hx => Nat.lt_succ_of_lt (ih.2 x hx)⟩
    · have hnew : ∀ y ∈ s.samples, y.value ≠ r.value := fun y hy hv => hex ⟨y, hy, hv⟩
      have hnot : insertedSample r fresh ∉ s.queue := by
        intro hq
        exact hnew _ ((hinv.mem_queue _).1 hq) (insertedSample_value r fresh)
      rw [insert_new s hinv.sorted r fresh hnew]
      simp only [if_true]
      constructor
      · rw [List.map_append, map_update_of_not_mem born s.queue _ _ hnot, List.pairwise_append]
        refine ⟨ih.1, by simp, ?_⟩
        intro a ha b hb
        obtain ⟨x, hx, rfl⟩ := List.mem_map.1 ha
        simp only [List.map_cons, List.map_nil, List.mem_singleton, Function.update_same] at hb
        rw [hb]
        exact ih.2 x hx
      · intro x hx
        rcases List.mem_append.1 hx with h1 | h1
        · rw [Function.update_noteq (fun e : x = insertedSample r fresh => hnot (e ▸ h1))]
          exact Nat.lt_succ_of_lt (ih.2 x h1)
        · rw [List.mem_singleton] at h1
          rw [h1, Function.update_same]
          exact Nat.lt_succ_self _
  | remove s s' born clock position next hprev hstep ih =>
    exact step s s' born clock hprev.reachable.inv ih (Or.inl ⟨position, next, hstep⟩)
  | pop s s' born clock hprev hstep ih =>
    exact step s s' born clock hprev.reachable.inv ih (Or.inr (Or.inl hstep))
  | popNR s s' born clock hprev hstep ih =>
    exact step s s' born clock hprev.reachable.inv ih (Or.inr (Or.inr (Or.inl hstep)))
  | popNonroot s s' born clock hprev hstep ih =>
    exact step s s' born clock hprev.reachable.inv ih
      (Or.inr (Or.inr (Or.inr (Or.inl hstep))))
  | popRoot s s' born clock hprev hstep ih =>
    exact step s s' born clock hprev.reachable.inv ih
      (Or.inr (Or.inr (Or.inr (Or.inr hstep))))
  | simplify s s' born clock from_ to_ b hprev hk hv hstep ih =>
    have hinv := hprev.reachable.inv
    by_cases hf : from_ ∈ s.IRqueue
    · by_cases hroot : from_.isRoot = to_.isRoot
      · rw [simplify_eq s hinv from_ to_ hf hroot] at hstep
        obtain ⟨e1, e2⟩ := Prod.mk.inj (Option.some.inj hstep)
        subst e1 e2
        have hfresh : to_ ∉ s.queue := fun hq =>
          hinv.replacement_fresh from_ to_ hf hk hv ((hinv.mem_queue to_).1 hq)
        have hfq : from_ ∈ s.queue := (hinv.mem_queue from_).2 ((hinv.IR.2 from_).1 hf).1
        simp only [if_true]
        constructor
        · rw [map_set_indexOf_update born s.queue from_ to_ hfresh]
          exact ih.1
        · intro x hx
          rcases List.mem_or_eq_of_mem_set hx with h1 | h1
          · rw [Function.update_noteq (fun e : x = to_ => hfresh (e ▸ h1))]
            exact Nat.lt_succ_of_lt (ih.2 x h1)
          · rw [h1, Function.update_same]
            exact Nat.lt_succ_of_lt (ih.2 from_ hfq)
      · rw [simplify_root_mismatch s from_ to_ hf hroot] at hstep
        exact Option.noConfusion hstep
    · rw [simplify_absent s from_ to_ hf] at hstep
      obtain ⟨e1, e2⟩ := Prod.mk.inj (Option.some.inj hstep)
      subst e1 e2
      simp only [Bool.false_eq_true, if_false]
      exact ⟨ih.1, fun x hx => Nat.lt_succ_of_lt (ih.2 x hx)⟩

end SampleSet

section claims
variable {α : Type} [LinearOrder α]
open SampleSet

/-- C17 (FIFO peek): in a reachable non-empty state `next()` returns the front of
`queue`, and this stored sample was inserted before every other stored sample, whatever
sequence of calls led to the state (a sample put in by `simplify(from, to)` counting with
the time of the interval sample it replaced). -/
theorem C17_fifo_peek (s : SampleSet α) (h : Reachable s) (hne : s.samples ≠ []) :
    ∃ r, s.next = some r ∧ s.queue.head? = some r ∧ r ∈ s.samples ∧
      ∀ born clock, ReachableAt s born clock →
        ∀ x ∈ s.samples, x ≠ r → born r < born x := by
  obtain ⟨r, hnext, hhead, hmem⟩ := h.inv.next_some hne
  refine ⟨r, hnext, hhead, hmem, ?_⟩
  intro born clock hb x hx hxr
  have hord := hb.queue_order.1
  have hxq : x ∈ s.queue := (h.inv.mem_queue x).2 hx
  cases hq : s.queue with
  | nil => rw [hq] at hhead; simp at hhead
  | cons a t =>
    rw [hq] at hhead hord hxq
    simp only [List.head?_cons, Option.some.injEq] at hhead
    subst hhead
    rw [List.map_cons, List.pairwise_cons] at hord
    rcases List.mem_cons.1 hxq with h1 | h1
    · exact absurd h1 hxr
    · exact hord.1 _ (List.mem_map_of_mem born h1)

/-- The times of insertion `bornB` belong to scenario B. -/
theorem scenarioB_times : ReachableAt scenarioB bornB 3 :=
  ReachableAt.insert _ _ _ (numSample 3 3 true) 102
    (ReachableAt.insert _ _ _ (numSample 2 0 false) 101
      (ReachableAt.insert _ _ _ (numSample 1 (-2) true) 100 ReachableAt.empty))

/-- C17 at scenario B: `next()` is `-2`, which was inserted first. -/
theorem C17_fifo_peek_witness :
    Reachable scenarioB ∧ scenarioB.samples ≠ [] ∧ ReachableAt scenarioB bornB 3 ∧
    ∃ r, scenarioB.next = some r ∧ scenarioB.queue.head? = some r ∧ r ∈ scenarioB.samples ∧
      ∀ born clock, ReachableAt scenarioB born clock →
        ∀ x ∈ scenarioB.samples, x ≠ r → born r < born x :=
  ⟨scenarioB_reachable, by decide, scenarioB_times,
    C17_fifo_peek scenarioB scenarioB_reachable (by decide)⟩

end claims

namespace SampleSet
variable {α : Type} [LinearOrder α]

/-- Inserting samples with values that are new and pairwise different appends the
handles, in the order of the calls, to `queue` and to the two root buckets. -/
theorem insertAll_distinct (rs : List (RealAlgebraicNumber α × Nat)) :
    ∀ (s : SampleSet α), Inv s → (rs.map (fun p => p.1.value)).Nodup →
      (∀ p ∈ rs, ∀ y ∈ s.samples, y.value ≠ p.1.value) →
      (s.insertAll rs).queue = s.queue ++ rs.map (fun p => insertedSample p.1 p.2) ∧
      (s.insertAll rs).rootQueue =
        s.rootQueue ++ (rs.map (fun p => insertedSample p.1 p.2)).filter (fun x => x.isRoot) ∧
      (s.insertAll rs).nonRootQueue =
        s.nonRootQueue ++
          (rs.map (fun p => insertedSample p.1 p.2)).filter (fun x => !x.isRoot) := by
  induction rs with
  | nil => intro s _ _ _; simp [insertAll]
  | cons a t ih =>
    intro s hinv hnd hnew
    obtain ⟨r, fresh⟩ := a
    rw [List.map_cons, List.nodup_cons] at hnd
    have hr : ∀ y ∈ s.samples, y.value ≠ r.value := hnew (r, fresh) (List.mem_cons_self _ _)
    have hnew' : ∀ p ∈ t, ∀ y ∈ (s.insert r fresh).1.samples, y.value ≠ p.1.value := by
      intro p hp y hy hv
      have hmem := (values_insert s hinv.sorted r fresh y.value).1 (List.mem_map_of_mem _ hy)
      rcases hmem with h1 | h1
      · apply hnd.1
        rw [← h1, hv]
        exact List.mem_map_of_mem (fun p => p.1.value) hp
      · obtain ⟨z, hz, hzv⟩ := List.mem_map.1 h1
        exact hnew p (List.mem_cons_of_mem _ hp) z hz (hzv.trans hv)
    obtain ⟨h1, h2, h3⟩ := ih (s.insert r fresh).1 (hinv.insert r fresh) hnd.2 hnew'
    have hroot := insertedSample_isRoot r fresh
    simp only [insertAll, h1, h2, h3]
    rw [insert_new s hinv.sorted r fresh hr]
    cases hk : r.isRoot <;> simp [hk, hroot, List.filter_cons]

end SampleSet

section claims
variable {α : Type} [LinearOrder α]
open SampleSet

/-- The views of scenario A for three different values. -/
theorem scenarioA_views (a b c : α) (hab : a ≠ b) (hac : a ≠ c) (hbc : b ≠ c) :
    (scenarioA a b c).samples ≠ [] ∧
    (scenarioA a b c).queue =
      [{ addr := 1, value := a, isRoot := true, rep := Representation.IR false 0 },
       { addr := 2, value := b, isRoot := true, rep := Representation.IR false 0 },
       { addr := 3, value := c, isRoot := false, rep := Representation.NR }] ∧
    (scenarioA a b c).rootQueue =
      [{ addr := 1, value := a, isRoot := true, rep := Representation.IR false 0 },
       { addr := 2, value := b, isRoot := true, rep := Representation.IR false 0 }] ∧
    (scenarioA a b c).nonRootQueue =
      [{ addr := 3, value := c, isRoot := false, rep := Representation.NR }] := by
  have hinv : Inv (scenarioA a b c) := (Reachable.insertAll Reachable.empty _).inv
  obtain ⟨h1, h2, h3⟩ := insertAll_distinct
    [(({ addr := 1, value := a, isRoot := true, rep := Representation.IR false 0 } :
        RealAlgebraicNumber α), 100),
     ({ addr := 2, value := b, isRoot := true, rep := Representation.IR false 0 }, 101),
     ({ addr := 3, value := c, isRoot := false, rep := Representation.NR }, 102)]
    SampleSet.empty Inv.empty (by simp [hab, hac, hbc]) (by simp [SampleSet.empty])
  have hq : (scenarioA a b c).queue =
      [{ addr := 1, value := a, isRoot := true, rep := Representation.IR false 0 },
       { addr := 2, value := b, isRoot := true, rep := Representation.IR false 0 },
       { addr := 3, value := c, isRoot := false, rep := Representation.NR }] := by
    rw [scenarioA, h1]
    simp [SampleSet.empty, insertedSample, RealAlgebraicNumber.isNumeric,
      RealAlgebraicNumber.isNumericRepresentation]
  refine ⟨?_, hq, ?_, ?_⟩
  · intro he
    have := hinv.length_queue
    rw [hq, he] at this
    simp at this
  · rw [scenarioA, h2]
    simp [SampleSet.empty, insertedSample, RealAlgebraicNumber.isNumeric,
      RealAlgebraicNumber.isNumericRepresentation, List.filter_cons]
  · rw [scenarioA, h3]
    simp [SampleSet.empty, insertedSample, RealAlgebraicNumber.isNumeric,
      RealAlgebraicNumber.isNumericRepresentation, List.filter_cons]

end claims

section claims
variable {α : Type} [LinearOrder α]
open SampleSet

theorem isEmpty_eq_false_of_ne_nil {β : Type} (l : List β) (h : l ≠ []) : l.isEmpty = false := by
  cases l with
  | nil => exact absurd rfl h
  | cons a t => rfl

/-- C20 (priority is honoured): in a reachable state, if some stored sample is a root
then `nextRoot()` returns a stored root, if some stored sample is not a root then
`nextNonRoot()` returns a stored non-root, and if some stored sample has numeric
representation then `nextNR()` returns a stored sample with numeric representation.
In scenario A (the interval roots `-sqrt 2` and `sqrt 2` and the numeric non-root `0`,
inserted in this order) `next()` is `-sqrt 2`, `nextRoot()` is a root and
`nextNonRoot()` is `0`. -/
theorem C20_priority_honoured (s : SampleSet α) (h : Reachable s) :
    ((∃ x ∈ s.samples, x.isRoot = true) →
      ∃ r, s.nextRoot = some r ∧ r.isRoot = true ∧ r ∈ s.samples) ∧
    ((∃ x ∈ s.samples, x.isRoot = false) →
      ∃ r, s.nextNonRoot = some r ∧ r.isRoot = false ∧ r ∈ s.samples) ∧
    ((∃ x ∈ s.samples, x.isNumericRepresentation = true) →
      ∃ r, s.nextNR = some r ∧ r.isNumericRepresentation = true ∧ r ∈ s.samples) ∧
    (scenarioA (-Real.sqrt 2) (Real.sqrt 2) 0).next =
      some { addr := 1, value := -Real.sqrt 2, isRoot := true,
             rep := Representation.IR false 0 } ∧
    (∃ r, (scenarioA (-Real.sqrt 2) (Real.sqrt 2) 0).nextRoot = some r ∧ r.isRoot = true) ∧
    (scenarioA (-Real.sqrt 2) (Real.sqrt 2) 0).nextNonRoot =
      some { addr := 3, value := 0, isRoot := false, rep := Representation.NR } := by
  have hinv := h.inv
  have hpos : (0 : ℝ) < Real.sqrt 2 := Real.sqrt_pos.2 (by norm_num)
  obtain ⟨hA1, hA2, hA3, hA4⟩ := scenarioA_views (-Real.sqrt 2) (Real.sqrt 2) (0 : ℝ)
    (by linarith) (by linarith) (by linarith)
  have hAe := isEmpty_eq_false_of_ne_nil _ hA1
  refine ⟨?_, ?_, ?_, ?_, ?_, ?_⟩
  · rintro ⟨x, hx, hk⟩
    have hxq : x ∈ s.rootQueue := (hinv.root.2 x).2 ⟨hx, hk⟩
    have he := isEmpty_false_of_mem _ _ hx
    cases hq : s.rootQueue with
    | nil => rw [hq] at hxq; simp at hxq
    | cons a t =>
      have ha := (hinv.root.2 a).1 (by rw [hq]; exact List.mem_cons_self _ _)
      exact ⟨a, by simp [nextRoot, he, hq], ha.2, ha.1⟩
  · rintro ⟨x, hx, hk⟩
    have hxq : x ∈ s.nonRootQueue := (hinv.nonRoot.2 x).2 ⟨hx, by simp [hk]⟩
    have he := isEmpty_false_of_mem _ _ hx
    cases hq : s.nonRootQueue with
    | nil => rw [hq] at hxq; simp at hxq
    | cons a t =>
      have ha := (hinv.nonRoot.2 a).1 (by rw [hq]; exact List.mem_cons_self _ _)
      exact ⟨a, by simp [nextNonRoot, he, hq], by simpa using ha.2, ha.1⟩
  · rintro ⟨x, hx, hk⟩
    have hxq : x ∈ s.NRqueue := (hinv.NR.2 x).2 ⟨hx, hk⟩
    have he := isEmpty_false_of_mem _ _ hx
    cases hq : s.NRqueue with
    | nil => rw [hq] at hxq; simp at hxq
    | cons a t =>
      have ha := (hinv.NR.2 a).1 (by rw [hq]; exact List.mem_cons_self _ _)
      exact ⟨a, by simp [nextNR, he, hq], ha.2, ha.1⟩
  · simp [next, hAe, hA2]
  · exact ⟨{ addr := 1, value := -Real.sqrt 2, isRoot := true,
             rep := Representation.IR false 0 }, by simp [nextRoot, hAe, hA3], rfl⟩
  · simp [nextNonRoot, hAe, hA4]

/-- C20 at `mixedSet`, which stores roots, a non-root and numeric samples. -/
theorem C20_priority_honoured_witness :
    Reachable mixedSet ∧
    (∃ x ∈ mixedSet.samples, x.isRoot = true) ∧
    (∃ x ∈ mixedSet.samples, x.isRoot = false) ∧
    (∃ x ∈ mixedSet.samples, x.isNumericRepresentation = true) ∧
    (∃ r, mixedSet.nextRoot = some r ∧ r.isRoot = true ∧ r ∈ mixedSet.samples) ∧
    (∃ r, mixedSet.nextNonRoot = some r ∧ r.isRoot = false ∧ r ∈ mixedSet.samples) ∧
    (∃ r, mixedSet.nextNR = some r ∧ r.isNumericRepresentation = true ∧
      r ∈ mixedSet.samples) := by
  have hC := C20_priority_honoured mixedSet mixedSet_reachable
  have h1 : ∃ x ∈ mixedSet.samples, x.isRoot = true :=
    ⟨intSample 1 (-1) true false, by decide, by decide⟩
  have h2 : ∃ x ∈ mixedSet.samples, x.isRoot = false :=
    ⟨numSample 2 0 false, by decide, by decide⟩
  have h3 : ∃ x ∈ mixedSet.samples, x.isNumericRepresentation = true :=
    ⟨numSample 2 0 false, by decide, by decide⟩
  exact ⟨mixedSet_reachable, h1, h2, h3, hC.1 h1, hC.2.1 h2, hC.2.2.1 h3⟩

end claims

/-! ## Objects changed in place -/

section objects
variable {α : Type} [LinearOrder α]

theorem replaceObject_self (x : RealAlgebraicNumber α) (l : List (RealAlgebraicNumber α)) :
    replaceObject x x l = l := by
  unfold replaceObject
  conv_rhs => rw [← List.map_id l]
  apply List.map_congr_left
  intro a _
  by_cases h : a = x <;> simp [h]

theorem replaceObject_of_not_mem (x e : RealAlgebraicNumber α)
    (l : List (RealAlgebraicNumber α)) (hx : x ∉ l) : replaceObject x e l = l := by
  unfold replaceObject
  conv_rhs => rw [← List.map_id l]
  apply List.map_congr_left
  intro a ha
  have : a ≠ x := fun h => hx (h ▸ ha)
  simp [this]

/-- In a list without repetition, changing the object `x` is writing at its position. -/
theorem replaceObject_eq_set (x e : RealAlgebraicNumber α) (l : List (RealAlgebraicNumber α))
    (hn : l.Nodup) : replaceObject x e l = l.set (l.indexOf x) e := by
  induction l with
  | nil => simp [replaceObject]
  | cons c t ih =>
    rw [List.nodup_cons] at hn
    by_cases hc : c = x
    · subst hc
      have := replaceObject_of_not_mem c e t hn.1
      unfold replaceObject at this
      simp [replaceObject, this]
    · rw [List.indexOf_cons_ne _ hc]
      have := ih hn.2
      unfold replaceObject at this
      simp [replaceObject, hc, this]

theorem replaceObject_append_cons (x e : RealAlgebraicNumber α)
    (q r : List (RealAlgebraicNumber α)) (hq : x ∉ q) (hr : x ∉ r) :
    replaceObject x e (q ++ x :: r) = q ++ e :: r := by
  have h1 := replaceObject_of_not_mem x e q hq
  have h2 := replaceObject_of_not_mem x e r hr
  unfold replaceObject at *
  simp [h1, h2]

/-- Two changes in a row, the second of the object the first has made. -/
theorem replaceObject_comp (x e n : RealAlgebraicNumber α) (l : List (RealAlgebraicNumber α))
    (he : e = x ∨ e ∉ l) :
    replaceObject e n (replaceObject x e l) = replaceObject x n l := by
  unfold replaceObject
  rw [List.map_map]
  apply List.map_congr_left
  intro a ha
  by_cases hax : a = x
  · simp [hax]
  · have hae : a ≠ e := by
      rcases he with h | h
      · rw [h]; exact hax
      · exact fun e' => h (e' ▸ ha)
    simp [hax, hae]

theorem mem_replaceObject (x e y : RealAlgebraicNumber α) (l : List (RealAlgebraicNumber α))
    (hy : y ∈ replaceObject x e l) : y = e ∨ y ∈ l := by
  unfold replaceObject at hy
  obtain ⟨a, ha, rfl⟩ := List.mem_map.1 hy
  by_cases h : a = x
  · simp [h]
  · simp [h, ha]

end objects

namespace SampleSet
variable {α : Type} [LinearOrder α]

theorem refine_value (collapses : RealAlgebraicNumber α → Bool) (x : RealAlgebraicNumber α) :
    (x.refine collapses).value = x.value := by
  unfold RealAlgebraicNumber.refine
  split
  · rfl
  · split_ifs <;> rfl

theorem refine_isRoot (collapses : RealAlgebraicNumber α → Bool) (x : RealAlgebraicNumber α) :
    (x.refine collapses).isRoot = x.isRoot := by
  unfold RealAlgebraicNumber.refine
  split
  · rfl
  · split_ifs <;> rfl

theorem refine_isNumericRepresentation (collapses : RealAlgebraicNumber α → Bool)
    (x : RealAlgebraicNumber α) :
    (x.refine collapses).isNumericRepresentation = x.isNumericRepresentation := by
  unfold RealAlgebraicNumber.refine
  split
  · rfl
  · rename_i numeric count hrep
    split_ifs
    · rfl
    · simp [RealAlgebraicNumber.isNumericRepresentation, hrep]

theorem examined_value (collapses : RealAlgebraicNumber α → Bool) (x : RealAlgebraicNumber α) :
    (examined collapses x).value = x.value := by
  unfold examined
  split_ifs
  · exact refine_value collapses x
  · rfl

theorem examined_isRoot (collapses : RealAlgebraicNumber α → Bool) (x : RealAlgebraicNumber α) :
    (examined collapses x).isRoot = x.isRoot := by
  unfold examined
  split_ifs
  · exact refine_isRoot collapses x
  · rfl

theorem examined_isNumericRepresentation (collapses : RealAlgebraicNumber α → Bool)
    (x : RealAlgebraicNumber α) :
    (examined collapses x).isNumericRepresentation = x.isNumericRepresentation := by
  unfold examined
  split_ifs
  · exact refine_isNumericRepresentation collapses x
  · rfl

theorem swept_value (collapses : RealAlgebraicNumber α → Bool)
    (fresh : RealAlgebraicNumber α → Nat) (x : RealAlgebraicNumber α) :
    (swept collapses fresh x).value = x.value := by
  unfold swept numericCopy
  split_ifs
  · exact examined_value collapses x
  · exact examined_value collapses x

theorem swept_isRoot (collapses : RealAlgebraicNumber α → Bool)
    (fresh : RealAlgebraicNumber α → Nat) (x : RealAlgebraicNumber α) :
    (swept collapses fresh x).isRoot = x.isRoot := by
  unfold swept numericCopy
  split_ifs
  · exact examined_isRoot collapses x
  · exact examined_isRoot collapses x

/-- A stored sample is the only stored one with its value: an object with the value of
a stored sample is that sample or is not stored. -/
theorem Inv.eq_or_not_mem {s : SampleSet α} (h : Inv s) (x e : RealAlgebraicNumber α)
    (hx : x ∈ s.samples) (hv : e.value = x.value) : e = x ∨ e ∉ s.samples := by
  by_cases he : e ∈ s.samples
  · exact Or.inl (eq_of_value_eq _ h.sorted e x he hx hv)
  · exact Or.inr he

/-- The invariant survives a change of a stored interval object that keeps its value,
its root flag and its class. -/
theorem Inv.mutate {s : SampleSet α} (h : Inv s) (x e : RealAlgebraicNumber α)
    (hx : x ∈ s.IRqueue) (hv : e.value = x.value) (hroot : e.isRoot = x.isRoot)
    (hk : e.isNumericRepresentation = false) : Inv (s.mutate x e) := by
  have hxs := (h.IR.2 x).1 hx
  have hmem : x ∈ s.samples := hxs.1
  have hxk : x.isNumericRepresentation = false := by simpa using hxs.2
  rcases h.eq_or_not_mem x e hmem hv with he | he
  · subst he
    have : s.mutate e e = s := by
      simp [SampleSet.mutate, replaceObject_self]
    rw [this]
    exact h
  · have hn := strictlyAscending_nodup _ h.sorted
    unfold SampleSet.mutate
    rw [replaceObject_eq_set x e _ hn, replaceObject_eq_set x e _ h.queue.1,
      replaceObject_of_not_mem x e s.NRqueue ((h.kind_bucket x hmem).2 hxk).2,
      replaceObject_eq_set x e _ h.IR.1]
    refine ⟨?_, ?_, ?_, ?_, ?_, ?_⟩
    · rw [strictlyAscending_iff_map, map_set_indexOf _ _ _ _ hv, ← strictlyAscending_iff_map]
      exact h.sorted
    · exact h.queue.replace hn x e ((h.mem_queue x).2 hmem) he rfl
    · exact h.NR.replace_out hn x e hmem hxk hk
    · exact h.IR.replace hn x e hx he (by simp [hk])
    · by_cases hr : x.isRoot = true
      · rw [replaceObject_eq_set x e _ h.root.1]
        exact h.root.replace hn x e ((h.root_bucket x hmem).1 hr).1 he (hroot ▸ hr)
      · have hr' : x.isRoot = false := by simpa using hr
        rw [replaceObject_of_not_mem x e s.rootQueue ((h.root_bucket x hmem).2 hr').2]
        exact h.root.replace_out hn x e hmem hr' (hroot ▸ hr')
    · by_cases hr : x.isRoot = true
      · rw [replaceObject_of_not_mem x e s.nonRootQueue ((h.root_bucket x hmem).1 hr).2]
        exact h.nonRoot.replace_out hn x e hmem (by simp [hr]) (by simp [hroot, hr])
      · have hr' : x.isRoot = false := by simpa using hr
        rw [replaceObject_eq_set x e _ h.nonRoot.1]
        exact h.nonRoot.replace hn x e ((h.root_bucket x hmem).2 hr').1 he
          (by simp [hroot, hr'])

/-- The three-argument `simplify` in closed form, called at the position of `from` in
`IRqueue`. -/
theorem simplifyIt_eq (s : SampleSet α) (h : Inv s) (from_ to_ : RealAlgebraicNumber α)
    (hf : from_ ∈ s.IRqueue) (hroot : from_.isRoot = to_.isRoot) :
    s.simplifyIt from_ to_ (s.IRqueue.indexOf from_) = some (
      { samples := s.samples.set (s.samples.indexOf from_) to_
        queue := s.queue.set (s.queue.indexOf from_) to_
        NRqueue := s.NRqueue ++ [to_]
        IRqueue := s.IRqueue.erase from_
        nonRootQueue := if from_.isRoot = true then s.nonRootQueue
          else s.nonRootQueue.set (s.nonRootQueue.indexOf from_) to_
        rootQueue := if from_.isRoot = true then s.rootQueue.set (s.rootQueue.indexOf from_) to_
          else s.rootQueue }, s.IRqueue.indexOf from_, true) := by
  have hs := simplify_eq s h from_ to_ hf hroot
  rcases simplify_some s _ from_ to_ true hs with ⟨hc, _⟩ | ⟨_, h2⟩
  · exact absurd hf hc
  · exact h2

end SampleSet

namespace SampleSet
variable {α : Type} [LinearOrder α]

theorem indexOf_append_cons_self {β : Type} [DecidableEq β] (q r : List β) (a : β)
    (hq : a ∉ q) : (q ++ a :: r).indexOf a = q.length := by
  induction q with
  | nil => simp
  | cons c t ih =>
    have hc : c ≠ a := fun e => hq (e ▸ List.mem_cons_self _ _)
    have ht : a ∉ t := fun h => hq (List.mem_cons_of_mem _ h)
    rw [List.cons_append, List.indexOf_cons_ne _ hc, ih ht]
    rfl

theorem erase_append_cons_self {β : Type} [DecidableEq β] (q r : List β) (a : β)
    (hq : a ∉ q) : (q ++ a :: r).erase a = q ++ r := by
  rw [List.erase_append_right _ hq]
  simp

theorem getElem?_append_length {β : Type} (q r : List β) :
    (q ++ r)[q.length]? = r.head? := by
  rw [List.getElem?_append_right (le_refl _)]
  cases r with
  | nil => simp
  | cons a t => simp

/-- A promotion in closed form: the numeric object `n` takes the place of the interval
sample `x` in `samples`, `queue` and the root buckets, is appended to `NRqueue`, and `x`
is erased from `IRqueue`; the iterator stays where it is. -/
theorem promote_eq (s : SampleSet α) (h : Inv s) (x n : RealAlgebraicNumber α)
    (hx : x ∈ s.IRqueue) (hroot : x.isRoot = n.isRoot) :
    s.simplifyIt x n (s.IRqueue.indexOf x) = some (
      { samples := replaceObject x n s.samples
        queue := replaceObject x n s.queue
        NRqueue := s.NRqueue ++ [n]
        IRqueue := s.IRqueue.erase x
        nonRootQueue := replaceObject x n s.nonRootQueue
        rootQueue := replaceObject x n s.rootQueue }, s.IRqueue.indexOf x, true) := by
  have hmem : x ∈ s.samples := ((h.IR.2 x).1 hx).1
  rw [simplifyIt_eq s h x n hx hroot,
    replaceObject_eq_set x n _ (strictlyAscending_nodup _ h.sorted),
    replaceObject_eq_set x n _ h.queue.1]
  cases hr : x.isRoot
  · rw [replaceObject_eq_set x n _ h.nonRoot.1,
      replaceObject_of_not_mem x n s.rootQueue ((h.root_bucket x hmem).2 hr).2]
    simp
  · rw [replaceObject_eq_set x n _ h.root.1,
      replaceObject_of_not_mem x n s.nonRootQueue ((h.root_bucket x hmem).1 hr).2]
    simp

/-- The invariant survives a promotion by a numeric object with the value and the root
flag of the interval sample. -/
theorem Inv.promote {s : SampleSet α} (h : Inv s) (x n : RealAlgebraicNumber α)
    (hx : x ∈ s.IRqueue) (hroot : x.isRoot = n.isRoot)
    (hk : n.isNumericRepresentation = true) (hv : n.value = x.value) :
    Inv { samples := replaceObject x n s.samples
          queue := replaceObject x n s.queue
          NRqueue := s.NRqueue ++ [n]
          IRqueue := s.IRqueue.erase x
          nonRootQueue := replaceObject x n s.nonRootQueue
          rootQueue := replaceObject x n s.rootQueue } := by
  have hmem : x ∈ s.samples := ((h.IR.2 x).1 hx).1
  have := h.simplify x n hx hroot hk hv
  rw [replaceObject_eq_set x n _ (strictlyAscending_nodup _ h.sorted),
    replaceObject_eq_set x n _ h.queue.1]
  cases hr : x.isRoot
  · rw [replaceObject_eq_set x n _ h.nonRoot.1,
      replaceObject_of_not_mem x n s.rootQueue ((h.root_bucket x hmem).2 hr).2]
    simpa [hr] using this
  · rw [replaceObject_eq_set x n _ h.root.1,
      replaceObject_of_not_mem x n s.nonRootQueue ((h.root_bucket x hmem).1 hr).2]
    simpa [hr] using this

/-- One pass of the loop body of bulk `simplify()`, in terms of the examined object. -/
theorem simplifyLoop_pass (collapses : RealAlgebraicNumber α → Bool)
    (fresh : RealAlgebraicNumber α → Nat) (fuel : Nat) (st : SimplifyState α)
    (x : RealAlgebraicNumber α) (hx : st.set.IRqueue[st.irIter]? = some x) :
    simplifyLoop collapses fresh (fuel + 1) st =
      (if (examined collapses x).isNumeric = true then
        match (st.set.mutate x (examined collapses x)).simplifyIt (examined collapses x)
            (numericCopy collapses fresh x) st.irIter with
        | none => Outcome.fatal
        | some (_, _, false) => Outcome.fatal
        | some (set2, irIter2, true) =>
          match set2.IRqueue[irIter2]? with
          | none => Outcome.fatal
          | some key =>
            simplifyLoop collapses fresh fuel
              { set := set2
                irIter := irIter2
                first := mapAssign
                  (st.first.map (fun p =>
                    (if p.1 = x then examined collapses x else p.1,
                     if p.2 = x then examined collapses x else p.2)))
                  key (numericCopy collapses fresh x)
                second := true
                refined := st.refined ++
                  [x].filter (fun y => !y.isNumeric && y.getRefinementCount == 0)
                iterations := st.iterations + 1 }
      else
        simplifyLoop collapses fresh fuel
          { set := st.set.mutate x (examined collapses x)
            irIter := st.irIter + 1
            first := st.first.map (fun p =>
              (if p.1 = x then examined collapses x else p.1,
               if p.2 = x then examined collapses x else p.2))
            second := st.second
            refined := st.refined ++
              [x].filter (fun y => !y.isNumeric && y.getRefinementCount == 0)
            iterations := st.iterations + 1 }) := by
  rw [simplifyLoop_succ _ _ _ _ x hx]
  by_cases hr : (!x.isNumeric && x.getRefinementCount == 0) = true
  · simp only [examined, numericCopy, hr, if_true, List.filter_cons, List.filter_nil]
  · have hm : st.set.mutate x x = st.set := by
      simp [SampleSet.mutate, replaceObject_self]
    have hf : st.first.map (fun p => (if p.1 = x then x else p.1, if p.2 = x then x else p.2)) =
        st.first := by
      conv_rhs => rw [← List.map_id st.first]
      apply List.map_congr_left
      intro p _
      by_cases h1 : p.1 = x <;> by_cases h2 : p.2 = x <;> simp [h1, h2, Prod.ext_iff]
    simp only [examined, numericCopy, hr, if_false, Bool.false_eq_true, List.filter_cons,
      List.filter_nil, List.append_nil, hm, hf]

end SampleSet

namespace SampleSet
variable {α : Type} [LinearOrder α]

/-- The pass for `x` followed by the passes for the samples of `rest`, seen through any
list of handles. -/
theorem map_swept_cons (collapses : RealAlgebraicNumber α → Bool)
    (fresh : RealAlgebraicNumber α → Nat) (x : RealAlgebraicNumber α)
    (rest l : List (RealAlgebraicNumber α))
    (hn : swept collapses fresh x ∉ rest) (hx : x ∉ rest) :
    (replaceObject x (swept collapses fresh x) l).map
        (fun y => if y ∈ rest then swept collapses fresh y else y) =
      l.map (fun y => if y ∈ x :: rest then swept collapses fresh y else y) := by
  unfold replaceObject
  rw [List.map_map]
  apply List.map_congr_left
  intro a _
  by_cases hax : a = x
  · subst hax
    simp [hn]
  · simp [hax]

theorem map_swept_nil (collapses : RealAlgebraicNumber α → Bool)
    (fresh : RealAlgebraicNumber α → Nat) (l : List (RealAlgebraicNumber α)) :
    l.map (fun y => if y ∈ ([] : List (RealAlgebraicNumber α)) then
      swept collapses fresh y else y) = l := by
  simp

end SampleSet

namespace SampleSet
variable {α : Type} [LinearOrder α]

theorem mapAssign_of_new {κ ν : Type} [DecidableEq κ] (m : List (κ × ν)) (key : κ) (value : ν)
    (h : ∀ p ∈ m, p.1 ≠ key) : mapAssign m key value = m ++ [(key, value)] := by
  unfold mapAssign
  have : m.any (fun p => decide (p.1 = key)) = false := by
    rw [List.any_eq_false]
    intro p hp
    simpa using h p hp
  simp [this]

/-- The keys of the map after the pass for `x` and the passes for `rest`. -/
theorem map_keys_cons (collapses : RealAlgebraicNumber α → Bool) (x : RealAlgebraicNumber α)
    (rest : List (RealAlgebraicNumber α))
    (m : List (RealAlgebraicNumber α × RealAlgebraicNumber α))
    (hex : examined collapses x ∉ rest) (hvals : ∀ p ∈ m, p.2 ≠ x) :
    (m.map (fun p => (if p.1 = x then examined collapses x else p.1,
        if p.2 = x then examined collapses x else p.2))).map
      (fun p => (if p.1 ∈ rest then examined collapses p.1 else p.1, p.2)) =
    m.map (fun p => (if p.1 ∈ x :: rest then examined collapses p.1 else p.1, p.2)) := by
  rw [List.map_map]
  apply List.map_congr_left
  intro p hp
  have h2 := hvals p hp
  by_cases h1 : p.1 = x
  · simp [h1, h2, hex]
  · simp [h1, h2]

/-- The loop of bulk `simplify()` in closed form, from a loop state whose iterator has
`rest` in front of it: the run is fatal if the last sample of `rest` is numeric at its
test, and otherwise it returns with every sample of `rest` swept. -/
theorem simplifyLoop_closed (collapses : RealAlgebraicNumber α → Bool)
    (fresh : RealAlgebraicNumber α → Nat) :
    ∀ (rest : List (RealAlgebraicNumber α)) (st : SimplifyState α)
      (done : List (RealAlgebraicNumber α)) (fuel : Nat),
      Inv st.set → st.set.IRqueue = done ++ rest → st.irIter = done.length →
      rest.length ≤ fuel →
      (∀ p ∈ st.first, p.1 ∉ rest.tail) →
      (∀ p ∈ st.first, p.2.isNumericRepresentation = true) →
      ((∃ x, rest.getLast? = some x ∧ (examined collapses x).isNumeric = true) →
        simplifyLoop collapses fresh fuel st = Outcome.fatal) ∧
      ((∀ x, rest.getLast? = some x → (examined collapses x).isNumeric = false) →
        ∃ res, simplifyLoop collapses fresh fuel st = Outcome.returned res ∧
          Inv res.set ∧
          res.set.samples = st.set.samples.map
            (fun y => if y ∈ rest then swept collapses fresh y else y) ∧
          res.set.queue = st.set.queue.map
            (fun y => if y ∈ rest then swept collapses fresh y else y) ∧
          res.set.rootQueue = st.set.rootQueue.map
            (fun y => if y ∈ rest then swept collapses fresh y else y) ∧
          res.set.nonRootQueue = st.set.nonRootQueue.map
            (fun y => if y ∈ rest then swept collapses fresh y else y) ∧
          res.set.NRqueue = st.set.NRqueue ++
            (rest.filter (fun x => (examined collapses x).isNumeric)).map
              (numericCopy collapses fresh) ∧
          res.set.IRqueue = done ++
            (rest.map (examined collapses)).filter (fun e => !e.isNumeric) ∧
          res.second = (st.second || rest.any (fun x => (examined collapses x).isNumeric)) ∧
          res.refined = st.refined ++
            rest.filter (fun x => !x.isNumeric && x.getRefinementCount == 0) ∧
          res.iterations = st.iterations + rest.length ∧
          res.first = st.first.map
              (fun p => (if p.1 ∈ rest then examined collapses p.1 else p.1, p.2)) ++
            writtenEntries collapses fresh rest) := by
  intro rest
  induction rest with
  | nil =>
    intro st done fuel hinv hIR hit _ _ _
    have hend : st.set.IRqueue[st.irIter]? = none := by
      rw [hIR, hit]
      simp
    constructor
    · rintro ⟨x, hx, _⟩
      simp at hx
    · intro _
      refine ⟨st, simplifyLoop_end _ _ _ _ hend, hinv, ?_, ?_, ?_, ?_, ?_, ?_, ?_, ?_, ?_, ?_⟩ <;>
        simp [hIR, writtenEntries]
  | cons x rest ih =>
    intro st done fuel hinv hIR hit hfuel hkeys hvals
    obtain ⟨f, rfl⟩ : ∃ f, fuel = f + 1 := ⟨fuel - 1, by simp at hfuel; omega⟩
    have hfuel' : rest.length ≤ f := by simp at hfuel; omega
    have hx : st.set.IRqueue[st.irIter]? = some x := by
      rw [hIR, hit, getElem?_append_length]
      rfl
    rw [simplifyLoop_pass collapses fresh f st x hx]
    have hnod : (done ++ x :: rest).Nodup := hIR ▸ hinv.IR.1
    have hxIR : x ∈ st.set.IRqueue := by rw [hIR]; simp
    have hxD : x ∉ done := fun hd => (List.nodup_append.1 hnod).2.2 hd (List.mem_cons_self _ _)
    have hxR : x ∉ rest := (List.nodup_cons.1 (List.nodup_append.1 hnod).2.1).1
    have hxs := (hinv.IR.2 x).1 hxIR
    have hxk : x.isNumericRepresentation = false := by simpa using hxs.2
    have hek : (examined collapses x).isNumericRepresentation = false := by
      rw [examined_isNumericRepresentation]; exact hxk
    have hinv1 : Inv (st.set.mutate x (examined collapses x)) :=
      hinv.mutate x _ hxIR (examined_value collapses x) (examined_isRoot collapses x) hek
    have hIR1 : (st.set.mutate x (examined collapses x)).IRqueue =
        done ++ examined collapses x :: rest := by
      simp only [SampleSet.mutate, hIR]
      exact replaceObject_append_cons x _ done rest hxD hxR
    have hNR1 : (st.set.mutate x (examined collapses x)).NRqueue = st.set.NRqueue := by
      simp only [SampleSet.mutate]
      exact replaceObject_of_not_mem x _ _ ((hinv.kind_bucket x hxs.1).2 hxk).2
    have hnod1 : (done ++ examined collapses x :: rest).Nodup := hIR1 ▸ hinv1.IR.1
    have heD : examined collapses x ∉ done :=
      fun hd => (List.nodup_append.1 hnod1).2.2 hd (List.mem_cons_self _ _)
    have heIR : examined collapses x ∈ (st.set.mutate x (examined collapses x)).IRqueue := by
      rw [hIR1]; simp
    have hidx : (st.set.mutate x (examined collapses x)).IRqueue.indexOf
        (examined collapses x) = st.irIter := by
      rw [hIR1, hit]
      exact indexOf_append_cons_self done rest _ heD
    have hrestmem : ∀ z ∈ rest, z ∈ st.set.samples ∧ z.value ≠ x.value := by
      intro z hz
      have hzIR : z ∈ st.set.IRqueue := by rw [hIR]; simp [hz]
      have hzs := ((hinv.IR.2 z).1 hzIR).1
      refine ⟨hzs, fun hv => ?_⟩
      have := eq_of_value_eq _ hinv.sorted z x hzs hxs.1 hv
      exact hxR (this ▸ hz)
    have hsw : swept collapses fresh x ∉ rest := fun hz =>
      (hrestmem _ hz).2 (swept_value collapses fresh x)
    have hex : examined collapses x ∉ rest := fun hz =>
      (hrestmem _ hz).2 (examined_value collapses x)
    have hvx : ∀ p ∈ st.first, p.2 ≠ x := by
      intro p hp e
      have := hvals p hp
      rw [e, hxk] at this
      exact absurd this (by simp)
    have hvals1 : ∀ p ∈ st.first.map (fun p =>
        (if p.1 = x then examined collapses x else p.1,
         if p.2 = x then examined collapses x else p.2)),
        p.2.isNumericRepresentation = true := by
      intro p hp
      obtain ⟨q, hq, rfl⟩ := List.mem_map.1 hp
      simp only [hvx q hq, if_false]
      exact hvals q hq
    have hkeys1 : ∀ p ∈ st.first.map (fun p =>
        (if p.1 = x then examined collapses x else p.1,
         if p.2 = x then examined collapses x else p.2)), p.1 ∉ rest := by
      intro p hp
      obtain ⟨q, hq, rfl⟩ := List.mem_map.1 hp
      by_cases h1 : q.1 = x
      · simp only [h1, if_true]
        exact hex
      · simp only [h1, if_false]
        exact hkeys q hq
    have hlast : ∀ y z t, (x :: y :: t).getLast? = some z ↔ (y :: t).getLast? = some z := by
      intro y z t
      rw [List.getLast?_cons_cons]
    by_cases hnum : (examined collapses x).isNumeric = true
    · have hswx : swept collapses fresh x = numericCopy collapses fresh x := by
        simp [swept, hnum]
      have hprom := promote_eq _ hinv1 (examined collapses x) (numericCopy collapses fresh x)
        heIR rfl
      have hinv2 := hinv1.promote (examined collapses x) (numericCopy collapses fresh x)
        heIR rfl rfl rfl
      rw [hidx] at hprom
      simp only [hnum, if_true, hprom]
      have hcomp : ∀ l : List (RealAlgebraicNumber α), (∀ y ∈ l, y ∈ st.set.samples) →
          replaceObject (examined collapses x) (numericCopy collapses fresh x)
            (replaceObject x (examined collapses x) l) =
          replaceObject x (swept collapses fresh x) l := by
        intro l hl
        rw [hswx]
        apply replaceObject_comp
        rcases hinv.eq_or_not_mem x _ hxs.1 (examined_value collapses x) with h1 | h1
        · exact Or.inl h1
        · exact Or.inr (fun hm => h1 (hl _ hm))
      have hIR2 : (st.set.mutate x (examined collapses x)).IRqueue.erase
          (examined collapses x) = done ++ rest := by
        rw [hIR1]
        exact erase_append_cons_self done rest _ heD
      have hkey : ((st.set.mutate x (examined collapses x)).IRqueue.erase
          (examined collapses x))[st.irIter]? = rest.head? := by
        rw [hIR2, hit, getElem?_append_length]
      simp only [hkey]
      cases hrest : rest with
      | nil =>
        simp only [List.head?_nil]
        constructor
        · intro _
          trivial
        · intro hall
          have := hall x (by simp)
          rw [hnum] at this
          exact absurd this (by simp)
      | cons y t =>
        simp only [List.head?_cons]
        rw [hrest] at hIR2 hfuel'
        have hynew : ∀ p ∈ st.first.map (fun p =>
            (if p.1 = x then examined collapses x else p.1,
             if p.2 = x then examined collapses x else p.2)), p.1 ≠ y := by
          intro p hp e
          exact hkeys1 p hp (by rw [e, hrest]; exact List.mem_cons_self _ _)
        have hassign := mapAssign_of_new _ y (numericCopy collapses fresh x) hynew
        have hyt : y ∉ t := by
          have := (List.nodup_append.1 hnod).2.1
          rw [hrest] at this
          exact (List.nodup_cons.1 (List.nodup_cons.1 this).2).1
        have hk2 : ∀ p ∈ mapAssign
            (st.first.map (fun p =>
              (if p.1 = x then examined collapses x else p.1,
               if p.2 = x then examined collapses x else p.2)))
            y (numericCopy collapses fresh x), p.1 ∉ (y :: t).tail := by
          rw [hassign]
          intro p hp
          rcases List.mem_append.1 hp with h1 | h1
          · exact fun hm => hkeys1 p h1 (by rw [hrest]; exact List.mem_cons_of_mem _ hm)
          · rw [List.mem_singleton] at h1
            rw [h1]
            exact hyt
        have hv2 : ∀ p ∈ mapAssign
            (st.first.map (fun p =>
              (if p.1 = x then examined collapses x else p.1,
               if p.2 = x then examined collapses x else p.2)))
            y (numericCopy collapses fresh x), p.2.isNumericRepresentation = true := by
          rw [hassign]
          intro p hp
          rcases List.mem_append.1 hp with h1 | h1
          · exact hvals1 p h1
          · rw [List.mem_singleton] at h1
            rw [h1]
            rfl
        obtain ⟨ihF, ihR⟩ := ih
          { set := { samples := replaceObject (examined collapses x)
                        (numericCopy collapses fresh x)
                        (st.set.mutate x (examined collapses x)).samples
                     queue := replaceObject (examined collapses x)
                        (numericCopy collapses fresh x)
                        (st.set.mutate x (examined collapses x)).queue
                     NRqueue := (st.set.mutate x (examined collapses x)).NRqueue ++
                        [numericCopy collapses fresh x]
                     IRqueue := (st.set.mutate x (examined collapses x)).IRqueue.erase
                        (examined collapses x)
                     nonRootQueue := replaceObject (examined collapses x)
                        (numericCopy collapses fresh x)
                        (st.set.mutate x (examined collapses x)).nonRootQueue
                     rootQueue := replaceObject (examined collapses x)
                        (numericCopy collapses fresh x)
                        (st.set.mutate x (examined collapses x)).rootQueue }
            irIter := st.irIter
            first := mapAssign
              (st.first.map (fun p =>
                (if p.1 = x then examined collapses x else p.1,
                 if p.2 = x then examined collapses x else p.2)))
              y (numericCopy collapses fresh x)
            second := true
            refined := st.refined ++
              [x].filter (fun y => !y.isNumeric && y.getRefinementCount == 0)
            iterations := st.iterations + 1 }
          done f hinv2 (by rw [hrest]; exact hIR2) hit (by rw [hrest]; exact hfuel')
          (by rw [hrest]; exact hk2) hv2
        rw [hrest] at ihF ihR
        constructor
        · rintro ⟨z, hz, hzn⟩
          exact ihF ⟨z, (hlast y z t).1 hz, hzn⟩
        · intro hall
          obtain ⟨res, hres, hri, h1, h2, h3, h4, h5, h6, h7, h8, h9, h10⟩ :=
            ihR (fun z hz => hall z ((hlast y z t).2 hz))
          have hsw' : swept collapses fresh x ∉ y :: t := hrest ▸ hsw
          have hxR' : x ∉ y :: t := hrest ▸ hxR
          have hex' : examined collapses x ∉ y :: t := hrest ▸ hex
          refine ⟨res, hres, hri, ?_, ?_, ?_, ?_, ?_, ?_, ?_, ?_, ?_, ?_⟩
          · rw [h1]
            simp only [SampleSet.mutate]
            rw [hcomp _ (fun _ hy => hy), map_swept_cons _ _ _ _ _ hsw' hxR']
          · rw [h2]
            simp only [SampleSet.mutate]
            rw [hcomp _ (fun z hz => (hinv.mem_queue z).1 hz),
              map_swept_cons _ _ _ _ _ hsw' hxR']
          · rw [h3]
            simp only [SampleSet.mutate]
            rw [hcomp _ (fun z hz => ((hinv.root.2 z).1 hz).1),
              map_swept_cons _ _ _ _ _ hsw' hxR']
          · rw [h4]
            simp only [SampleSet.mutate]
            rw [hcomp _ (fun z hz => ((hinv.nonRoot.2 z).1 hz).1),
              map_swept_cons _ _ _ _ _ hsw' hxR']
          · rw [h5, hNR1]
            simp [List.filter_cons, hnum]
          · rw [h6]
            simp [List.filter_cons, hnum]
          · rw [h7]
            simp [hnum]
          · rw [h8]
            simp [List.filter_cons, List.append_assoc]
            split_ifs <;> simp
          · rw [h9]
            simp
            omega
          · rw [h10]
            simp only []
            rw [hassign, List.map_append, map_keys_cons collapses x (y :: t) _ hex' hvx]
            simp [writtenEntries, hnum]
    · have hnum' : (examined collapses x).isNumeric = false := by simpa using hnum
      have hswx : swept collapses fresh x = examined collapses x := by
        simp [swept, hnum']
      simp only [hnum, if_false, Bool.false_eq_true]
      obtain ⟨ihF, ihR⟩ := ih
        { set := st.set.mutate x (examined collapses x)
          irIter := st.irIter + 1
          first := st.first.map (fun p =>
            (if p.1 = x then examined collapses x else p.1,
             if p.2 = x then examined collapses x else p.2))
          second := st.second
          refined := st.refined ++
            [x].filter (fun y => !y.isNumeric && y.getRefinementCount == 0)
          iterations := st.iterations + 1 }
        (done ++ [examined collapses x]) f hinv1 (by simp [hIR1]) (by simp [hit]) hfuel'
        (fun p hp hm => hkeys1 p hp (List.mem_of_mem_tail hm)) hvals1
      constructor
      · rintro ⟨z, hz, hzn⟩
        cases hrest : rest with
        | nil =>
          rw [hrest] at hz
          simp at hz
          rw [← hz, hnum'] at hzn
          exact absurd hzn (by simp)
        | cons y t =>
          rw [hrest] at hz ihF
          exact ihF ⟨z, (hlast y z t).1 hz, hzn⟩
      · intro hall
        have hall' : ∀ z, rest.getLast? = some z → (examined collapses z).isNumeric = false := by
          intro z hz
          cases hrest : rest with
          | nil => rw [hrest] at hz; simp at hz
          | cons y t =>
            rw [hrest] at hz
            exact hall z (by rw [hrest]; exact (hlast y z t).2 hz)
        obtain ⟨res, hres, hri, h1, h2, h3, h4, h5, h6, h7, h8, h9, h10⟩ := ihR hall'
        refine ⟨res, hres, hri, ?_, ?_, ?_, ?_, ?_, ?_, ?_, ?_, ?_, ?_⟩
        · rw [h1]
          simp only [SampleSet.mutate]
          rw [← hswx, map_swept_cons _ _ _ _ _ hsw hxR]
        · rw [h2]
          simp only [SampleSet.mutate]
          rw [← hswx, map_swept_cons _ _ _ _ _ hsw hxR]
        · rw [h3]
          simp only [SampleSet.mutate]
          rw [← hswx, map_swept_cons _ _ _ _ _ hsw hxR]
        · rw [h4]
          simp only [SampleSet.mutate]
          rw [← hswx, map_swept_cons _ _ _ _ _ hsw hxR]
        · rw [h5, hNR1]
          simp [List.filter_cons, hnum']
        · rw [h6]
          simp [List.filter_cons, hnum']
        · rw [h7]
          simp [hnum']
        · rw [h8]
          simp [List.filter_cons, List.append_assoc]
          split_ifs <;> simp
        · rw [h9]
          simp
          omega
        · rw [h10]
          simp only []
          rw [map_keys_cons collapses x rest _ hex hvx]
          cases hrest : rest with
          | nil => simp [writtenEntries]
          | cons y t => simp [writtenEntries, hnum']

end SampleSet

namespace SampleSet
variable {α : Type} [LinearOrder α]

/-- Bulk `simplify()` in closed form, for every state that satisfies the view
invariant.  If the last interval sample is numeric at its test, the run is fatal: after
its promotion the write into the map dereferences `end()`.  Otherwise the run returns:
every interval sample that is numeric at its test has its numeric copy in its place in
`samples`, `queue` and the root buckets, the copies are appended to `NRqueue` in the
order of the sweep, `IRqueue` keeps the other samples in their order, the flag tells
whether some sample was numeric at its test, `refine()` was called on the samples that
were neither numeric nor ever refined, the loop body was entered once per interval
sample, and the map holds the entries `writtenEntries`. -/
theorem simplifyBulk_closed (collapses : RealAlgebraicNumber α → Bool)
    (fresh : RealAlgebraicNumber α → Nat) (s : SampleSet α) (h : Inv s) :
    ((∃ x, s.IRqueue.getLast? = some x ∧ (examined collapses x).isNumeric = true) →
      s.simplifyBulk collapses fresh = Outcome.fatal) ∧
    ((∀ x, s.IRqueue.getLast? = some x → (examined collapses x).isNumeric = false) →
      ∃ res, s.simplifyBulk collapses fresh = Outcome.returned res ∧
        Inv res.set ∧
        res.set.samples = s.samples.map
          (fun y => if y ∈ s.IRqueue then swept collapses fresh y else y) ∧
        res.set.queue = s.queue.map
          (fun y => if y ∈ s.IRqueue then swept collapses fresh y else y) ∧
        res.set.rootQueue = s.rootQueue.map
          (fun y => if y ∈ s.IRqueue then swept collapses fresh y else y) ∧
        res.set.nonRootQueue = s.nonRootQueue.map
          (fun y => if y ∈ s.IRqueue then swept collapses fresh y else y) ∧
        res.set.NRqueue = s.NRqueue ++
          (s.IRqueue.filter (fun x => (examined collapses x).isNumeric)).map
            (numericCopy collapses fresh) ∧
        res.set.IRqueue =
          (s.IRqueue.map (examined collapses)).filter (fun e => !e.isNumeric) ∧
        res.second = s.IRqueue.any (fun x => (examined collapses x).isNumeric) ∧
        res.refined =
          s.IRqueue.filter (fun x => !x.isNumeric && x.getRefinementCount == 0) ∧
        res.iterations = s.IRqueue.length ∧
        res.first = writtenEntries collapses fresh s.IRqueue) := by
  by_cases he : s.samples = []
  · have hIR : s.IRqueue = [] := by
      cases hq : s.IRqueue with
      | nil => rfl
      | cons a t =>
        have := ((h.IR.2 a).1 (by rw [hq]; exact List.mem_cons_self _ _)).1
        rw [he] at this
        simp at this
    rw [simplifyBulk_of_empty collapses fresh s he, hIR]
    constructor
    · rintro ⟨x, hx, _⟩
      simp at hx
    · intro _
      exact ⟨_, rfl, h, by simp, by simp, by simp, by simp, by simp, by simp [hIR], by simp,
        by simp, by simp, by simp [writtenEntries]⟩
  · have hemp : s.samples.isEmpty = false := by
      cases hl : s.samples with
      | nil => exact absurd hl he
      | cons a t => rfl
    have hloop := simplifyLoop_closed collapses fresh s.IRqueue
      { set := s, irIter := 0, first := [], second := false, refined := [], iterations := 0 }
      [] s.IRqueue.length h (by simp) (by simp) (le_refl _) (by simp) (by simp)
    unfold simplifyBulk
    simp only [hemp, Bool.false_eq_true, if_false]
    refine ⟨hloop.1, fun hall => ?_⟩
    obtain ⟨res, hres, hri, h1, h2, h3, h4, h5, h6, h7, h8, h9, h10⟩ := hloop.2 hall
    exact ⟨res, hres, hri, h1, h2, h3, h4, h5, by simpa using h6, by simpa using h7,
      by simpa using h8, by simpa using h9, by simpa using h10⟩

end SampleSet

/-! ## Peeks and pops at the boundary of the empty set -/

section claims
variable {α : Type} [LinearOrder α]
open SampleSet

/-- C22 (a peek on an empty set is fatal): when `samples` is empty, each of `next()`,
`nextNR()`, `nextNonRoot()` and `nextRoot()` runs into `assert(false)` and returns no
sample. -/
theorem C22_peek_on_empty_fatal (s : SampleSet α) (he : s.samples = []) :
    s.next = none ∧ s.nextNR = none ∧ s.nextNonRoot = none ∧ s.nextRoot = none := by
  simp [next, nextNR, nextNonRoot, nextRoot, he]

/-- C22 at the freshly constructed set. -/
theorem C22_peek_on_empty_fatal_witness :
    (SampleSet.empty : SampleSet Int).samples = [] ∧
    ((SampleSet.empty : SampleSet Int).next = none ∧
      (SampleSet.empty : SampleSet Int).nextNR = none ∧
      (SampleSet.empty : SampleSet Int).nextNonRoot = none ∧
      (SampleSet.empty : SampleSet Int).nextRoot = none) :=
  ⟨rfl, C22_peek_on_empty_fatal SampleSet.empty rfl⟩

/-- C23, as stated, fails: on the freshly constructed set none of the four pops is
fatal; each returns normally and leaves the set as it was. -/
theorem C23_pop_on_empty_returns :
    (SampleSet.empty : SampleSet Int).pop ≠ none ∧
    (SampleSet.empty : SampleSet Int).popNR ≠ none ∧
    (SampleSet.empty : SampleSet Int).popNonroot ≠ none ∧
    (SampleSet.empty : SampleSet Int).popRoot ≠ none ∧
    (SampleSet.empty : SampleSet Int).pop = some SampleSet.empty := by
  decide

/-- C23, amended (a pop on an empty set does nothing): when `samples` is empty, each of
`pop()`, `popNR()`, `popNonroot()` and `popRoot()` leaves through its guard
`if (samples.empty()) return;`: it returns normally and changes no container. -/
theorem C23_pop_on_empty_is_noop (s : SampleSet α) (he : s.samples = []) :
    s.pop = some s ∧ s.popNR = some s ∧ s.popNonroot = some s ∧ s.popRoot = some s := by
  simp [pop, popNR, popNonroot, popRoot, he]

/-- C23, amended, at the freshly constructed set. -/
theorem C23_pop_on_empty_is_noop_witness :
    (SampleSet.empty : SampleSet Int).samples = [] ∧
    ((SampleSet.empty : SampleSet Int).pop = some SampleSet.empty ∧
      (SampleSet.empty : SampleSet Int).popNR = some SampleSet.empty ∧
      (SampleSet.empty : SampleSet Int).popNonroot = some SampleSet.empty ∧
      (SampleSet.empty : SampleSet Int).popRoot = some SampleSet.empty) :=
  ⟨rfl, C23_pop_on_empty_is_noop SampleSet.empty rfl⟩

end claims

/-! ## What `insert` stores, and where -/

namespace SampleSet
variable {α : Type} [LinearOrder α]

/-- The test of `insert` fails at every position when no stored entry has the value. -/
theorem equalAt_of_new (l : List (RealAlgebraicNumber α)) (k : Nat)
    (x : RealAlgebraicNumber α) (hnew : ∀ y ∈ l, y.value ≠ x.value) :
    equalAt l k x = false := by
  unfold equalAt
  cases hk : l[k]? with
  | none => rfl
  | some y =>
    have hy : y ∈ l := List.getElem?_mem hk
    simp [Equal, hnew y hy]

/-- The value is not stored: `insert` stores the sample in every state, sorted or not. -/
theorem insert_of_new (s : SampleSet α) (r : RealAlgebraicNumber α) (fresh : Nat)
    (hnew : ∀ y ∈ s.samples, y.value ≠ r.value) :
    s.insert r fresh =
        ({ samples := listInsert s.samples
              (lower_bound s.samples (insertedSample r fresh) Less) (insertedSample r fresh)
           queue := s.queue ++ [insertedSample r fresh]
           NRqueue := if r.isNumeric = true then s.NRqueue ++ [insertedSample r fresh]
             else s.NRqueue
           IRqueue := if r.isNumeric = true then s.IRqueue
             else s.IRqueue ++ [insertedSample r fresh]
           nonRootQueue := if r.isRoot = true then s.nonRootQueue
             else s.nonRootQueue ++ [insertedSample r fresh]
           rootQueue := if r.isRoot = true then s.rootQueue ++ [insertedSample r fresh]
             else s.rootQueue },
         lower_bound s.samples (insertedSample r fresh) Less, true) := by
  rw [insert_unfold]
  have hf := equalAt_of_new s.samples (lower_bound s.samples (insertedSample r fresh) Less)
    (insertedSample r fresh) (by rw [insertedSample_value]; exact hnew)
  simp [hf]

/-- The entry at the position of an insertion is the inserted element. -/
theorem getElem?_listInsert {β : Type} (l : List β) (k : Nat) (x : β) (hk : k ≤ l.length) :
    (listInsert l k x)[k]? = some x := by
  unfold listInsert
  have hlen : (l.take k).length = k := by simp [hk]
  rw [List.getElem?_append_right (by omega)]
  simp [hlen]

/-- In a strictly ascending list `std::lower_bound` returns a position of the list or
its end. -/
theorem lower_bound_le_length (l : List (RealAlgebraicNumber α)) (r : RealAlgebraicNumber α)
    (hs : StrictlyAscending l) : lower_bound l r Less ≤ l.length := by
  rw [lower_bound_sorted l r hs]
  exact (List.takeWhile_sublist _).length_le

end SampleSet

section claims
variable {α : Type} [LinearOrder α]
open SampleSet

/-- C24 (canonicalization on insert): let the input `r` be numeric (`r.isNumeric()` is
true) with a value that is not stored.  Then `insert` reports `true` and stores one
sample at the returned position; the stored sample has numeric representation, the value
of `r` and the root flag of `r`; it is appended to `NRqueue`, and `IRqueue` is left as it
was.  When `r` has numeric representation the stored handle is `r` itself, otherwise it
is the object made by `create(r->value(), r->isRoot())`. -/
theorem C24_canonicalization (s : SampleSet α) (r : RealAlgebraicNumber α) (fresh : Nat)
    (hnum : r.isNumeric = true) (hnew : ∀ y ∈ s.samples, y.value ≠ r.value) :
    ∃ stored,
      (s.insert r fresh).2.2 = true ∧
      (s.insert r fresh).1.samples = listInsert s.samples (s.insert r fresh).2.1 stored ∧
      stored.isNumericRepresentation = true ∧
      stored.value = r.value ∧
      stored.isRoot = r.isRoot ∧
      (s.insert r fresh).1.NRqueue = s.NRqueue ++ [stored] ∧
      (s.insert r fresh).1.IRqueue = s.IRqueue ∧
      (r.isNumericRepresentation = true → stored = r) ∧
      (r.isNumericRepresentation = false →
        stored = RealAlgebraicNumberNR.create fresh r.value r.isRoot) := by
  refine ⟨insertedSample r fresh, ?_⟩
  rw [insert_of_new s r fresh hnew]
  refine ⟨rfl, rfl, ?_, insertedSample_value r fresh, insertedSample_isRoot r fresh, ?_, ?_,
    ?_, ?_⟩
  · rw [insertedSample_isNumericRepresentation, hnum]
  · simp [hnum]
  · simp [hnum]
  · intro hk
    simp [insertedSample, hnum, hk]
  · intro hk
    simp [insertedSample, hnum, hk]

/-- C24 at `singletonFive` and the collapsed interval `4`, a root: the set stores the
numeric copy made at address `102`. -/
theorem C24_canonicalization_witness :
    (intSample 3 4 true true).isNumeric = true ∧
    (∀ y ∈ singletonFive.samples, y.value ≠ (intSample 3 4 true true).value) ∧
    (∃ stored,
      (singletonFive.insert (intSample 3 4 true true) 102).2.2 = true ∧
      (singletonFive.insert (intSample 3 4 true true) 102).1.samples =
        listInsert singletonFive.samples
          (singletonFive.insert (intSample 3 4 true true) 102).2.1 stored ∧
      stored.isNumericRepresentation = true ∧
      stored.value = (intSample 3 4 true true).value ∧
      stored.isRoot = (intSample 3 4 true true).isRoot ∧
      (singletonFive.insert (intSample 3 4 true true) 102).1.NRqueue =
        singletonFive.NRqueue ++ [stored] ∧
      (singletonFive.insert (intSample 3 4 true true) 102).1.IRqueue =
        singletonFive.IRqueue ∧
      ((intSample 3 4 true true).isNumericRepresentation = true →
        stored = intSample 3 4 true true) ∧
      ((intSample 3 4 true true).isNumericRepresentation = false →
        stored = RealAlgebraicNumberNR.create 102 (intSample 3 4 true true).value
          (intSample 3 4 true true).isRoot)) :=
  ⟨by decide, by decide,
    C24_canonicalization singletonFive (intSample 3 4 true true) 102 (by decide) (by decide)⟩

/-- C25, as stated, fails: the input is an interval object that has collapsed to the
exact point `4`, and its value is not stored in the empty set.  The call `insert` does
not store this handle and does not append it to `IRqueue`: it stores a numeric copy and
appends the copy to `NRqueue`. -/
theorem C25_collapsed_interval_is_converted :
    (intSample 3 4 true true).isNumericRepresentation = false ∧
    intSample 3 4 true true ∉
      ((SampleSet.empty : SampleSet Int).insert (intSample 3 4 true true) 102).1.samples ∧
    ((SampleSet.empty : SampleSet Int).insert (intSample 3 4 true true) 102).1.IRqueue = [] ∧
    ((SampleSet.empty : SampleSet Int).insert (intSample 3 4 true true) 102).1.NRqueue =
      [RealAlgebraicNumberNR.create 102 4 true] ∧
    ((SampleSet.empty : SampleSet Int).insert (intSample 3 4 true true) 102).1.samples =
      [RealAlgebraicNumberNR.create 102 4 true] := by
  decide

/-- C25, amended (interval inputs): let the input `r` be in interval representation with
a value that is not stored.  When `r.isNumeric()` is false, `insert` stores the handle
`r` itself and appends it to `IRqueue`, and `NRqueue` is left as it was.  When
`r.isNumeric()` is true (the interval has collapsed to an exact point), `insert` stores
the numeric copy made by `create(r->value(), r->isRoot())` instead and appends the copy
to `NRqueue`, and `IRqueue` is left as it was. -/
theorem C25_interval_inputs (s : SampleSet α) (r : RealAlgebraicNumber α) (fresh : Nat)
    (hir : r.isNumericRepresentation = false)
    (hnew : ∀ y ∈ s.samples, y.value ≠ r.value) :
    (s.insert r fresh).2.2 = true ∧
    (r.isNumeric = false →
      (s.insert r fresh).1.samples = listInsert s.samples (s.insert r fresh).2.1 r ∧
      (s.insert r fresh).1.IRqueue = s.IRqueue ++ [r] ∧
      (s.insert r fresh).1.NRqueue = s.NRqueue) ∧
    (r.isNumeric = true →
      (s.insert r fresh).1.samples = listInsert s.samples (s.insert r fresh).2.1
        (RealAlgebraicNumberNR.create fresh r.value r.isRoot) ∧
      (s.insert r fresh).1.NRqueue =
        s.NRqueue ++ [RealAlgebraicNumberNR.create fresh r.value r.isRoot] ∧
      (s.insert r fresh).1.IRqueue = s.IRqueue) := by
  rw [insert_of_new s r fresh hnew]
  refine ⟨rfl, ?_, ?_⟩
  · intro hn
    have hx : insertedSample r fresh = r := by simp [insertedSample, hn]
    simp [hn, hx]
  · intro hn
    have hx : insertedSample r fresh = RealAlgebraicNumberNR.create fresh r.value r.isRoot := by
      simp [insertedSample, hn, hir]
    simp [hn, hx]

/-- C25, amended, at `singletonFive` and the interval `2` that has not collapsed. -/
theorem C25_interval_inputs_witness :
    (intSample 1 2 true false).isNumericRepresentation = false ∧
    (∀ y ∈ singletonFive.samples, y.value ≠ (intSample 1 2 true false).value) ∧
    ((singletonFive.insert (intSample 1 2 true false) 100).2.2 = true ∧
    ((intSample 1 2 true false).isNumeric = false →
      (singletonFive.insert (intSample 1 2 true false) 100).1.samples =
        listInsert singletonFive.samples
          (singletonFive.insert (intSample 1 2 true false) 100).2.1
          (intSample 1 2 true false) ∧
      (singletonFive.insert (intSample 1 2 true false) 100).1.IRqueue =
        singletonFive.IRqueue ++ [intSample 1 2 true false] ∧
      (singletonFive.insert (intSample 1 2 true false) 100).1.NRqueue =
        singletonFive.NRqueue) ∧
    ((intSample 1 2 true false).isNumeric = true →
      (singletonFive.insert (intSample 1 2 true false) 100).1.samples =
        listInsert singletonFive.samples
          (singletonFive.insert (intSample 1 2 true false) 100).2.1
          (RealAlgebraicNumberNR.create 100 (intSample 1 2 true false).value
            (intSample 1 2 true false).isRoot) ∧
      (singletonFive.insert (intSample 1 2 true false) 100).1.NRqueue =
        singletonFive.NRqueue ++ [RealAlgebraicNumberNR.create 100
          (intSample 1 2 true false).value (intSample 1 2 true false).isRoot] ∧
      (singletonFive.insert (intSample 1 2 true false) 100).1.IRqueue =
        singletonFive.IRqueue)) :=
  ⟨by decide, by decide,
    C25_interval_inputs singletonFive (intSample 1 2 true false) 100 (by decide) (by decide)⟩

end claims

/-! ## Single calls in closed form -/

namespace SampleSet
variable {α : Type} [LinearOrder α]

/-- A call of an operation other than `simplify` keeps the invariant, and it leaves the
set as it was, or stores one sample with a new value, or erases one stored sample. -/
theorem plainStep_closed {s s' : SampleSet α} (h : Inv s) (hstep : PlainStep s s') :
    Inv s' ∧
    (s' = s ∨ (∃ x, (∀ y ∈ s.samples, y.value ≠ x.value) ∧ s' = s.extended x) ∨
      (∃ r, r ∈ s.samples ∧ s' = s.erased r)) := by
  cases hstep with
  | insert r fresh =>
    refine ⟨h.insert r fresh, ?_⟩
    by_cases hex : ∃ y ∈ s.samples, y.value = r.value
    · rw [insert_old s h.sorted r fresh hex]
      exact Or.inl rfl
    · have hnew : ∀ y ∈ s.samples, y.value ≠ r.value := fun y hy hv => hex ⟨y, hy, hv⟩
      refine Or.inr (Or.inl ⟨insertedSample r fresh, ?_, ?_⟩)
      · rw [insertedSample_value]
        exact hnew
      · rw [insert_new s h.sorted r fresh hnew]
        simp [extended, insertedSample_isNumericRepresentation, insertedSample_isRoot]
  | remove _ position next hrem =>
    cases hp : s.samples[position]? with
    | none =>
      rw [remove_of_invalid s position hp] at hrem
      exact Option.noConfusion hrem
    | some r =>
      rw [remove_eq s h position r hp] at hrem
      have : _ = s' := congrArg Prod.fst (Option.some.inj hrem)
      rw [← this]
      exact ⟨h.erase_everywhere r, Or.inr (Or.inr ⟨r, List.getElem?_mem hp, rfl⟩)⟩
  | pop _ hpop =>
    by_cases he : s.samples = []
    · rw [pop_of_empty s he] at hpop
      rw [← Option.some.inj hpop]
      exact ⟨h, Or.inl rfl⟩
    · obtain ⟨r, _, hr, hmem⟩ := h.next_some he
      rw [pop_eq s h r hr] at hpop
      rw [← Option.some.inj hpop]
      exact ⟨h.erase_everywhere r, Or.inr (Or.inr ⟨r, hmem, rfl⟩)⟩
  | popNR _ hpop =>
    by_cases he : s.samples = []
    · rw [popNR_of_empty s he] at hpop
      rw [← Option.some.inj hpop]
      exact ⟨h, Or.inl rfl⟩
    · obtain ⟨r, hr, hmem⟩ := h.nextNR_some he
      rw [popNR_eq s h r hr] at hpop
      rw [← Option.some.inj hpop]
      exact ⟨h.erase_everywhere r, Or.inr (Or.inr ⟨r, hmem, rfl⟩)⟩
  | popNonroot _ hpop =>
    by_cases he : s.samples = []
    · rw [popNonroot_of_empty s he] at hpop
      rw [← Option.some.inj hpop]
      exact ⟨h, Or.inl rfl⟩
    · obtain ⟨r, hr, hmem⟩ := h.nextNonRoot_some he
      rw [popNonroot_eq s h r hr] at hpop
      rw [← Option.some.inj hpop]
      exact ⟨h.erase_everywhere r, Or.inr (Or.inr ⟨r, hmem, rfl⟩)⟩
  | popRoot _ hpop =>
    by_cases he : s.samples = []
    · rw [popRoot_of_empty s he] at hpop
      rw [← Option.some.inj hpop]
      exact ⟨h, Or.inl rfl⟩
    · obtain ⟨r, hr, hmem⟩ := h.nextRoot_some he
      rw [popRoot_eq s h r hr] at hpop
      rw [← Option.some.inj hpop]
      exact ⟨h.erase_everywhere r, Or.inr (Or.inr ⟨r, hmem, rfl⟩)⟩

/-- A call of `simplify(from, to)` keeps the invariant, and it leaves the set as it
was or promotes one interval sample. -/
theorem simplifyStep_closed {s s' : SampleSet α} (h : Inv s) (hstep : SimplifyStep s s') :
    Inv s' ∧
    (s' = s ∨ ∃ x n, x ∈ s.IRqueue ∧ x.isRoot = n.isRoot ∧
      n.isNumericRepresentation = true ∧ n.value = x.value ∧ s' = s.promoted x n) := by
  cases hstep with
  | simplify from_ to_ b hk hv hsimp =>
    rcases simplify_some s s' from_ to_ b hsimp with ⟨_, he, _⟩ | ⟨hf, hit⟩
    · rw [he]
      exact ⟨h, Or.inl rfl⟩
    · have hroot := (simplifyIt_some s s' from_ to_ _ _ b hit).2.1
      rw [promote_eq s h from_ to_ hf hroot] at hit
      have : _ = s' := congrArg Prod.fst (Option.some.inj hit)
      rw [← this]
      exact ⟨h.promote from_ to_ hf hroot hk hv,
        Or.inr ⟨from_, to_, hf, hroot, hk, hv, rfl⟩⟩

/-- A call of bulk `simplify()` that returns keeps the invariant; every view but the
kind buckets is the old view with each interval sample replaced by what the sweep left
in its place, and `IRqueue` keeps the samples that were not numeric at their test. -/
theorem bulkStep_closed {s s' : SampleSet α} (h : Inv s) (hstep : BulkStep s s') :
    Inv s' ∧
    ∃ (collapses : RealAlgebraicNumber α → Bool) (fresh : RealAlgebraicNumber α → Nat),
      s'.samples = s.samples.map
        (fun y => if y ∈ s.IRqueue then swept collapses fresh y else y) ∧
      s'.queue = s.queue.map
        (fun y => if y ∈ s.IRqueue then swept collapses fresh y else y) ∧
      s'.rootQueue = s.rootQueue.map
        (fun y => if y ∈ s.IRqueue then swept collapses fresh y else y) ∧
      s'.nonRootQueue = s.nonRootQueue.map
        (fun y => if y ∈ s.IRqueue then swept collapses fresh y else y) ∧
      s'.IRqueue = (s.IRqueue.map (examined collapses)).filter (fun e => !e.isNumeric) := by
  cases hstep with
  | simplify collapses fresh res hres =>
    obtain ⟨hfatal, hret⟩ := simplifyBulk_closed collapses fresh s h
    by_cases hlast : ∃ x, s.IRqueue.getLast? = some x ∧ (examined collapses x).isNumeric = true
    · rw [hfatal hlast] at hres
      exact Outcome.noConfusion hres
    · have hall : ∀ x, s.IRqueue.getLast? = some x →
          (examined collapses x).isNumeric = false := by
        intro x hx
        cases hn : (examined collapses x).isNumeric
        · rfl
        · exact absurd ⟨x, hx, hn⟩ hlast
      obtain ⟨res', hres', hinv, h1, h2, h3, h4, _, h6, _⟩ := hret hall
      rw [hres'] at hres
      have he : res' = res := Outcome.returned.inj hres
      rw [← he]
      exact ⟨hinv, collapses, fresh, h1, h2, h3, h4, h6⟩

end SampleSet

/-! ## The buckets and the order of `queue` -/

section order
variable {α : Type} [LinearOrder α]

/-- Erasing an element and taking a sublist by a test can be done in either order. -/
theorem filter_erase_of_nodup {β : Type} [DecidableEq β] (p : β → Bool) (l : List β) (r : β)
    (hn : l.Nodup) : (l.erase r).filter p = (l.filter p).erase r := by
  rw [hn.erase_eq_filter, (hn.filter p).erase_eq_filter, List.filter_filter, List.filter_filter]
  congr 1
  funext x
  exact Bool.and_comm _ _

/-- A map that keeps the test commutes with taking the sublist. -/
theorem filter_map_of_same {β : Type} (p : β → Bool) (f : β → β) (l : List β)
    (hp : ∀ y ∈ l, p (f y) = p y) : (l.map f).filter p = (l.filter p).map f := by
  induction l with
  | nil => rfl
  | cons a t ih =>
    have ha := hp a (List.mem_cons_self _ _)
    have ih' := ih (fun y hy => hp y (List.mem_cons_of_mem _ hy))
    cases hpa : p a
    · simp [List.filter_cons, ha, hpa, ih']
    · simp [List.filter_cons, ha, hpa, ih']

/-- Replacing a handle by one of the same class commutes with taking the sublist. -/
theorem filter_replaceObject_same (p : RealAlgebraicNumber α → Bool)
    (x e : RealAlgebraicNumber α) (l : List (RealAlgebraicNumber α)) (hp : p e = p x) :
    (replaceObject x e l).filter p = replaceObject x e (l.filter p) := by
  unfold replaceObject
  apply filter_map_of_same
  intro y _
  by_cases hy : y = x
  · simp [hy, hp]
  · simp [hy]

/-- Replacing a handle of the class by one outside the class erases it from the
sublist. -/
theorem filter_replaceObject_out (p : RealAlgebraicNumber α → Bool)
    (x e : RealAlgebraicNumber α) (l : List (RealAlgebraicNumber α)) (hn : l.Nodup)
    (he : p e = false) : (replaceObject x e l).filter p = (l.filter p).erase x := by
  induction l with
  | nil => rfl
  | cons a t ih =>
    rw [List.nodup_cons] at hn
    have ih' := ih hn.2
    unfold replaceObject at ih' ⊢
    by_cases ha : a = x
    · subst ha
      have hrest : t.map (fun y => if y = a then e else y) = t :=
        replaceObject_of_not_mem a e t hn.1
      cases hpa : p a
      · have hnot : a ∉ t.filter p := fun hm => hn.1 (List.mem_filter.1 hm).1
        simp [List.filter_cons, he, hpa, hrest, List.erase_of_not_mem hnot]
      · simp [List.filter_cons, he, hpa, hrest]
    · cases hpa : p a
      · simp [List.filter_cons, ha, hpa, ih']
      · simp [List.filter_cons, ha, hpa, ih']

end order

namespace SampleSet
variable {α : Type} [LinearOrder α]

theorem Reachable.toWithBulk {s : SampleSet α} (h : Reachable s) : ReachableWithBulk s := by
  induction h with
  | empty => exact ReachableWithBulk.empty
  | insert s r fresh _ ih => exact ReachableWithBulk.plain _ _ ih (PlainStep.insert s r fresh)
  | remove s s' position next _ hstep ih =>
    exact ReachableWithBulk.plain _ _ ih (PlainStep.remove s s' position next hstep)
  | pop s s' _ hstep ih => exact ReachableWithBulk.plain _ _ ih (PlainStep.pop s s' hstep)
  | popNR s s' _ hstep ih => exact ReachableWithBulk.plain _ _ ih (PlainStep.popNR s s' hstep)
  | popNonroot s s' _ hstep ih =>
    exact ReachableWithBulk.plain _ _ ih (PlainStep.popNonroot s s' hstep)
  | popRoot s s' _ hstep ih =>
    exact ReachableWithBulk.plain _ _ ih (PlainStep.popRoot s s' hstep)
  | simplify s s' from_ to_ b _ hk hv hstep ih =>
    exact ReachableWithBulk.simplify _ _ ih (SimplifyStep.simplify s s' from_ to_ b hk hv hstep)

theorem ReachableWithoutSimplify.withBulk {s : SampleSet α}
    (h : ReachableWithoutSimplify s) : ReachableWithBulk s := by
  induction h with
  | empty => exact ReachableWithBulk.empty
  | plain s s' _ hstep ih => exact ReachableWithBulk.plain _ _ ih hstep

/-- A state reached by plain calls is reachable. -/
theorem ReachableWithoutSimplify.toReachable {s : SampleSet α}
    (h : ReachableWithoutSimplify s) : Reachable s := by
  induction h with
  | empty => exact Reachable.empty
  | plain s s' _ hstep ih =>
    cases hstep with
    | insert r fresh => exact Reachable.insert s r fresh ih
    | remove _ position next hrem => exact Reachable.remove s _ position next ih hrem
    | pop _ hpop => exact Reachable.pop s _ ih hpop
    | popNR _ hpop => exact Reachable.popNR s _ ih hpop
    | popNonroot _ hpop => exact Reachable.popNonroot s _ ih hpop
    | popRoot _ hpop => exact Reachable.popRoot s _ ih hpop

/-- Every state reached with bulk `simplify()` among the operations satisfies the view
invariant. -/
theorem ReachableWithBulk.views_consistent {s : SampleSet α} (h : ReachableWithBulk s) :
    Inv s := by
  induction h with
  | empty => exact Inv.empty
  | plain s s' _ hstep ih => exact (plainStep_closed ih hstep).1
  | simplify s s' _ hstep ih => exact (simplifyStep_closed ih hstep).1
  | bulk s s' _ hstep ih => exact (bulkStep_closed ih hstep).1

/-- Inserting a list of samples needs no call of `simplify`. -/
theorem ReachableWithoutSimplify.of_insertAll {s : SampleSet α} (h : ReachableWithoutSimplify s)
    (rs : List (RealAlgebraicNumber α × Nat)) : ReachableWithoutSimplify (s.insertAll rs) := by
  induction rs generalizing s with
  | nil => exact h
  | cons a t ih =>
    obtain ⟨r, fresh⟩ := a
    exact ih (ReachableWithoutSimplify.plain _ _ h (PlainStep.insert s r fresh))

end SampleSet

namespace SampleSet
variable {α : Type} [LinearOrder α]

/-- Storing a sample keeps the buckets in the order of `queue`. -/
theorem followsQueue_extended (s : SampleSet α) (x : RealAlgebraicNumber α)
    (h : FollowsQueue s) : FollowsQueue (s.extended x) := by
  obtain ⟨h1, h2, h3⟩ := h
  unfold FollowsQueue extended
  refine ⟨?_, ?_, ?_⟩
  · cases hk : x.isNumericRepresentation <;> simp [List.filter_append, hk, ← h1]
  · cases hk : x.isRoot <;> simp [List.filter_append, hk, ← h2]
  · cases hk : x.isRoot <;> simp [List.filter_append, hk, ← h3]

/-- Storing a sample keeps `NRqueue` in the order of `queue`. -/
theorem numericOrder_extended (s : SampleSet α) (x : RealAlgebraicNumber α)
    (h : s.NRqueue = s.queue.filter (fun y => y.isNumericRepresentation)) :
    (s.extended x).NRqueue =
      (s.extended x).queue.filter (fun y => y.isNumericRepresentation) := by
  unfold extended
  cases hk : x.isNumericRepresentation <;> simp [List.filter_append, hk, ← h]

/-- Erasing a sample keeps the buckets in the order of `queue`. -/
theorem followsQueue_erased (s : SampleSet α) (hi : Inv s) (r : RealAlgebraicNumber α)
    (h : FollowsQueue s) : FollowsQueue (s.erased r) := by
  obtain ⟨h1, h2, h3⟩ := h
  unfold FollowsQueue erased
  refine ⟨?_, ?_, ?_⟩
  · simp only []
    rw [filter_erase_of_nodup _ _ _ hi.queue.1, ← h1]
  · simp only []
    rw [filter_erase_of_nodup _ _ _ hi.queue.1, ← h2]
  · simp only []
    rw [filter_erase_of_nodup _ _ _ hi.queue.1, ← h3]

/-- Erasing a sample keeps `NRqueue` in the order of `queue`. -/
theorem numericOrder_erased (s : SampleSet α) (hi : Inv s) (r : RealAlgebraicNumber α)
    (h : s.NRqueue = s.queue.filter (fun y => y.isNumericRepresentation)) :
    (s.erased r).NRqueue = (s.erased r).queue.filter (fun y => y.isNumericRepresentation) := by
  unfold erased
  simp only []
  rw [filter_erase_of_nodup _ _ _ hi.queue.1, ← h]

/-- A promotion keeps `IRqueue` and the root buckets in the order of `queue`. -/
theorem followsQueue_promoted (s : SampleSet α) (hi : Inv s) (x n : RealAlgebraicNumber α)
    (hroot : x.isRoot = n.isRoot) (hk : n.isNumericRepresentation = true)
    (h : FollowsQueue s) : FollowsQueue (s.promoted x n) := by
  obtain ⟨h1, h2, h3⟩ := h
  unfold FollowsQueue promoted
  refine ⟨?_, ?_, ?_⟩
  · simp only []
    rw [filter_replaceObject_out _ x n s.queue hi.queue.1 (by simp [hk]), ← h1]
  · simp only []
    rw [filter_replaceObject_same _ x n s.queue hroot.symm, ← h2]
  · simp only []
    rw [filter_replaceObject_same _ x n s.queue (by simp [hroot]), ← h3]

end SampleSet

namespace SampleSet
variable {α : Type} [LinearOrder α]

/-- The interval samples that are left in a list after the sweep of bulk `simplify()`
are the interval samples of the list that were not numeric at their test. -/
theorem filter_swept (collapses : RealAlgebraicNumber α → Bool)
    (fresh : RealAlgebraicNumber α → Nat) (ir l : List (RealAlgebraicNumber α))
    (hl : ∀ y ∈ l, y ∈ ir ↔ y.isNumericRepresentation = false) :
    (l.map (fun y => if y ∈ ir then swept collapses fresh y else y)).filter
        (fun x => !x.isNumericRepresentation) =
      ((l.filter (fun x => !x.isNumericRepresentation)).map (examined collapses)).filter
        (fun e => !e.isNumeric) := by
  induction l with
  | nil => rfl
  | cons a t ih =>
    have ih' := ih (fun y hy => hl y (List.mem_cons_of_mem _ hy))
    have ha := hl a (List.mem_cons_self _ _)
    cases hk : a.isNumericRepresentation
    · have hmem : a ∈ ir := ha.2 hk
      cases hn : (examined collapses a).isNumeric
      · have hsw : swept collapses fresh a = examined collapses a := by simp [swept, hn]
        have hke : (examined collapses a).isNumericRepresentation = false := by
          rw [examined_isNumericRepresentation, hk]
        simp [List.filter_cons, hmem, hk, hn, hsw, hke, ih']
      · have hsw : (swept collapses fresh a).isNumericRepresentation = true := by
          simp [swept, hn, numericCopy, RealAlgebraicNumberNR.create,
            RealAlgebraicNumber.isNumericRepresentation]
        simp [List.filter_cons, hmem, hk, hn, hsw, ih']
    · have hmem : a ∉ ir := fun hm => by
        have := ha.1 hm
        rw [hk] at this
        exact Bool.noConfusion this
      simp [List.filter_cons, hmem, hk, ih']

/-- A sweep of bulk `simplify()` keeps `IRqueue` and the root buckets in the order of
`queue`. -/
theorem followsQueue_bulk (s s' : SampleSet α) (hi : Inv s)
    (collapses : RealAlgebraicNumber α → Bool) (fresh : RealAlgebraicNumber α → Nat)
    (hq : s'.queue = s.queue.map
      (fun y => if y ∈ s.IRqueue then swept collapses fresh y else y))
    (hr : s'.rootQueue = s.rootQueue.map
      (fun y => if y ∈ s.IRqueue then swept collapses fresh y else y))
    (hn : s'.nonRootQueue = s.nonRootQueue.map
      (fun y => if y ∈ s.IRqueue then swept collapses fresh y else y))
    (hir : s'.IRqueue = (s.IRqueue.map (examined collapses)).filter (fun e => !e.isNumeric))
    (h : FollowsQueue s) : FollowsQueue s' := by
  obtain ⟨h1, h2, h3⟩ := h
  have hsame : ∀ y, (if y ∈ s.IRqueue then swept collapses fresh y else y).isRoot = y.isRoot := by
    intro y
    split_ifs
    · exact swept_isRoot collapses fresh y
    · rfl
  refine ⟨?_, ?_, ?_⟩
  · rw [hir, hq, filter_swept collapses fresh s.IRqueue s.queue, ← h1]
    intro y hy
    have hy' : y ∈ s.samples := (hi.mem_queue y).1 hy
    constructor
    · intro hm
      simpa using ((hi.IR.2 y).1 hm).2
    · intro hk
      exact ((hi.kind_bucket y hy').2 hk).1
  · rw [hr, hq, filter_map_of_same _ _ _ (fun y _ => hsame y), ← h2]
  · rw [hn, hq, filter_map_of_same _ _ _ (fun y _ => by simp [hsame y]), ← h3]

/-- In every state reached, bulk `simplify()` included, `IRqueue`, `rootQueue` and
`nonRootQueue` hold their samples in the order of `queue`. -/
theorem ReachableWithBulk.followsQueue {s : SampleSet α} (h : ReachableWithBulk s) :
    FollowsQueue s := by
  induction h with
  | empty => exact ⟨rfl, rfl, rfl⟩
  | plain s s' hs hstep ih =>
    have hi := hs.views_consistent
    rcases (plainStep_closed hi hstep).2 with he | ⟨x, _, he⟩ | ⟨r, _, he⟩
    · rw [he]; exact ih
    · rw [he]; exact followsQueue_extended s x ih
    · rw [he]; exact followsQueue_erased s hi r ih
  | simplify s s' hs hstep ih =>
    have hi := hs.views_consistent
    rcases (simplifyStep_closed hi hstep).2 with he | ⟨x, n, _, hroot, hk, _, he⟩
    · rw [he]; exact ih
    · rw [he]; exact followsQueue_promoted s hi x n hroot hk ih
  | bulk s s' hs hstep ih =>
    have hi := hs.views_consistent
    obtain ⟨_, collapses, fresh, _, hq, hr, hn, hir⟩ := bulkStep_closed hi hstep
    exact followsQueue_bulk s s' hi collapses fresh hq hr hn hir ih

/-- As long as `simplify` has not been called, `NRqueue` holds its samples in the order
of `queue`. -/
theorem ReachableWithoutSimplify.numericOrder {s : SampleSet α}
    (h : ReachableWithoutSimplify s) :
    s.NRqueue = s.queue.filter (fun y => y.isNumericRepresentation) := by
  induction h with
  | empty => rfl
  | plain s s' hs hstep ih =>
    have hi := hs.toReachable.inv
    rcases (plainStep_closed hi hstep).2 with he | ⟨x, _, he⟩ | ⟨r, _, he⟩
    · rw [he]; exact ih
    · rw [he]; exact numericOrder_extended s x ih
    · rw [he]; exact numericOrder_erased s hi r ih

/-- Under the view invariant `NRqueue` holds the numeric samples of `queue`, each once,
in some order. -/
theorem Inv.numeric_perm {s : SampleSet α} (h : Inv s) :
    List.Perm s.NRqueue (s.queue.filter (fun y => y.isNumericRepresentation)) := by
  rw [List.perm_ext_iff_of_nodup h.NR.1 (h.queue.1.filter _)]
  intro a
  rw [h.NR.2 a, List.mem_filter, h.mem_queue a]

end SampleSet

/-! ## The class of a stored value across a call -/

namespace SampleSet
variable {α : Type} [LinearOrder α]

/-- A call of an operation other than `simplify` keeps the handle of every value that is
stored before and after the call. -/
theorem plainStep_keeps_handle {s s' : SampleSet α} (h : Inv s) (hstep : PlainStep s s')
    (x y : RealAlgebraicNumber α) (hx : x ∈ s.samples) (hy : y ∈ s'.samples)
    (hv : y.value = x.value) : y = x := by
  rcases (plainStep_closed h hstep).2 with he | ⟨x0, hnew, he⟩ | ⟨r, _, he⟩
  · rw [he] at hy
    exact eq_of_value_eq s.samples h.sorted y x hy hx hv
  · rw [he] at hy
    rcases (mem_listInsert _ _ _ _).1 hy with h0 | h0
    · exact absurd (h0 ▸ hv).symm (hnew x hx)
    · exact eq_of_value_eq s.samples h.sorted y x h0 hx hv
  · rw [he] at hy
    exact eq_of_value_eq s.samples h.sorted y x (List.mem_of_mem_erase hy) hx hv

/-- A call of `simplify(from, to)` keeps the root flag of every stored value, and a
value that is stored in numeric representation stays so. -/
theorem simplifyStep_keeps_class {s s' : SampleSet α} (h : Inv s)
    (hstep : SimplifyStep s s') (x y : RealAlgebraicNumber α) (hx : x ∈ s.samples)
    (hy : y ∈ s'.samples) (hv : y.value = x.value) :
    y.isRoot = x.isRoot ∧
    (x.isNumericRepresentation = true → y.isNumericRepresentation = true) := by
  rcases (simplifyStep_closed h hstep).2 with he | ⟨f, n, hf, hroot, hk, hval, he⟩
  · rw [he] at hy
    rw [eq_of_value_eq s.samples h.sorted y x hy hx hv]
    exact ⟨rfl, fun hh => hh⟩
  · rw [he] at hy
    rcases mem_replaceObject f n y s.samples hy with h0 | h0
    · have hfs : f ∈ s.samples := ((h.IR.2 f).1 hf).1
      have hxf : x = f :=
        eq_of_value_eq s.samples h.sorted x f hx hfs (by rw [← hv, h0, hval])
      rw [h0, hxf]
      exact ⟨hroot.symm, fun _ => hk⟩
    · rw [eq_of_value_eq s.samples h.sorted y x h0 hx hv]
      exact ⟨rfl, fun hh => hh⟩

/-- A call of bulk `simplify()` keeps the root flag of every stored value, and a value
that is stored in numeric representation stays so. -/
theorem bulkStep_keeps_class {s s' : SampleSet α} (h : Inv s)
    (hstep : BulkStep s s') (x y : RealAlgebraicNumber α) (hx : x ∈ s.samples)
    (hy : y ∈ s'.samples) (hv : y.value = x.value) :
    y.isRoot = x.isRoot ∧
    (x.isNumericRepresentation = true → y.isNumericRepresentation = true) := by
  obtain ⟨_, collapses, fresh, hs, _⟩ := bulkStep_closed h hstep
  rw [hs] at hy
  obtain ⟨a, ha, hay⟩ := List.mem_map.1 hy
  have hva : (if a ∈ s.IRqueue then swept collapses fresh a else a).value = a.value := by
    split_ifs
    · exact swept_value collapses fresh a
    · rfl
  have hax : a = x :=
    eq_of_value_eq s.samples h.sorted a x ha hx (by rw [← hva, hay, hv])
  rw [hax] at hay
  rw [← hay]
  constructor
  · split_ifs
    · exact swept_isRoot collapses fresh x
    · rfl
  · intro hk
    have hnot : x ∉ s.IRqueue := ((h.kind_bucket x hx).1 hk).2
    simp [hnot, hk]

/-- The buckets of a value before and after a call that keeps its root flag and does not
take it out of the numeric representation. -/
theorem Inv.buckets_of_class {s s' : SampleSet α} (h : Inv s) (h' : Inv s')
    (x y : RealAlgebraicNumber α) (hx : x ∈ s.samples) (hy : y ∈ s'.samples)
    (hroot : y.isRoot = x.isRoot)
    (hkind : x.isNumericRepresentation = true → y.isNumericRepresentation = true) :
    (x ∈ s.NRqueue → y ∈ s'.NRqueue) ∧ (y ∈ s'.IRqueue → x ∈ s.IRqueue) ∧
    (y ∈ s'.rootQueue ↔ x ∈ s.rootQueue) ∧
    (y ∈ s'.nonRootQueue ↔ x ∈ s.nonRootQueue) := by
  refine ⟨?_, ?_, ?_, ?_⟩
  · intro hm
    exact (h'.NR.2 y).2 ⟨hy, hkind ((h.NR.2 x).1 hm).2⟩
  · intro hm
    have hky : y.isNumericRepresentation = false := by simpa using ((h'.IR.2 y).1 hm).2
    cases hkx : x.isNumericRepresentation
    · exact ((h.kind_bucket x hx).2 hkx).1
    · rw [hkind hkx] at hky
      exact Bool.noConfusion hky
  · rw [h'.root.2 y, h.root.2 x]
    simp [hx, hy, hroot]
  · rw [h'.nonRoot.2 y, h.nonRoot.2 x]
    simp [hx, hy, hroot]

end SampleSet

section claims
variable {α : Type} [LinearOrder α]
open SampleSet

/-- C27 (classification invariant): in every reachable state, bulk `simplify()` among
the operations, every element of `NRqueue` has numeric representation, every element of
`IRqueue` has interval representation, every element of `rootQueue` is a root and no
element of `nonRootQueue` is one.  Across one call of `insert`, `remove` or a pop, a
value that is stored before and after the call is in the same four buckets as before.
Across one call of `simplify(from, to)` or of `simplify()`, a stored value keeps its root
bucket, and its kind bucket changes at most from `IRqueue` to `NRqueue`. -/
theorem C27_classification (s : SampleSet α) (h : ReachableWithBulk s) :
    (∀ x ∈ s.NRqueue, x.isNumericRepresentation = true) ∧
    (∀ x ∈ s.IRqueue, x.isNumericRepresentation = false) ∧
    (∀ x ∈ s.rootQueue, x.isRoot = true) ∧
    (∀ x ∈ s.nonRootQueue, x.isRoot = false) ∧
    (∀ s' x y, PlainStep s s' → x ∈ s.samples → y ∈ s'.samples → y.value = x.value →
      (y ∈ s'.NRqueue ↔ x ∈ s.NRqueue) ∧ (y ∈ s'.IRqueue ↔ x ∈ s.IRqueue) ∧
      (y ∈ s'.rootQueue ↔ x ∈ s.rootQueue) ∧
      (y ∈ s'.nonRootQueue ↔ x ∈ s.nonRootQueue)) ∧
    (∀ s' x y, SimplifyStep s s' ∨ BulkStep s s' →
      x ∈ s.samples → y ∈ s'.samples → y.value = x.value →
      (x ∈ s.NRqueue → y ∈ s'.NRqueue) ∧ (y ∈ s'.IRqueue → x ∈ s.IRqueue) ∧
      (y ∈ s'.rootQueue ↔ x ∈ s.rootQueue) ∧
      (y ∈ s'.nonRootQueue ↔ x ∈ s.nonRootQueue)) := by
  have hi := h.views_consistent
  refine ⟨fun x hx => ((hi.NR.2 x).1 hx).2, fun x hx => by simpa using ((hi.IR.2 x).1 hx).2,
    fun x hx => ((hi.root.2 x).1 hx).2, fun x hx => by simpa using ((hi.nonRoot.2 x).1 hx).2,
    ?_, ?_⟩
  · intro s' x y hstep hx hy hv
    have hi' := (plainStep_closed hi hstep).1
    have hyx := plainStep_keeps_handle hi hstep x y hx hy hv
    subst hyx
    refine ⟨?_, ?_, ?_, ?_⟩
    · rw [hi'.NR.2 y, hi.NR.2 y]
      simp [hx, hy]
    · rw [hi'.IR.2 y, hi.IR.2 y]
      simp [hx, hy]
    · rw [hi'.root.2 y, hi.root.2 y]
      simp [hx, hy]
    · rw [hi'.nonRoot.2 y, hi.nonRoot.2 y]
      simp [hx, hy]
  · intro s' x y hstep hx hy hv
    rcases hstep with hstep | hstep
    · obtain ⟨hroot, hkind⟩ := simplifyStep_keeps_class hi hstep x y hx hy hv
      exact hi.buckets_of_class (simplifyStep_closed hi hstep).1 x y hx hy hroot hkind
    · obtain ⟨hroot, hkind⟩ := bulkStep_keeps_class hi hstep x y hx hy hv
      exact hi.buckets_of_class (bulkStep_closed hi hstep).1 x y hx hy hroot hkind

end claims

section claims
variable {α : Type} [LinearOrder α]
open SampleSet

/-- C27 at `mixedSet`. -/
theorem C27_classification_witness :
    ReachableWithBulk mixedSet ∧
    ((∀ x ∈ mixedSet.NRqueue, x.isNumericRepresentation = true) ∧
    (∀ x ∈ mixedSet.IRqueue, x.isNumericRepresentation = false) ∧
    (∀ x ∈ mixedSet.rootQueue, x.isRoot = true) ∧
    (∀ x ∈ mixedSet.nonRootQueue, x.isRoot = false) ∧
    (∀ s' x y, PlainStep mixedSet s' → x ∈ mixedSet.samples → y ∈ s'.samples →
      y.value = x.value →
      (y ∈ s'.NRqueue ↔ x ∈ mixedSet.NRqueue) ∧ (y ∈ s'.IRqueue ↔ x ∈ mixedSet.IRqueue) ∧
      (y ∈ s'.rootQueue ↔ x ∈ mixedSet.rootQueue) ∧
      (y ∈ s'.nonRootQueue ↔ x ∈ mixedSet.nonRootQueue)) ∧
    (∀ s' x y, SimplifyStep mixedSet s' ∨ BulkStep mixedSet s' →
      x ∈ mixedSet.samples → y ∈ s'.samples → y.value = x.value →
      (x ∈ mixedSet.NRqueue → y ∈ s'.NRqueue) ∧ (y ∈ s'.IRqueue → x ∈ mixedSet.IRqueue) ∧
      (y ∈ s'.rootQueue ↔ x ∈ mixedSet.rootQueue) ∧
      (y ∈ s'.nonRootQueue ↔ x ∈ mixedSet.nonRootQueue))) :=
  ⟨mixedSet_reachable.toWithBulk, C27_classification mixedSet mixedSet_reachable.toWithBulk⟩

/-- The call that leads from `mixedSet` to `mixedSetPromoted`. -/
theorem mixedSet_simplify :
    mixedSet.simplify (intSample 1 (-1) true false) (numSample 50 (-1) true) =
      some (mixedSetPromoted, true) := by
  decide

/-- The set `mixedSetPromoted` is reachable. -/
theorem mixedSetPromoted_reachable : Reachable mixedSetPromoted :=
  Reachable.simplify mixedSet mixedSetPromoted (intSample 1 (-1) true false)
    (numSample 50 (-1) true) true mixedSet_reachable (by decide) (by decide) mixedSet_simplify

/-- The set `mixedSet` is reached by calls of `insert` alone. -/
theorem mixedSet_without_simplify : ReachableWithoutSimplify mixedSet :=
  ReachableWithoutSimplify.of_insertAll ReachableWithoutSimplify.empty _

/-- C28, as stated, fails: the reachable state `mixedSetPromoted` comes from `mixedSet`
by one call of `simplify(from, to)` for the interval root `-1`, the first sample of
`queue`.  The numeric samples of `queue` are, in the order of `queue`, `-1`, `0`, `4`,
but `NRqueue` holds them in the order `0`, `4`, `-1`. -/
theorem C28_promoted_sample_out_of_order :
    Reachable mixedSetPromoted ∧
    mixedSet.simplify (intSample 1 (-1) true false) (numSample 50 (-1) true) =
      some (mixedSetPromoted, true) ∧
    (mixedSetPromoted.queue.filter (fun x => x.isNumericRepresentation)).map
      (fun x => x.value) = [-1, 0, 4] ∧
    mixedSetPromoted.NRqueue.map (fun x => x.value) = [0, 4, -1] ∧
    mixedSetPromoted.NRqueue ≠
      mixedSetPromoted.queue.filter (fun x => x.isNumericRepresentation) :=
  ⟨mixedSetPromoted_reachable, by decide, by decide, by decide, by decide⟩

/-- C28, amended (kind buckets and the order of `queue`): in every reachable state, also
one reached through `simplify(from, to)` or `simplify()`, `IRqueue` is the sublist of
`queue` made of the samples in interval representation, in the order of `queue`, and
`NRqueue` holds the samples of `queue` in numeric representation, each once.  As long as
`simplify` has not been called, `NRqueue` is that sublist of `queue` in the order of
`queue` as well. -/
theorem C28_kind_buckets_order (s : SampleSet α) (h : ReachableWithBulk s) :
    s.IRqueue = s.queue.filter (fun x => !x.isNumericRepresentation) ∧
    List.Perm s.NRqueue (s.queue.filter (fun x => x.isNumericRepresentation)) ∧
    (ReachableWithoutSimplify s →
      s.NRqueue = s.queue.filter (fun x => x.isNumericRepresentation)) :=
  ⟨h.followsQueue.1, h.views_consistent.numeric_perm, fun hp => hp.numericOrder⟩

/-- C28, amended, at `mixedSet`. -/
theorem C28_kind_buckets_order_witness :
    ReachableWithBulk mixedSet ∧ ReachableWithoutSimplify mixedSet ∧
    mixedSet.IRqueue = mixedSet.queue.filter (fun x => !x.isNumericRepresentation) ∧
    List.Perm mixedSet.NRqueue (mixedSet.queue.filter (fun x => x.isNumericRepresentation)) ∧
    mixedSet.NRqueue = mixedSet.queue.filter (fun x => x.isNumericRepresentation) :=
  ⟨mixedSet_reachable.toWithBulk, mixedSet_without_simplify,
    (C28_kind_buckets_order mixedSet mixedSet_reachable.toWithBulk).1,
    (C28_kind_buckets_order mixedSet mixedSet_reachable.toWithBulk).2.1,
    (C28_kind_buckets_order mixedSet mixedSet_reachable.toWithBulk).2.2
      mixedSet_without_simplify⟩

/-- C29 (root buckets keep the order of `queue`): in every reachable state, also one
reached through `simplify(from, to)` or `simplify()`, `rootQueue` is the sublist of
`queue` made of the root samples and `nonRootQueue` is the sublist of `queue` made of the
other samples, each in the order of `queue`. -/
theorem C29_root_buckets_order (s : SampleSet α) (h : ReachableWithBulk s) :
    s.rootQueue = s.queue.filter (fun x => x.isRoot) ∧
    s.nonRootQueue = s.queue.filter (fun x => !x.isRoot) :=
  ⟨h.followsQueue.2.1, h.followsQueue.2.2⟩

/-- C29 at `mixedSetPromoted`, a state reached through `simplify(from, to)`. -/
theorem C29_root_buckets_order_witness :
    ReachableWithBulk mixedSetPromoted ∧
    mixedSetPromoted.rootQueue = mixedSetPromoted.queue.filter (fun x => x.isRoot) ∧
    mixedSetPromoted.nonRootQueue = mixedSetPromoted.queue.filter (fun x => !x.isRoot) :=
  ⟨mixedSetPromoted_reachable.toWithBulk,
    C29_root_buckets_order mixedSetPromoted mixedSetPromoted_reachable.toWithBulk⟩

/-- C30, as stated, fails: in scenario C the call `simplify(from, to)` for the stored
interval sample `2` succeeds, and afterwards `NRqueue` has one entry instead of none and
`IRqueue` has none instead of one. -/
theorem C30_kind_bucket_sizes_change :
    ∃ s', scenarioC.simplify (intSample 1 2 true false) (numSample 9 2 true) =
        some (s', true) ∧
      scenarioC.NRqueue.length = 0 ∧ s'.NRqueue.length = 1 ∧
      scenarioC.IRqueue.length = 1 ∧ s'.IRqueue.length = 0 :=
  ⟨SampleSet.promoted scenarioC (intSample 1 2 true false) (numSample 9 2 true),
    by decide, by decide, by decide, by decide, by decide⟩

/-- C30, amended (sizes across a successful `simplify(from, to)`): a call that returns
`true` leaves the number of entries of `samples`, `queue`, `rootQueue` and
`nonRootQueue` as it was, makes `NRqueue` one entry longer and `IRqueue` one entry
shorter, so that the two kind buckets together keep their size. -/
theorem C30_simplify_sizes (s s' : SampleSet α) (from_ to_ : RealAlgebraicNumber α)
    (h : s.simplify from_ to_ = some (s', true)) :
    s'.samples.length = s.samples.length ∧
    s'.queue.length = s.queue.length ∧
    s'.rootQueue.length = s.rootQueue.length ∧
    s'.nonRootQueue.length = s.nonRootQueue.length ∧
    s'.NRqueue.length = s.NRqueue.length + 1 ∧
    s'.IRqueue.length + 1 = s.IRqueue.length ∧
    s'.NRqueue.length + s'.IRqueue.length = s.NRqueue.length + s.IRqueue.length := by
  rcases simplify_some s s' from_ to_ true h with ⟨_, _, hb⟩ | ⟨_, hit⟩
  · exact Bool.noConfusion hb
  · obtain ⟨_, hlt, _, h1, h2, h3, h4, h5, h6⟩ :=
      (simplifyIt_some s s' from_ to_ _ _ true hit).2.2.2 rfl
    have hIR : s'.IRqueue.length + 1 = s.IRqueue.length := by
      rw [h4]
      exact List.length_eraseIdx_add_one hlt
    have hNR : s'.NRqueue.length = s.NRqueue.length + 1 := by
      rw [h3]
      simp
    refine ⟨by rw [h1, List.length_set], by rw [h2, List.length_set], ?_, ?_, hNR, hIR, ?_⟩
    · rw [h5]
      split_ifs
      · rw [List.length_set]
      · rfl
    · rw [h6]
      split_ifs
      · rfl
      · rw [List.length_set]
    · omega

/-- C30, amended, at scenario C. -/
theorem C30_simplify_sizes_witness :
    scenarioC.simplify (intSample 1 2 true false) (numSample 9 2 true) =
      some (SampleSet.promoted scenarioC (intSample 1 2 true false) (numSample 9 2 true),
        true) ∧
    (SampleSet.promoted scenarioC (intSample 1 2 true false)
        (numSample 9 2 true)).samples.length = scenarioC.samples.length ∧
    (SampleSet.promoted scenarioC (intSample 1 2 true false)
        (numSample 9 2 true)).NRqueue.length = scenarioC.NRqueue.length + 1 ∧
    (SampleSet.promoted scenarioC (intSample 1 2 true false)
        (numSample 9 2 true)).IRqueue.length + 1 = scenarioC.IRqueue.length :=
  ⟨by decide,
    (C30_simplify_sizes scenarioC _ (intSample 1 2 true false) (numSample 9 2 true)
      (by decide)).1,
    (C30_simplify_sizes scenarioC _ (intSample 1 2 true false) (numSample 9 2 true)
      (by decide)).2.2.2.2.1,
    (C30_simplify_sizes scenarioC _ (intSample 1 2 true false) (numSample 9 2 true)
      (by decide)).2.2.2.2.2.1⟩

end claims

/-! ## Peeks and the position returned by `insert` in reachable states -/

section claims
variable {α : Type} [LinearOrder α]
open SampleSet

/-- C21 (peeks are total on non-empty sets): in a reachable state (bulk `simplify()`
among the operations) with a non-empty `samples`, each of `next()`, `nextNR()`,
`nextNonRoot()` and `nextRoot()` returns a sample; the sample is the front of a
non-empty queue (`queue` for `next()`, the preferred bucket or, when that one is empty,
the other bucket for the three others), and it is an element of `samples`. -/
theorem C21_peeks_total (s : SampleSet α) (h : ReachableWithBulk s)
    (hne : s.samples ≠ []) :
    (∃ r, s.next = some r ∧ s.queue.head? = some r ∧ r ∈ s.samples) ∧
    (∃ r, s.nextNR = some r ∧
      (s.NRqueue.head? = some r ∨ (s.NRqueue = [] ∧ s.IRqueue.head? = some r)) ∧
      r ∈ s.samples) ∧
    (∃ r, s.nextNonRoot = some r ∧
      (s.nonRootQueue.head? = some r ∨ (s.nonRootQueue = [] ∧ s.rootQueue.head? = some r)) ∧
      r ∈ s.samples) ∧
    (∃ r, s.nextRoot = some r ∧
      (s.rootQueue.head? = some r ∨ (s.rootQueue = [] ∧ s.nonRootQueue.head? = some r)) ∧
      r ∈ s.samples) := by
  have hi := h.views_consistent
  refine ⟨hi.next_some hne, ?_, ?_, ?_⟩
  · obtain ⟨r, hr, hmem⟩ := hi.nextNR_some hne
    refine ⟨r, hr, ?_, hmem⟩
    rcases (nextNR_cases s r hr).2 with ⟨he, hh⟩ | ⟨_, hh⟩
    · exact Or.inr ⟨List.isEmpty_iff.1 he, hh⟩
    · exact Or.inl hh
  · obtain ⟨r, hr, hmem⟩ := hi.nextNonRoot_some hne
    refine ⟨r, hr, ?_, hmem⟩
    rcases (nextNonRoot_cases s r hr).2 with ⟨he, hh⟩ | ⟨_, hh⟩
    · exact Or.inr ⟨List.isEmpty_iff.1 he, hh⟩
    · exact Or.inl hh
  · obtain ⟨r, hr, hmem⟩ := hi.nextRoot_some hne
    refine ⟨r, hr, ?_, hmem⟩
    rcases (nextRoot_cases s r hr).2 with ⟨he, hh⟩ | ⟨_, hh⟩
    · exact Or.inr ⟨List.isEmpty_iff.1 he, hh⟩
    · exact Or.inl hh

/-- C21 at `mixedSet`, whose four peeks return `-1`, `0`, `0` and `-1`. -/
theorem C21_peeks_total_witness :
    ReachableWithBulk mixedSet ∧ mixedSet.samples ≠ [] ∧
    ((∃ r, mixedSet.next = some r ∧ mixedSet.queue.head? = some r ∧ r ∈ mixedSet.samples) ∧
    (∃ r, mixedSet.nextNR = some r ∧
      (mixedSet.NRqueue.head? = some r ∨
        (mixedSet.NRqueue = [] ∧ mixedSet.IRqueue.head? = some r)) ∧
      r ∈ mixedSet.samples) ∧
    (∃ r, mixedSet.nextNonRoot = some r ∧
      (mixedSet.nonRootQueue.head? = some r ∨
        (mixedSet.nonRootQueue = [] ∧ mixedSet.rootQueue.head? = some r)) ∧
      r ∈ mixedSet.samples) ∧
    (∃ r, mixedSet.nextRoot = some r ∧
      (mixedSet.rootQueue.head? = some r ∨
        (mixedSet.rootQueue = [] ∧ mixedSet.nonRootQueue.head? = some r)) ∧
      r ∈ mixedSet.samples)) :=
  ⟨mixedSet_reachable.toWithBulk, by decide,
    C21_peeks_total mixedSet mixedSet_reachable.toWithBulk (by decide)⟩

/-- C26 (returned position of `insert`): in every reachable state (bulk `simplify()`
among the operations) and for every input `r`, the position returned by `insert(r)` is
a valid index of `samples` after the call and the entry there has the value of `r`.
When `inserted` is true the entry is new (it was not stored before the call); when
`inserted` is false it is the entry that was at this position before the call. -/
theorem C26_returned_position (s : SampleSet α) (h : ReachableWithBulk s)
    (r : RealAlgebraicNumber α) (fresh : Nat) :
    ∃ x, (s.insert r fresh).1.samples[(s.insert r fresh).2.1]? = some x ∧
      x.value = r.value ∧
      (s.insert r fresh).2.1 < (s.insert r fresh).1.samples.length ∧
      ((s.insert r fresh).2.2 = true → x ∉ s.samples) ∧
      ((s.insert r fresh).2.2 = false → s.samples[(s.insert r fresh).2.1]? = some x) := by
  have hs := h.views_consistent.sorted
  by_cases hex : ∃ y ∈ s.samples, y.value = r.value
  · rw [insert_old s hs r fresh hex]
    have ht := (equalAt_lower_bound s.samples (insertedSample r fresh) hs).2
      (by rw [insertedSample_value]; exact hex)
    unfold equalAt at ht
    cases hk : s.samples[lower_bound s.samples (insertedSample r fresh) Less]? with
    | none => rw [hk] at ht; exact absurd ht (by simp)
    | some x =>
      rw [hk] at ht
      have hv : x.value = r.value := by
        rw [← insertedSample_value r fresh]
        exact (Equal_iff _ _).1 ht
      obtain ⟨hlt, _⟩ := List.getElem?_eq_some_iff.1 hk
      exact ⟨x, rfl, hv, hlt, fun hc => absurd hc (by simp), fun _ => rfl⟩
  · have hnew : ∀ y ∈ s.samples, y.value ≠ r.value := fun y hy hv => hex ⟨y, hy, hv⟩
    rw [insert_new s hs r fresh hnew]
    have hle := lower_bound_le_length s.samples (insertedSample r fresh) hs
    refine ⟨insertedSample r fresh, getElem?_listInsert _ _ _ hle, insertedSample_value r fresh,
      ?_, ?_, fun hc => absurd hc (by simp)⟩
    · simp only [length_listInsert]
      omega
    · intro _ hmem
      exact hnew _ hmem (insertedSample_value r fresh)

/-- C26 at `mixedSet` and the numeric input `0`, whose value is stored at position 1. -/
theorem C26_returned_position_witness :
    ReachableWithBulk mixedSet ∧
    (∃ x, (mixedSet.insert (numSample 9 0 true) 103).1.samples[
        (mixedSet.insert (numSample 9 0 true) 103).2.1]? = some x ∧
      x.value = (numSample 9 0 true).value ∧
      (mixedSet.insert (numSample 9 0 true) 103).2.1 <
        (mixedSet.insert (numSample 9 0 true) 103).1.samples.length ∧
      ((mixedSet.insert (numSample 9 0 true) 103).2.2 = true → x ∉ mixedSet.samples) ∧
      ((mixedSet.insert (numSample 9 0 true) 103).2.2 = false →
        mixedSet.samples[(mixedSet.insert (numSample 9 0 true) 103).2.1]? = some x)) :=
  ⟨mixedSet_reachable.toWithBulk,
    C26_returned_position mixedSet mixedSet_reachable.toWithBulk (numSample 9 0 true) 103⟩

end claims

/-! ## Bulk `simplify()`: how the run ends -/

namespace SampleSet
variable {α : Type} [LinearOrder α]

/-- The loop ends as soon as `irIter` is `end()`. -/
theorem simplifyLoopRun_end (collapses : RealAlgebraicNumber α → Bool)
    (fresh : RealAlgebraicNumber α → Nat) (fuel : Nat) (st : SimplifyState α)
    (hx : st.set.IRqueue[st.irIter]? = none) :
    simplifyLoopRun collapses fresh fuel st = (SweepEnd.returned, st) := by
  cases fuel <;> rw [simplifyLoopRun] <;> simp only [hx]

/-- One pass of the loop body, in terms of the examined object. -/
theorem simplifyLoopRun_pass (collapses : RealAlgebraicNumber α → Bool)
    (fresh : RealAlgebraicNumber α → Nat) (fuel : Nat) (st : SimplifyState α)
    (x : RealAlgebraicNumber α) (hx : st.set.IRqueue[st.irIter]? = some x) :
    simplifyLoopRun collapses fresh (fuel + 1) st =
      (if (examined collapses x).isNumeric = true then
        match (st.set.mutate x (examined collapses x)).simplifyIt (examined collapses x)
            (numericCopy collapses fresh x) st.irIter with
        | none =>
          (SweepEnd.promotionFatal,
            { set := st.set.mutate x (examined collapses x)
              irIter := st.irIter
              first := st.first.map (fun p =>
                (if p.1 = x then examined collapses x else p.1,
                 if p.2 = x then examined collapses x else p.2))
              second := st.second
              refined := st.refined ++
                [x].filter (fun y => !y.isNumeric && y.getRefinementCount == 0)
              iterations := st.iterations + 1 })
        | some (_, _, false) =>
          (SweepEnd.assertFalse,
            { set := st.set.mutate x (examined collapses x)
              irIter := st.irIter
              first := st.first.map (fun p =>
                (if p.1 = x then examined collapses x else p.1,
                 if p.2 = x then examined collapses x else p.2))
              second := st.second
              refined := st.refined ++
                [x].filter (fun y => !y.isNumeric && y.getRefinementCount == 0)
              iterations := st.iterations + 1 })
        | some (set2, irIter2, true) =>
          match set2.IRqueue[irIter2]? with
          | none =>
            (SweepEnd.iteratorAtEnd,
              { set := set2
                irIter := irIter2
                first := st.first.map (fun p =>
                  (if p.1 = x then examined collapses x else p.1,
                   if p.2 = x then examined collapses x else p.2))
                second := st.second
                refined := st.refined ++
                  [x].filter (fun y => !y.isNumeric && y.getRefinementCount == 0)
                iterations := st.iterations + 1 })
          | some key =>
            simplifyLoopRun collapses fresh fuel
              { set := set2
                irIter := irIter2
                first := mapAssign
                  (st.first.map (fun p =>
                    (if p.1 = x then examined collapses x else p.1,
                     if p.2 = x then examined collapses x else p.2)))
                  key (numericCopy collapses fresh x)
                second := true
                refined := st.refined ++
                  [x].filter (fun y => !y.isNumeric && y.getRefinementCount == 0)
                iterations := st.iterations + 1 }
      else
        simplifyLoopRun collapses fresh fuel
          { set := st.set.mutate x (examined collapses x)
            irIter := st.irIter + 1
            first := st.first.map (fun p =>
              (if p.1 = x then examined collapses x else p.1,
               if p.2 = x then examined collapses x else p.2))
            second := st.second
            refined := st.refined ++
              [x].filter (fun y => !y.isNumeric && y.getRefinementCount == 0)
            iterations := st.iterations + 1 }) := by
  rw [simplifyLoopRun]
  simp only [hx]
  by_cases hr : (!x.isNumeric && x.getRefinementCount == 0) = true
  · simp only [examined, numericCopy, hr, if_true, List.filter_cons, List.filter_nil]
  · have hm : st.set.mutate x x = st.set := by
      simp [SampleSet.mutate, replaceObject_self]
    have hf : st.first.map (fun p => (if p.1 = x then x else p.1, if p.2 = x then x else p.2)) =
        st.first := by
      conv_rhs => rw [← List.map_id st.first]
      apply List.map_congr_left
      intro p _
      by_cases h1 : p.1 = x <;> by_cases h2 : p.2 = x <;> simp [h1, h2, Prod.ext_iff]
    simp only [examined, numericCopy, hr, if_false, Bool.false_eq_true, List.filter_cons,
      List.filter_nil, List.append_nil, hm, hf]

/-- The two embeddings of the loop agree: `simplifyLoop` is `simplifyLoopRun` with the
fatal ends taken together and their loop states dropped. -/
theorem simplifyLoop_eq_run (collapses : RealAlgebraicNumber α → Bool)
    (fresh : RealAlgebraicNumber α → Nat) :
    ∀ (fuel : Nat) (st : SimplifyState α),
      simplifyLoop collapses fresh fuel st =
        (simplifyLoopRun collapses fresh fuel st).1.toOutcome
          (simplifyLoopRun collapses fresh fuel st).2 := by
  intro fuel
  induction fuel with
  | zero =>
    intro st
    rw [simplifyLoop, simplifyLoopRun]
    cases st.set.IRqueue[st.irIter]? <;> rfl
  | succ n ih =>
    intro st
    cases hx : st.set.IRqueue[st.irIter]? with
    | none =>
      rw [simplifyLoop_end _ _ _ _ hx, simplifyLoopRun_end _ _ _ _ hx]
      rfl
    | some x =>
      rw [simplifyLoop_pass _ _ _ _ x hx, simplifyLoopRun_pass _ _ _ _ x hx]
      split_ifs
      · split
        · rfl
        · rfl
        · split
          · rfl
          · exact ih _
      · exact ih _

/-- The two embeddings of bulk `simplify()` agree. -/
theorem simplifyBulk_eq_run (collapses : RealAlgebraicNumber α → Bool)
    (fresh : RealAlgebraicNumber α → Nat) (s : SampleSet α) :
    s.simplifyBulk collapses fresh =
      (s.simplifyBulkRun collapses fresh).1.toOutcome (s.simplifyBulkRun collapses fresh).2 := by
  unfold simplifyBulk simplifyBulkRun
  split_ifs
  · rfl
  · exact simplifyLoop_eq_run collapses fresh _ _

end SampleSet

namespace SampleSet
variable {α : Type} [LinearOrder α]

/-- The loop of bulk `simplify()` from a loop state whose iterator has `rest` in front of
it, for every state that satisfies the view invariant.  The run returns, or it ends at
the write through `*irIter` with `irIter` at `end()`, and it does the latter exactly if
the last sample of `rest` is numeric at its test; no assertion fails.  Either way
`refine()` has been called on the samples of `rest` that were neither numeric nor ever
refined, the loop body has been entered once per sample of `rest`, and the containers
have kept their sizes, the two kind buckets taken together. -/
theorem simplifyLoopRun_closed (collapses : RealAlgebraicNumber α → Bool)
    (fresh : RealAlgebraicNumber α → Nat) :
    ∀ (rest : List (RealAlgebraicNumber α)) (st : SimplifyState α)
      (done : List (RealAlgebraicNumber α)) (fuel : Nat),
      Inv st.set → st.set.IRqueue = done ++ rest → st.irIter = done.length →
      rest.length ≤ fuel →
      ((simplifyLoopRun collapses fresh fuel st).1 = SweepEnd.returned ∨
        (simplifyLoopRun collapses fresh fuel st).1 = SweepEnd.iteratorAtEnd) ∧
      ((simplifyLoopRun collapses fresh fuel st).1 = SweepEnd.iteratorAtEnd ↔
        ∃ x, rest.getLast? = some x ∧ (examined collapses x).isNumeric = true) ∧
      (simplifyLoopRun collapses fresh fuel st).2.refined = st.refined ++
        rest.filter (fun x => !x.isNumeric && x.getRefinementCount == 0) ∧
      (simplifyLoopRun collapses fresh fuel st).2.iterations = st.iterations + rest.length ∧
      Inv (simplifyLoopRun collapses fresh fuel st).2.set ∧
      (simplifyLoopRun collapses fresh fuel st).2.set.samples.length =
        st.set.samples.length ∧
      (simplifyLoopRun collapses fresh fuel st).2.set.queue.length = st.set.queue.length ∧
      (simplifyLoopRun collapses fresh fuel st).2.set.NRqueue.length +
          (simplifyLoopRun collapses fresh fuel st).2.set.IRqueue.length =
        st.set.NRqueue.length + st.set.IRqueue.length ∧
      (simplifyLoopRun collapses fresh fuel st).2.set.rootQueue.length +
          (simplifyLoopRun collapses fresh fuel st).2.set.nonRootQueue.length =
        st.set.rootQueue.length + st.set.nonRootQueue.length := by
  intro rest
  induction rest with
  | nil =>
    intro st done fuel hinv hIR hit _
    have hend : st.set.IRqueue[st.irIter]? = none := by
      rw [hIR, hit]
      simp
    rw [simplifyLoopRun_end _ _ _ _ hend]
    refine ⟨Or.inl rfl, ?_, by simp, by simp, hinv, rfl, rfl, rfl, rfl⟩
    constructor
    · intro hc
      exact SweepEnd.noConfusion hc
    · rintro ⟨x, hx, _⟩
      simp at hx
  | cons x rest ih =>
    intro st done fuel hinv hIR hit hfuel
    obtain ⟨f, rfl⟩ : ∃ f, fuel = f + 1 := ⟨fuel - 1, by simp at hfuel; omega⟩
    have hfuel' : rest.length ≤ f := by simp at hfuel; omega
    have hx : st.set.IRqueue[st.irIter]? = some x := by
      rw [hIR, hit, getElem?_append_length]
      rfl
    rw [simplifyLoopRun_pass collapses fresh f st x hx]
    have hnod : (done ++ x :: rest).Nodup := hIR ▸ hinv.IR.1
    have hxIR : x ∈ st.set.IRqueue := by rw [hIR]; simp
    have hxD : x ∉ done := fun hd => (List.nodup_append.1 hnod).2.2 hd (List.mem_cons_self _ _)
    have hxR : x ∉ rest := (List.nodup_cons.1 (List.nodup_append.1 hnod).2.1).1
    have hxs := (hinv.IR.2 x).1 hxIR
    have hxk : x.isNumericRepresentation = false := by simpa using hxs.2
    have hek : (examined collapses x).isNumericRepresentation = false := by
      rw [examined_isNumericRepresentation]; exact hxk
    have hinv1 : Inv (st.set.mutate x (examined collapses x)) :=
      hinv.mutate x _ hxIR (examined_value collapses x) (examined_isRoot collapses x) hek
    have hIR1 : (st.set.mutate x (examined collapses x)).IRqueue =
        done ++ examined collapses x :: rest := by
      simp only [SampleSet.mutate, hIR]
      exact replaceObject_append_cons x _ done rest hxD hxR
    have hnod1 : (done ++ examined collapses x :: rest).Nodup := hIR1 ▸ hinv1.IR.1
    have heD : examined collapses x ∉ done :=
      fun hd => (List.nodup_append.1 hnod1).2.2 hd (List.mem_cons_self _ _)
    have heIR : examined collapses x ∈ (st.set.mutate x (examined collapses x)).IRqueue := by
      rw [hIR1]; simp
    have hidx : (st.set.mutate x (examined collapses x)).IRqueue.indexOf
        (examined collapses x) = st.irIter := by
      rw [hIR1, hit]
      exact indexOf_append_cons_self done rest _ heD
    have hlast : ∀ y z t, (x :: y :: t).getLast? = some z ↔ (y :: t).getLast? = some z := by
      intro y z t
      rw [List.getLast?_cons_cons]
    have hlen1 : (st.set.mutate x (examined collapses x)).samples.length =
          st.set.samples.length ∧
        (st.set.mutate x (examined collapses x)).queue.length = st.set.queue.length ∧
        (st.set.mutate x (examined collapses x)).NRqueue.length = st.set.NRqueue.length ∧
        (st.set.mutate x (examined collapses x)).IRqueue.length = st.set.IRqueue.length ∧
        (st.set.mutate x (examined collapses x)).rootQueue.length =
          st.set.rootQueue.length ∧
        (st.set.mutate x (examined collapses x)).nonRootQueue.length =
          st.set.nonRootQueue.length := by
      simp [SampleSet.mutate, length_replaceObject]
    obtain ⟨m1, m2, m3, m4, m5, m6⟩ := hlen1
    by_cases hnum : (examined collapses x).isNumeric = true
    · have hprom := promote_eq _ hinv1 (examined collapses x) (numericCopy collapses fresh x)
        heIR rfl
      have hinv2 := hinv1.promote (examined collapses x) (numericCopy collapses fresh x)
        heIR rfl rfl rfl
      rw [hidx] at hprom
      simp only [hnum, if_true, hprom]
      have hIR2 : (st.set.mutate x (examined collapses x)).IRqueue.erase
          (examined collapses x) = done ++ rest := by
        rw [hIR1]
        exact erase_append_cons_self done rest _ heD
      have hkey : ((st.set.mutate x (examined collapses x)).IRqueue.erase
          (examined collapses x))[st.irIter]? = rest.head? := by
        rw [hIR2, hit, getElem?_append_length]
      have hIRlen : ((st.set.mutate x (examined collapses x)).IRqueue.erase
          (examined collapses x)).length + 1 = st.set.IRqueue.length := by
        rw [hIR2, hIR]
        simp
        omega
      simp only [hkey]
      cases hrest : rest with
      | nil =>
        simp only [List.head?_nil]
        refine ⟨Or.inr trivial, ?_, by simp, by simp, hinv2, ?_, ?_, ?_, ?_⟩
        · exact ⟨fun _ => ⟨x, by simp, hnum⟩, fun _ => trivial⟩
        · simp only [length_replaceObject]
          exact m1
        · simp only [length_replaceObject]
          exact m2
        · simp only [List.length_append, List.length_singleton]
          omega
        · simp only [length_replaceObject]
          omega
      | cons y t =>
        simp only [List.head?_cons]
        rw [hrest] at hIR2 hfuel'
        obtain ⟨i1, i2, i3, i4, i5, i6, i7, i8, i9⟩ := ih
          { set := { samples := replaceObject (examined collapses x)
                        (numericCopy collapses fresh x)
                        (st.set.mutate x (examined collapses x)).samples
                     queue := replaceObject (examined collapses x)
                        (numericCopy collapses fresh x)
                        (st.set.mutate x (examined collapses x)).queue
                     NRqueue := (st.set.mutate x (examined collapses x)).NRqueue ++
                        [numericCopy collapses fresh x]
                     IRqueue := (st.set.mutate x (examined collapses x)).IRqueue.erase
                        (examined collapses x)
                     nonRootQueue := replaceObject (examined collapses x)
                        (numericCopy collapses fresh x)
                        (st.set.mutate x (examined collapses x)).nonRootQueue
                     rootQueue := replaceObject (examined collapses x)
                        (numericCopy collapses fresh x)
                        (st.set.mutate x (examined collapses x)).rootQueue }
            irIter := st.irIter
            first := mapAssign
              (st.first.map (fun p =>
                (if p.1 = x then examined collapses x else p.1,
                 if p.2 = x then examined collapses x else p.2)))
              y (numericCopy collapses fresh x)
            second := true
            refined := st.refined ++
              [x].filter (fun y => !y.isNumeric && y.getRefinementCount == 0)
            iterations := st.iterations + 1 }
          done f hinv2 (by rw [hrest]; exact hIR2) hit (by rw [hrest]; exact hfuel')
        simp only [hrest] at i2 i3 i4
        refine ⟨i1, ?_, ?_, ?_, i5, ?_, ?_, ?_, ?_⟩
        · rw [i2]
          constructor
          · rintro ⟨z, hz, hzn⟩
            exact ⟨z, (hlast y z t).2 hz, hzn⟩
          · rintro ⟨z, hz, hzn⟩
            exact ⟨z, (hlast y z t).1 hz, hzn⟩
        · rw [i3]
          simp [List.filter_cons, List.append_assoc]
          split_ifs <;> simp
        · rw [i4]
          simp
          omega
        · rw [i6]
          simp only [length_replaceObject]
          exact m1
        · rw [i7]
          simp only [length_replaceObject]
          exact m2
        · rw [i8]
          simp only [List.length_append, List.length_singleton]
          omega
        · rw [i9]
          simp only [length_replaceObject]
          omega
    · have hnum' : (examined collapses x).isNumeric = false := by simpa using hnum
      simp only [hnum, if_false, Bool.false_eq_true]
      obtain ⟨i1, i2, i3, i4, i5, i6, i7, i8, i9⟩ := ih
        { set := st.set.mutate x (examined collapses x)
          irIter := st.irIter + 1
          first := st.first.map (fun p =>
            (if p.1 = x then examined collapses x else p.1,
             if p.2 = x then examined collapses x else p.2))
          second := st.second
          refined := st.refined ++
            [x].filter (fun y => !y.isNumeric && y.getRefinementCount == 0)
          iterations := st.iterations + 1 }
        (done ++ [examined collapses x]) f hinv1 (by simp [hIR1]) (by simp [hit]) hfuel'
      refine ⟨i1, ?_, ?_, ?_, i5, ?_, ?_, ?_, ?_⟩
      · rw [i2]
        cases hrest : rest with
        | nil =>
          constructor
          · rintro ⟨z, hz, _⟩
            simp at hz
          · rintro ⟨z, hz, hzn⟩
            simp at hz
            rw [← hz, hnum'] at hzn
            exact absurd hzn (by simp)
        | cons y t =>
          constructor
          · rintro ⟨z, hz, hzn⟩
            exact ⟨z, (hlast y z t).2 hz, hzn⟩
          · rintro ⟨z, hz, hzn⟩
            exact ⟨z, (hlast y z t).1 hz, hzn⟩
      · rw [i3]
        simp [List.filter_cons, List.append_assoc]
        split_ifs <;> simp
      · rw [i4]
        simp
        omega
      · rw [i6]
        exact m1
      · rw [i7]
        exact m2
      · rw [i8]
        simp only []
        omega
      · rw [i9]
        simp only []
        omega

end SampleSet

namespace SampleSet
variable {α : Type} [LinearOrder α]

/-- Under the view invariant an empty `samples` means an empty `IRqueue`. -/
theorem Inv.intervals_of_empty {s : SampleSet α} (h : Inv s) (he : s.samples = []) :
    s.IRqueue = [] := by
  cases hq : s.IRqueue with
  | nil => rfl
  | cons a t =>
    have := ((h.IR.2 a).1 (by rw [hq]; exact List.mem_cons_self _ _)).1
    rw [he] at this
    simp at this

/-- Bulk `simplify()` for every state that satisfies the view invariant: the run returns,
or it ends at the write through `*irIter` with `irIter` at `end()`, and it does the
latter exactly if the last interval sample is numeric at its test; no assertion fails.
Either way `refine()` has been called on the interval samples that were neither numeric
nor ever refined, the loop body has been entered once per interval sample, and the
containers have kept their sizes, the two kind buckets taken together. -/
theorem simplifyBulkRun_closed (collapses : RealAlgebraicNumber α → Bool)
    (fresh : RealAlgebraicNumber α → Nat) (s : SampleSet α) (h : Inv s) :
    ((s.simplifyBulkRun collapses fresh).1 = SweepEnd.returned ∨
      (s.simplifyBulkRun collapses fresh).1 = SweepEnd.iteratorAtEnd) ∧
    ((s.simplifyBulkRun collapses fresh).1 = SweepEnd.iteratorAtEnd ↔
      ∃ x, s.IRqueue.getLast? = some x ∧ (examined collapses x).isNumeric = true) ∧
    (s.simplifyBulkRun collapses fresh).2.refined =
      s.IRqueue.filter (fun x => !x.isNumeric && x.getRefinementCount == 0) ∧
    (s.simplifyBulkRun collapses fresh).2.iterations = s.IRqueue.length ∧
    Inv (s.simplifyBulkRun collapses fresh).2.set ∧
    (s.simplifyBulkRun collapses fresh).2.set.samples.length = s.samples.length ∧
    (s.simplifyBulkRun collapses fresh).2.set.queue.length = s.queue.length ∧
    (s.simplifyBulkRun collapses fresh).2.set.NRqueue.length +
        (s.simplifyBulkRun collapses fresh).2.set.IRqueue.length =
      s.NRqueue.length + s.IRqueue.length ∧
    (s.simplifyBulkRun collapses fresh).2.set.rootQueue.length +
        (s.simplifyBulkRun collapses fresh).2.set.nonRootQueue.length =
      s.rootQueue.length + s.nonRootQueue.length := by
  by_cases he : s.samples = []
  · have hIR := h.intervals_of_empty he
    have hrun : s.simplifyBulkRun collapses fresh = (SweepEnd.returned,
        { set := s, irIter := 0, first := [], second := false, refined := [],
          iterations := 0 }) := by
      simp [simplifyBulkRun, he]
    rw [hrun, hIR]
    refine ⟨Or.inl rfl, ?_, rfl, rfl, h, rfl, rfl, by simp [hIR], rfl⟩
    constructor
    · intro hc
      exact SweepEnd.noConfusion hc
    · rintro ⟨x, hx, _⟩
      simp at hx
  · have hemp : s.samples.isEmpty = false := by
      cases hl : s.samples with
      | nil => exact absurd hl he
      | cons a t => rfl
    have hloop := simplifyLoopRun_closed collapses fresh s.IRqueue
      { set := s, irIter := 0, first := [], second := false, refined := [], iterations := 0 }
      [] s.IRqueue.length h (by simp) (by simp) (le_refl _)
    unfold simplifyBulkRun
    simp only [hemp, Bool.false_eq_true, if_false]
    obtain ⟨h1, h2, h3, h4, h5, h6, h7, h8, h9⟩ := hloop
    exact ⟨h1, h2, by simpa using h3, by simpa using h4, h5, h6, h7, h8, h9⟩

/-- What a call of an operation other than `simplify` leaves in `IRqueue` was there
before, or it is an input of `insert` that is not numeric. -/
theorem plainStep_intervals {s s' : SampleSet α} (h : Inv s) (hstep : PlainStep s s')
    (x : RealAlgebraicNumber α) (hx : x ∈ s'.IRqueue) :
    x ∈ s.IRqueue ∨ x.isNumeric = false := by
  cases hstep with
  | insert r fresh =>
    rw [insert_unfold] at hx
    by_cases htest : equalAt s.samples (lower_bound s.samples (insertedSample r fresh) Less)
        (insertedSample r fresh) = true
    · rw [if_pos htest] at hx
      exact Or.inl hx
    · rw [if_neg htest] at hx
      simp only [] at hx
      by_cases hn : r.isNumeric = true
      · rw [if_pos hn] at hx
        exact Or.inl hx
      · rw [if_neg hn] at hx
        rcases List.mem_append.1 hx with h1 | h1
        · exact Or.inl h1
        · rw [List.mem_singleton] at h1
          have hn' : r.isNumeric = false := by simpa using hn
          have hr : insertedSample r fresh = r := by simp [insertedSample, hn']
          rw [h1, hr]
          exact Or.inr hn'
  | remove _ position next hrem =>
    cases hp : s.samples[position]? with
    | none =>
      rw [remove_of_invalid s position hp] at hrem
      exact Option.noConfusion hrem
    | some r =>
      rw [remove_eq s h position r hp] at hrem
      have : _ = s' := congrArg Prod.fst (Option.some.inj hrem)
      rw [← this] at hx
      exact Or.inl (List.mem_of_mem_erase hx)
  | pop _ hpop =>
    by_cases he : s.samples = []
    · rw [pop_of_empty s he] at hpop
      rw [← Option.some.inj hpop] at hx
      exact Or.inl hx
    · obtain ⟨r, _, hr, _⟩ := h.next_some he
      rw [pop_eq s h r hr] at hpop
      rw [← Option.some.inj hpop] at hx
      exact Or.inl (List.mem_of_mem_erase hx)
  | popNR _ hpop =>
    by_cases he : s.samples = []
    · rw [popNR_of_empty s he] at hpop
      rw [← Option.some.inj hpop] at hx
      exact Or.inl hx
    · obtain ⟨r, hr, _⟩ := h.nextNR_some he
      rw [popNR_eq s h r hr] at hpop
      rw [← Option.some.inj hpop] at hx
      exact Or.inl (List.mem_of_mem_erase hx)
  | popNonroot _ hpop =>
    by_cases he : s.samples = []
    · rw [popNonroot_of_empty s he] at hpop
      rw [← Option.some.inj hpop] at hx
      exact Or.inl hx
    · obtain ⟨r, hr, _⟩ := h.nextNonRoot_some he
      rw [popNonroot_eq s h r hr] at hpop
      rw [← Option.some.inj hpop] at hx
      exact Or.inl (List.mem_of_mem_erase hx)
  | popRoot _ hpop =>
    by_cases he : s.samples = []
    · rw [popRoot_of_empty s he] at hpop
      rw [← Option.some.inj hpop] at hx
      exact Or.inl hx
    · obtain ⟨r, hr, _⟩ := h.nextRoot_some he
      rw [popRoot_eq s h r hr] at hpop
      rw [← Option.some.inj hpop] at hx
      exact Or.inl (List.mem_of_mem_erase hx)

/-- In every reachable state the samples of `IRqueue` are not numeric: a numeric input
is stored as a numeric object by `insert`, and a sample that collapses during a sweep is
promoted in the same pass. -/
theorem ReachableWithBulk.intervals_not_numeric {s : SampleSet α} (h : ReachableWithBulk s) :
    ∀ x ∈ s.IRqueue, x.isNumeric = false := by
  induction h with
  | empty =>
    intro x hx
    exact absurd hx (List.not_mem_nil x)
  | plain s s' hs hstep ih =>
    intro x hx
    rcases plainStep_intervals hs.views_consistent hstep x hx with h1 | h1
    · exact ih x h1
    · exact h1
  | simplify s s' hs hstep ih =>
    intro x hx
    rcases (simplifyStep_closed hs.views_consistent hstep).2 with he | ⟨f, n, _, _, _, _, he⟩
    · rw [he] at hx
      exact ih x hx
    · rw [he] at hx
      exact ih x (List.mem_of_mem_erase hx)
  | bulk s s' hs hstep ih =>
    intro x hx
    obtain ⟨_, collapses, fresh, _, _, _, _, hir⟩ := bulkStep_closed hs.views_consistent hstep
    rw [hir] at hx
    simpa using (List.mem_filter.1 hx).2

end SampleSet

/-! ## Bulk `simplify()`: refinement, assertions and the length of the run -/

namespace SampleSet
variable {α : Type} [LinearOrder α]

/-- A run of bulk `simplify()` that returns ends in the state it returns. -/
theorem simplifyBulkRun_of_returned (collapses : RealAlgebraicNumber α → Bool)
    (fresh : RealAlgebraicNumber α → Nat) (s : SampleSet α) (res : SimplifyState α)
    (h : s.simplifyBulk collapses fresh = Outcome.returned res) :
    s.simplifyBulkRun collapses fresh = (SweepEnd.returned, res) := by
  rw [simplifyBulk_eq_run] at h
  generalize s.simplifyBulkRun collapses fresh = run at h
  obtain ⟨e, st⟩ := run
  cases e
  · exact congrArg (fun st => (SweepEnd.returned, st)) (Outcome.returned.inj h)
  · exact Outcome.noConfusion h
  · exact Outcome.noConfusion h
  · exact Outcome.noConfusion h
  · exact Outcome.noConfusion h

/-- The position `std::lower_bound` finds for a stored sample holds that very handle. -/
theorem Inv.lower_bound_lands {s : SampleSet α} (h : Inv s) (r : RealAlgebraicNumber α)
    (hr : r ∈ s.samples) : s.samples[lower_bound s.samples r Less]? = some r := by
  rw [lower_bound_of_mem s.samples r r h.sorted hr rfl]
  exact List.getElem?_indexOf hr

end SampleSet

section claims
variable {α : Type} [LinearOrder α]
open SampleSet

/-- C31 (one refinement per never-refined sample): take a reachable state and one sweep
of bulk `simplify()`, however it ends.  The list `refined` of the objects on which
`refine()` was called, each as it was when it was examined, is the list of the samples
of `IRqueue` with refinement count `0`, in the order of `IRqueue`.  So `refine()` is
called exactly once on every sample of `IRqueue` whose refinement count is `0`, and
never on an object whose refinement count is positive.  A sweep that returns reports the
same list. -/
theorem C31_one_refinement (s : SampleSet α) (h : ReachableWithBulk s)
    (collapses : RealAlgebraicNumber α → Bool) (fresh : RealAlgebraicNumber α → Nat) :
    (s.simplifyBulkRun collapses fresh).2.refined =
      s.IRqueue.filter (fun x => x.getRefinementCount == 0) ∧
    (∀ x ∈ s.IRqueue, x.getRefinementCount = 0 →
      (s.simplifyBulkRun collapses fresh).2.refined.count x = 1) ∧
    (∀ x, 0 < x.getRefinementCount →
      (s.simplifyBulkRun collapses fresh).2.refined.count x = 0) ∧
    (∀ res, s.simplifyBulk collapses fresh = Outcome.returned res →
      res.refined = s.IRqueue.filter (fun x => x.getRefinementCount == 0)) := by
  have hi := h.views_consistent
  have hnn := h.intervals_not_numeric
  have hlog : (s.simplifyBulkRun collapses fresh).2.refined =
      s.IRqueue.filter (fun x => x.getRefinementCount == 0) := by
    rw [(simplifyBulkRun_closed collapses fresh s hi).2.2.1]
    apply List.filter_congr
    intro x hx
    simp [hnn x hx]
  refine ⟨hlog, ?_, ?_, ?_⟩
  · intro x hx hc
    rw [hlog]
    exact List.count_eq_one_of_mem (hi.IR.1.filter _) (List.mem_filter.2 ⟨hx, by simp [hc]⟩)
  · intro x hc
    rw [hlog]
    apply List.count_eq_zero_of_not_mem
    intro hm
    have := (List.mem_filter.1 hm).2
    simp at this
    omega
  · intro res hres
    rw [← hlog, simplifyBulkRun_of_returned collapses fresh s res hres]

/-- C31 at `twoIntervals`, where only the first interval collapses: `refine()` is
called on both samples, once each. -/
theorem C31_one_refinement_witness :
    ReachableWithBulk twoIntervals ∧
    (twoIntervals.simplifyBulkRun collapsesFirst freshAddr).2.refined =
      [intSample 1 2 true false, intSample 4 7 false false] ∧
    ((twoIntervals.simplifyBulkRun collapsesFirst freshAddr).2.refined =
      twoIntervals.IRqueue.filter (fun x => x.getRefinementCount == 0) ∧
    (∀ x ∈ twoIntervals.IRqueue, x.getRefinementCount = 0 →
      (twoIntervals.simplifyBulkRun collapsesFirst freshAddr).2.refined.count x = 1) ∧
    (∀ x, 0 < x.getRefinementCount →
      (twoIntervals.simplifyBulkRun collapsesFirst freshAddr).2.refined.count x = 0) ∧
    (∀ res, twoIntervals.simplifyBulk collapsesFirst freshAddr = Outcome.returned res →
      res.refined = twoIntervals.IRqueue.filter (fun x => x.getRefinementCount == 0))) :=
  ⟨twoIntervals_reachable.toWithBulk, by decide,
    C31_one_refinement twoIntervals twoIntervals_reachable.toWithBulk collapsesFirst freshAddr⟩

/-- C32 (no fatal miss in reachable states): in every reachable non-empty state
`remove` succeeds at every valid position and each of the four pops succeeds, so none of
their assertions fails; for every stored sample each of `removeFromQueue`,
`removeFromNRIR` and `removeFromNonrootRoot` finds the sample; the position that
`std::lower_bound` finds for the sample returned by `next()`, `nextNR()`,
`nextNonRoot()` or `nextRoot()` holds that very handle; and a sweep of bulk `simplify()`
neither reaches `assert(false)` nor fails an assertion of the three-argument
`simplify`. -/
theorem C32_no_fatal_miss (s : SampleSet α) (h : ReachableWithBulk s) (hne : s.samples ≠ []) :
    (∀ i, i < s.samples.length → (s.remove i).isSome = true) ∧
    (s.pop.isSome = true ∧ s.popNR.isSome = true ∧ s.popNonroot.isSome = true ∧
      s.popRoot.isSome = true) ∧
    (∀ r ∈ s.samples, (s.removeFromQueue r).isSome = true ∧
      (s.removeFromNRIR r).isSome = true ∧ (s.removeFromNonrootRoot r).isSome = true) ∧
    (∀ r, s.next = some r ∨ s.nextNR = some r ∨ s.nextNonRoot = some r ∨ s.nextRoot = some r →
      s.samples[lower_bound s.samples r Less]? = some r) ∧
    (∀ (collapses : RealAlgebraicNumber α → Bool) (fresh : RealAlgebraicNumber α → Nat),
      (s.simplifyBulkRun collapses fresh).1 ≠ SweepEnd.assertFalse ∧
      (s.simplifyBulkRun collapses fresh).1 ≠ SweepEnd.promotionFatal) := by
  have hi := h.views_consistent
  obtain ⟨r0, hn0, hh0, hm0⟩ := hi.next_some hne
  obtain ⟨r1, hn1, hm1⟩ := hi.nextNR_some hne
  obtain ⟨r2, hn2, hm2⟩ := hi.nextNonRoot_some hne
  obtain ⟨r3, hn3, hm3⟩ := hi.nextRoot_some hne
  refine ⟨?_, ⟨?_, ?_, ?_, ?_⟩, ?_, ?_, ?_⟩
  · intro i hlt
    have hr : s.samples[i]? = some s.samples[i] := List.getElem?_eq_getElem hlt
    rw [remove_eq s hi i _ hr]
    rfl
  · rw [pop_eq s hi r0 hh0]
    rfl
  · rw [popNR_eq s hi r1 hn1]
    rfl
  · rw [popNonroot_eq s hi r2 hn2]
    rfl
  · rw [popRoot_eq s hi r3 hn3]
    rfl
  · intro r hr
    refine ⟨?_, ?_, ?_⟩
    · rw [removeFromQueue_eq s r ((hi.mem_queue r).2 hr)]
      rfl
    · rw [removeFromNRIR_eq s r (hi.kind_bucket r hr).1 (hi.kind_bucket r hr).2]
      rfl
    · rw [removeFromNonrootRoot_eq s r (hi.root_bucket r hr).1 (hi.root_bucket r hr).2]
      rfl
  · intro r hr
    apply hi.lower_bound_lands
    rcases hr with hr | hr | hr | hr
    · rw [hn0] at hr
      exact Option.some.inj hr ▸ hm0
    · rw [hn1] at hr
      exact Option.some.inj hr ▸ hm1
    · rw [hn2] at hr
      exact Option.some.inj hr ▸ hm2
    · rw [hn3] at hr
      exact Option.some.inj hr ▸ hm3
  · intro collapses fresh
    rcases (simplifyBulkRun_closed collapses fresh s hi).1 with he | he
    · rw [he]
      exact ⟨fun hc => SweepEnd.noConfusion hc, fun hc => SweepEnd.noConfusion hc⟩
    · rw [he]
      exact ⟨fun hc => SweepEnd.noConfusion hc, fun hc => SweepEnd.noConfusion hc⟩

/-- C32 at `mixedSet`. -/
theorem C32_no_fatal_miss_witness :
    ReachableWithBulk mixedSet ∧ mixedSet.samples ≠ [] ∧
    ((∀ i, i < mixedSet.samples.length → (mixedSet.remove i).isSome = true) ∧
    (mixedSet.pop.isSome = true ∧ mixedSet.popNR.isSome = true ∧
      mixedSet.popNonroot.isSome = true ∧ mixedSet.popRoot.isSome = true) ∧
    (∀ r ∈ mixedSet.samples, (mixedSet.removeFromQueue r).isSome = true ∧
      (mixedSet.removeFromNRIR r).isSome = true ∧
      (mixedSet.removeFromNonrootRoot r).isSome = true) ∧
    (∀ r, mixedSet.next = some r ∨ mixedSet.nextNR = some r ∨
        mixedSet.nextNonRoot = some r ∨ mixedSet.nextRoot = some r →
      mixedSet.samples[lower_bound mixedSet.samples r Less]? = some r) ∧
    (∀ (collapses : RealAlgebraicNumber Int → Bool) (fresh : RealAlgebraicNumber Int → Nat),
      (mixedSet.simplifyBulkRun collapses fresh).1 ≠ SweepEnd.assertFalse ∧
      (mixedSet.simplifyBulkRun collapses fresh).1 ≠ SweepEnd.promotionFatal)) :=
  ⟨mixedSet_reachable.toWithBulk, by decide,
    C32_no_fatal_miss mixedSet mixedSet_reachable.toWithBulk (by decide)⟩

/-- C35 (a pop is the removal at the peeked position): in every reachable non-empty
state `pop()` succeeds and gives the six views that `remove(p)` gives, where `p` is the
position in `samples` of the sample returned by `next()`; likewise `popNR()` with
`nextNR()`, `popNonroot()` with `nextNonRoot()` and `popRoot()` with `nextRoot()`. -/
theorem C35_pop_is_remove (s : SampleSet α) (h : ReachableWithBulk s) (hne : s.samples ≠ []) :
    (s.pop = s.popByRemove ∧ s.pop.isSome = true) ∧
    (s.popNR = s.popNRByRemove ∧ s.popNR.isSome = true) ∧
    (s.popNonroot = s.popNonrootByRemove ∧ s.popNonroot.isSome = true) ∧
    (s.popRoot = s.popRootByRemove ∧ s.popRoot.isSome = true) := by
  have hi := h.views_consistent
  obtain ⟨r0, hn0, hh0, hm0⟩ := hi.next_some hne
  obtain ⟨r1, hn1, hm1⟩ := hi.nextNR_some hne
  obtain ⟨r2, hn2, hm2⟩ := hi.nextNonRoot_some hne
  obtain ⟨r3, hn3, hm3⟩ := hi.nextRoot_some hne
  refine ⟨⟨?_, ?_⟩, ⟨?_, ?_⟩, ⟨?_, ?_⟩, ⟨?_, ?_⟩⟩
  · unfold popByRemove
    rw [hn0, pop_eq s hi r0 hh0]
    simp only []
    rw [remove_eq s hi _ r0 (List.getElem?_indexOf hm0)]
    rfl
  · rw [pop_eq s hi r0 hh0]
    rfl
  · unfold popNRByRemove
    rw [hn1, popNR_eq s hi r1 hn1]
    simp only []
    rw [remove_eq s hi _ r1 (List.getElem?_indexOf hm1)]
    rfl
  · rw [popNR_eq s hi r1 hn1]
    rfl
  · unfold popNonrootByRemove
    rw [hn2, popNonroot_eq s hi r2 hn2]
    simp only []
    rw [remove_eq s hi _ r2 (List.getElem?_indexOf hm2)]
    rfl
  · rw [popNonroot_eq s hi r2 hn2]
    rfl
  · unfold popRootByRemove
    rw [hn3, popRoot_eq s hi r3 hn3]
    simp only []
    rw [remove_eq s hi _ r3 (List.getElem?_indexOf hm3)]
    rfl
  · rw [popRoot_eq s hi r3 hn3]
    rfl

/-- C35 at `mixedSet`. -/
theorem C35_pop_is_remove_witness :
    ReachableWithBulk mixedSet ∧ mixedSet.samples ≠ [] ∧
    ((mixedSet.pop = mixedSet.popByRemove ∧ mixedSet.pop.isSome = true) ∧
    (mixedSet.popNR = mixedSet.popNRByRemove ∧ mixedSet.popNR.isSome = true) ∧
    (mixedSet.popNonroot = mixedSet.popNonrootByRemove ∧ mixedSet.popNonroot.isSome = true) ∧
    (mixedSet.popRoot = mixedSet.popRootByRemove ∧ mixedSet.popRoot.isSome = true)) :=
  ⟨mixedSet_reachable.toWithBulk, by decide,
    C35_pop_is_remove mixedSet mixedSet_reachable.toWithBulk (by decide)⟩

/-- C36 (length of the sweep), the code at a failing input and in general.  In scenario
C, with a refinement that makes the only interval sample collapse, the loop body is
entered once, the sample is promoted, and the run ends at the write into the map through
`*irIter` with `irIter` at `end()`: the sweep does not return.  In every reachable state
a sweep returns or ends at that write, and it ends at that write exactly if the last
sample of `IRqueue` is numeric at its test; either way the loop body has been entered
once per sample of `IRqueue` by then, and `samples`, `queue`, the two kind buckets taken
together and the two root buckets taken together have the sizes they had. -/
theorem C36_sweep_length :
    (ReachableWithBulk scenarioC ∧ scenarioC.IRqueue.length = 1 ∧
      (scenarioC.simplifyBulkRun (fun _ => true) freshAddr).1 = SweepEnd.iteratorAtEnd ∧
      (scenarioC.simplifyBulkRun (fun _ => true) freshAddr).2.iterations = 1 ∧
      scenarioC.simplifyBulk (fun _ => true) freshAddr = Outcome.fatal) ∧
    (∀ (s : SampleSet α), ReachableWithBulk s →
      ∀ (collapses : RealAlgebraicNumber α → Bool) (fresh : RealAlgebraicNumber α → Nat),
      ((s.simplifyBulkRun collapses fresh).1 = SweepEnd.returned ∨
        (s.simplifyBulkRun collapses fresh).1 = SweepEnd.iteratorAtEnd) ∧
      ((s.simplifyBulkRun collapses fresh).1 = SweepEnd.iteratorAtEnd ↔
        ∃ x, s.IRqueue.getLast? = some x ∧ (examined collapses x).isNumeric = true) ∧
      (s.simplifyBulkRun collapses fresh).2.iterations = s.IRqueue.length ∧
      (s.simplifyBulkRun collapses fresh).2.set.samples.length = s.samples.length ∧
      (s.simplifyBulkRun collapses fresh).2.set.queue.length = s.queue.length ∧
      (s.simplifyBulkRun collapses fresh).2.set.NRqueue.length +
          (s.simplifyBulkRun collapses fresh).2.set.IRqueue.length =
        s.NRqueue.length + s.IRqueue.length ∧
      (s.simplifyBulkRun collapses fresh).2.set.rootQueue.length +
          (s.simplifyBulkRun collapses fresh).2.set.nonRootQueue.length =
        s.rootQueue.length + s.nonRootQueue.length) := by
  refine ⟨⟨scenarioC_reachable.toWithBulk, by decide, by decide, by decide, by decide⟩, ?_⟩
  intro s h collapses fresh
  obtain ⟨h1, h2, _, h4, _, h6, h7, h8, h9⟩ :=
    simplifyBulkRun_closed collapses fresh s h.views_consistent
  exact ⟨h1, h2, h4, h6, h7, h8, h9⟩

end claims

end cad

/-! ## The extended Euclidean algorithm -/

/-- The remainder of the truncating division is smaller in absolute value than the
divisor. -/
theorem natAbs_tmod_lt (a b : Int) (hb : b ≠ 0) : (Int.tmod a b).natAbs < b.natAbs := by
  have hpos : 0 < b.natAbs := Int.natAbs_pos.2 hb
  cases a with
  | ofNat m =>
    cases b with
    | ofNat n => exact Nat.mod_lt _ hpos
    | negSucc n => exact Nat.mod_lt _ hpos
  | negSucc m =>
    cases b with
    | ofNat n =>
      show (-(Int.ofNat (Nat.succ m % n))).natAbs < _
      rw [Int.natAbs_neg]
      exact Nat.mod_lt _ hpos
    | negSucc n =>
      show (-(Int.ofNat (Nat.succ m % Nat.succ n))).natAbs < _
      rw [Int.natAbs_neg]
      exact Nat.mod_lt _ hpos

/-- One pass of the loop replaces `r` by the remainder of `old_r` by `r`. -/
theorem sub_quotient_mul (x y : Int) : x - quotient x y * y = Int.tmod x y := by
  unfold quotient
  rw [Int.tmod_def, Int.mul_comm]

/-- One pass of the loop keeps the invariant. -/
theorem GcdInvariant.pass {a b : Int} {st : GcdState} (h : GcdInvariant a b st) (q : Int) :
    GcdInvariant a b
      { r := st.old_r - q * st.r, old_r := st.r, s := st.old_s - q * st.s, old_s := st.s,
        t := st.old_t - q * st.t, old_t := st.t } := by
  obtain ⟨h1, h2, h3⟩ := h
  refine ⟨h2, ?_, ?_⟩
  · show (st.old_s - q * st.s) * a + (st.old_t - q * st.t) * b = st.old_r - q * st.r
    rw [← h1, ← h2]
    ring
  · intro d
    rw [← h3 d]
    show (d ∣ st.r ∧ d ∣ st.old_r - q * st.r) ↔ (d ∣ st.old_r ∧ d ∣ st.r)
    constructor
    · rintro ⟨hr, hd⟩
      refine ⟨?_, hr⟩
      have := dvd_add hd (Dvd.dvd.mul_left hr q)
      simpa using this
    · rintro ⟨ho, hr⟩
      exact ⟨hr, dvd_sub ho (Dvd.dvd.mul_left hr q)⟩

/-- The loop of `extended_gcd_integer` ends with `r = 0` before its fuel is used up,
and it keeps the invariant. -/
theorem extended_gcd_loop_spec (a b : Int) :
    ∀ (fuel : Nat) (st : GcdState), st.r.natAbs ≤ fuel → GcdInvariant a b st →
      ∃ res, extended_gcd_loop fuel st = some res ∧ res.r = 0 ∧ GcdInvariant a b res := by
  intro fuel
  induction fuel with
  | zero =>
    intro st hfuel hinv
    have hr : st.r = 0 := Int.natAbs_eq_zero.1 (Nat.le_zero.1 hfuel)
    exact ⟨st, by simp [extended_gcd_loop, hr], hr, hinv⟩
  | succ n ih =>
    intro st hfuel hinv
    by_cases hr : st.r = 0
    · exact ⟨st, by simp [extended_gcd_loop, hr], hr, hinv⟩
    · rw [extended_gcd_loop]
      simp only [hr, if_false]
      apply ih
      · show (st.old_r - quotient st.old_r st.r * st.r).natAbs ≤ n
        rw [sub_quotient_mul]
        have := natAbs_tmod_lt st.old_r st.r hr
        omega
      · exact hinv.pass _

/-- The function `extended_gcd_integer` in one statement: it returns for all inputs, the
value `g` it returns is not negative, the values left in `s` and `t` satisfy the Bezout
equation, and the divisors of `g` are the common divisors of `a` and `b`. -/
theorem extended_gcd_integer_spec (a b : Int) :
    ∃ g s t, extended_gcd_integer a b = some (g, s, t) ∧ s * a + t * b = g ∧ 0 ≤ g ∧
      (∀ d : Int, d ∣ g ↔ (d ∣ a ∧ d ∣ b)) ∧
      (a = 0 ∧ b = 0 → g = 0 ∧ s = 0 ∧ t = 0) := by
  by_cases h0 : a = 0 ∧ b = 0
  · refine ⟨0, 0, 0, by simp [extended_gcd_integer, h0], by simp, le_refl _, ?_, fun _ => ⟨rfl, rfl, rfl⟩⟩
    intro d
    simp [h0.1, h0.2]
  · have hstart : GcdInvariant a b
        { r := b, old_r := a, s := 0, old_s := 1, t := 1, old_t := 0 } := by
      refine ⟨by simp, by simp, fun d => Iff.rfl⟩
    obtain ⟨res, hres, hr, h1, _, h3⟩ :=
      extended_gcd_loop_spec a b b.natAbs _ (le_refl _) hstart
    have hdiv : ∀ d : Int, d ∣ res.old_r ↔ (d ∣ a ∧ d ∣ b) := by
      intro d
      rw [← h3 d, hr]
      simp
    unfold extended_gcd_integer
    simp only [h0, if_false, hres]
    by_cases hneg : res.old_r < 0
    · simp only [hneg, if_true]
      refine ⟨_, _, _, rfl, ?_, by omega, ?_, fun hc => False.elim hc⟩
      · rw [← h1]
        ring
      · intro d
        rw [dvd_neg]
        exact hdiv d
    · simp only [hneg, if_false]
      exact ⟨_, _, _, rfl, h1, by omega, hdiv, fun hc => False.elim hc⟩

/-- C33 (Bezout identity of `extended_gcd_integer`): for all integers `a` and `b`, with
`carl::quotient` the truncating quotient, the call returns a value `g` and leaves values
in `s` and `t` with `s * a + t * b = g`; for `a = b = 0` it returns `0` with
`s = t = 0`. -/
theorem C33_bezout_identity (a b : Int) :
    (∃ g s t, extended_gcd_integer a b = some (g, s, t) ∧ s * a + t * b = g) ∧
    extended_gcd_integer 0 0 = some (0, 0, 0) := by
  obtain ⟨g, s, t, h1, h2, _⟩ := extended_gcd_integer_spec a b
  exact ⟨⟨g, s, t, h1, h2⟩, by decide⟩

/-- C37 (`extended_gcd_integer` returns the non-negative greatest common divisor): for
all integers `a` and `b` the call returns a value `g` with `g ≥ 0` that divides `a` and
`b` and is divided by every common divisor of `a` and `b`; it is the greatest common
divisor of `|a|` and `|b|`, and it is `0` only for `a = b = 0`. -/
theorem C37_greatest_common_divisor (a b : Int) :
    ∃ g s t, extended_gcd_integer a b = some (g, s, t) ∧
      0 ≤ g ∧ g ∣ a ∧ g ∣ b ∧ (∀ d : Int, d ∣ a → d ∣ b → d ∣ g) ∧
      g = (Nat.gcd a.natAbs b.natAbs : Int) ∧ (g = 0 ↔ a = 0 ∧ b = 0) := by
  obtain ⟨g, s, t, h1, _, h3, h4, h5⟩ := extended_gcd_integer_spec a b
  have hga : g ∣ a := ((h4 g).1 (dvd_refl g)).1
  have hgb : g ∣ b := ((h4 g).1 (dvd_refl g)).2
  refine ⟨g, s, t, h1, h3, hga, hgb, fun d ha hb => (h4 d).2 ⟨ha, hb⟩, ?_, ?_⟩
  · exact Int.dvd_antisymm h3 (Int.ofNat_nonneg _) (Int.dvd_gcd hga hgb)
      ((h4 _).2 ⟨Int.gcd_dvd_left, Int.gcd_dvd_right⟩)
  · constructor
    · intro hg
      rw [hg] at hga hgb
      exact ⟨zero_dvd_iff.1 hga, zero_dvd_iff.1 hgb⟩
    · intro h0
      exact (h5 h0).1

/-! ## The solver for linear Diophantine equations -/

theorem gcdList_dvd (l : List Int) : ∀ a ∈ l, (gcdList l : Int) ∣ a := by
  induction l with
  | nil =>
    intro a ha
    simp at ha
  | cons b t ih =>
    intro a ha
    have hstep : gcdList (b :: t) = Int.gcd b (gcdList t) := rfl
    rw [hstep]
    rcases List.mem_cons.1 ha with h | h
    · rw [h]
      exact Int.gcd_dvd_left
    · exact dvd_trans Int.gcd_dvd_right (ih a h)

theorem dvd_gcdList (l : List Int) (d : Int) (h : ∀ a ∈ l, d ∣ a) : d ∣ (gcdList l : Int) := by
  induction l with
  | nil => exact dvd_zero d
  | cons b t ih =>
    have hstep : gcdList (b :: t) = Int.gcd b (gcdList t) := rfl
    rw [hstep]
    exact Int.dvd_gcd (h b (List.mem_cons_self _ _))
      (ih (fun a ha => h a (List.mem_cons_of_mem _ ha)))

theorem pairedSum_nil_left (x : List Int) : pairedSum [] x = 0 := by
  simp [pairedSum]

theorem pairedSum_nil_right (a : List Int) : pairedSum a [] = 0 := by
  simp [pairedSum]

theorem pairedSum_cons (b : Int) (a : List Int) (y : Int) (x : List Int) :
    pairedSum (b :: a) (y :: x) = b * y + pairedSum a x := by
  simp [pairedSum]

/-- Scaling the vector scales the sum. -/
theorem pairedSum_map_mul (a x : List Int) (k : Int) :
    pairedSum a (x.map (fun r => r * k)) = pairedSum a x * k := by
  induction a generalizing x with
  | nil => simp [pairedSum_nil_left]
  | cons b t ih =>
    cases x with
    | nil => simp [pairedSum_nil_right]
    | cons y u =>
      rw [List.map_cons, pairedSum_cons, pairedSum_cons, ih]
      ring

/-- One more entry adds one more product. -/
theorem pairedSum_append_singleton (a x : List Int) (v ai : Int)
    (hi : a[x.length]? = some ai) : pairedSum a (x ++ [v]) = pairedSum a x + ai * v := by
  induction a generalizing x with
  | nil => simp at hi
  | cons b t ih =>
    cases x with
    | nil =>
      simp at hi
      simp [pairedSum, hi]
    | cons y u =>
      simp at hi
      rw [List.cons_append, pairedSum_cons, pairedSum_cons, ih u hi]
      ring

/-- Entries `0` at the back add nothing. -/
theorem pairedSum_append_zeros (a x : List Int) (k : Nat) :
    pairedSum a (x ++ List.replicate k 0) = pairedSum a x := by
  induction a generalizing x k with
  | nil => simp [pairedSum_nil_left]
  | cons b t ih =>
    cases x with
    | nil =>
      cases k with
      | zero => simp
      | succ m =>
        have := ih [] m
        simp only [List.nil_append] at this
        simp [List.replicate_succ, pairedSum_cons, this, pairedSum_nil_right]
    | cons y u =>
      rw [List.cons_append, pairedSum_cons, pairedSum_cons, ih]

/-- The vector of the first branch: `0` everywhere but at index `0`. -/
theorem pairedSum_set_zero (b : Int) (t : List Int) (v : Int) :
    pairedSum (b :: t) ((List.replicate (b :: t).length 0).set 0 v) = b * v := by
  have h := pairedSum_append_zeros t [] t.length
  simp only [List.nil_append, pairedSum_nil_right] at h
  simp [List.replicate_succ, pairedSum_cons, h]

theorem mod_of_ne_zero (a b : Int) (hb : b ≠ 0) : mod a b = some (Int.tmod a b) := by
  simp [mod, hb]

theorem div_of_ne_zero (a b : Int) (hb : b ≠ 0) : div a b = some (Int.tdiv a b) := by
  simp [div, hb]

/-- The loop of `solveLinearDiophantine` from a pass `i ≥ 1` on, when the first
coefficient is not `0` and the greatest common divisor of all coefficients divides the
constant part: if `fromExtendedGcd` combines the first `i` coefficients to `currGcd` and
the divisors of `currGcd` are the common divisors of these coefficients, the loop returns
a vector, and the vector solves the equation. -/
theorem solveLinearLoop_spec (c : Int) (coeffs : List Int) (a0 : Int)
    (h0 : coeffs[0]? = some a0) (hne : a0 ≠ 0) (hg : (gcdList coeffs : Int) ∣ c) :
    ∀ (fuel i : Nat) (f : List Int) (g : Int),
      1 ≤ i → i < coeffs.length → coeffs.length - i ≤ fuel → f.length = i →
      pairedSum coeffs f = g →
      (∀ d : Int, d ∣ g ↔ ∀ a ∈ coeffs.take i, d ∣ a) →
      ∃ x, solveLinearLoop c coeffs fuel i f g = some x ∧ evalLinear c coeffs x = 0 := by
  intro fuel
  induction fuel with
  | zero =>
    intro i f g _ hlt hfuel _ _ _
    omega
  | succ n ih =>
    intro i f g hi hlt hfuel hlen hsum hdiv
    have hci : coeffs[i]? = some coeffs[i] := List.getElem?_eq_getElem hlt
    have ha0mem : a0 ∈ coeffs.take i := by
      have h1 : (coeffs.take i)[0]? = some a0 := by
        rw [List.getElem?_take_of_lt (by omega)]
        exact h0
      exact List.getElem?_mem h1
    have hgne : g ≠ 0 := by
      intro hz
      have := (hdiv 0).1 (by rw [hz]) a0 ha0mem
      exact hne (zero_dvd_iff.1 this)
    obtain ⟨g', s, t, hgcd, hbez, _, hdiv', _⟩ := extended_gcd_integer_spec g coeffs[i]
    have hg'ne : g' ≠ 0 := by
      intro hz
      have := ((hdiv' 0).1 (by rw [hz])).1
      exact hgne (zero_dvd_iff.1 this)
    have hsum1 : pairedSum coeffs (f.map (fun r => r * s) ++ [t]) = g' := by
      rw [pairedSum_append_singleton coeffs _ t coeffs[i] (by simp [hlen]),
        pairedSum_map_mul, hsum, ← hbez]
      ring
    have hdiv1 : ∀ d : Int, d ∣ g' ↔ ∀ a ∈ coeffs.take (i + 1), d ∣ a := by
      intro d
      rw [hdiv' d, hdiv d, List.take_succ, hci]
      simp only [Option.toList_some, List.mem_append, List.mem_singleton]
      constructor
      · rintro ⟨h1, h2⟩ a (ha | ha)
        · exact h1 a ha
        · rw [ha]
          exact h2
      · intro h
        exact ⟨fun a ha => h a (Or.inl ha), h _ (Or.inr rfl)⟩
    rw [solveLinearLoop]
    have hnle : ¬ coeffs.length ≤ i := by omega
    have hi0 : ¬ i = 0 := by omega
    simp only [hnle, hi0, if_false, hci, hgcd, mod_of_ne_zero c g' hg'ne,
      div_of_ne_zero c g' hg'ne]
    by_cases hrem : Int.tmod c g' = 0
    · simp only [hrem, if_true]
      refine ⟨_, rfl, ?_⟩
      have hdvd : g' ∣ c := Int.dvd_of_tmod_eq_zero hrem
      unfold evalLinear
      rw [pairedSum_append_zeros, pairedSum_map_mul, hsum1]
      have := Int.tdiv_mul_cancel hdvd
      linarith
    · simp only [hrem, if_false]
      by_cases hlast : i = coeffs.length - 1
      · exfalso
        apply hrem
        apply Int.tmod_eq_zero_of_dvd
        have hall : ∀ a ∈ coeffs, g' ∣ a := by
          have htake : coeffs.take (i + 1) = coeffs := List.take_of_length_le (by omega)
          have := (hdiv1 g').1 (dvd_refl g')
          rw [htake] at this
          exact this
        exact dvd_trans (dvd_gcdList coeffs g' hall) hg
      · simp only [hlast, if_false]
        exact ih (i + 1) _ g' (by omega) (by omega) (by omega) (by simp [hlen]) hsum1 hdiv1

/-- The function `solveLinearDiophantine` on a polynomial that stores a constant term
`c` in front of `n ≥ 1` linear terms: if the first coefficient is not `0` and the
greatest common divisor of the coefficients divides `c`, a vector is returned, and it
solves the equation. -/
theorem solveLinearDiophantine_spec (c : Int) (a : List Int) (a0 : Int)
    (h0 : a[0]? = some a0) (hne : a0 ≠ 0) (hg : (gcdList a : Int) ∣ c) :
    ∃ x, solveLinearDiophantine (linearEquation c a) = some x ∧ evalLinear c a x = 0 := by
  obtain ⟨rest, rfl⟩ : ∃ rest, a = a0 :: rest := by
    cases a with
    | nil => simp at h0
    | cons b t =>
      simp at h0
      exact ⟨t, by rw [h0]⟩
  have hlin : (linearEquation c (a0 :: rest)).isLinear = true := by
    unfold MultivariatePolynomial.isLinear linearEquation
    simp only [List.length_cons, List.map_cons]
    rw [if_neg (by omega)]
    cases hl : (({ coeff := c, tdeg := 0 } : Term) ::
        { coeff := a0, tdeg := 1 } :: rest.map (fun ak => ({ coeff := ak, tdeg := 1 } : Term))).getLast? with
    | none => rfl
    | some t =>
      have hm := List.mem_of_getLast?_eq_some hl
      simp only [List.mem_cons, List.mem_map] at hm
      rcases hm with h | h | ⟨ak, _, h⟩
      · rw [h]; rfl
      · rw [h]; rfl
      · rw [← h]; rfl
  have hconst : (linearEquation c (a0 :: rest)).hasConstantTerm = true := by
    simp [MultivariatePolynomial.hasConstantTerm, linearEquation, Term.isConstant]
  have hpart : (linearEquation c (a0 :: rest)).constantPart = c := by
    simp [MultivariatePolynomial.constantPart, linearEquation, Term.isConstant]
  have hcoeffs : ((linearEquation c (a0 :: rest)).getTerms.drop 1).map (fun t => t.coeff) =
      a0 :: rest := by
    simp [MultivariatePolynomial.getTerms, linearEquation, Function.comp_def]
  unfold solveLinearDiophantine
  simp only [hlin, hconst, hpart, hcoeffs, Bool.not_true, Bool.false_eq_true, if_false,
    List.getElem?_cons_zero, List.length_cons]
  rw [solveLinearLoop]
  simp only [List.length_cons, List.getElem?_cons_zero, mod_of_ne_zero c a0 hne,
    div_of_ne_zero c a0 hne]
  rw [if_neg (by omega)]
  simp only [if_true]
  by_cases hrem : Int.tmod c a0 = 0
  · simp only [hrem, if_true]
    refine ⟨_, rfl, ?_⟩
    have hdvd : a0 ∣ c := Int.dvd_of_tmod_eq_zero hrem
    unfold evalLinear
    have hset := pairedSum_set_zero a0 rest (-(Int.tdiv c a0))
    simp only [List.length_cons] at hset
    rw [hset]
    have := Int.mul_tdiv_cancel' hdvd
    linarith
  · simp only [hrem, if_false]
    have hrest : rest ≠ [] := by
      intro he
      apply hrem
      apply Int.tmod_eq_zero_of_dvd
      rw [he] at hg
      have hd : a0 ∣ ((gcdList [a0] : Nat) : Int) := by
        show a0 ∣ ((Int.gcd a0 (0 : Nat) : Nat) : Int)
        simp [Int.gcd]
      exact dvd_trans hd hg
    have hlen : 1 < (a0 :: rest).length := by
      cases rest with
      | nil => exact absurd rfl hrest
      | cons b t => simp
    exact solveLinearLoop_spec c (a0 :: rest) a0 (by simp) hne hg rest.length 1 [1] a0
      (le_refl _) hlen (by simp) rfl (by simp [pairedSum]) (by
        intro d
        simp)

/-! ## The claims on linear Diophantine equations -/

/-- C34, as stated, fails: the equation `0 + 2 * x_0 + 3 * x_1 = 0` has `n = 2` variable
terms, `a_0 = 2` is not `0`, the greatest common divisor `1` divides `c = 0`, and the
vector `[0, 0]` solves it.  Its polynomial `2 * x_0 + 3 * x_1` has no constant term, so
the assertion of line 33 fails and no vector is returned. -/
theorem C34_no_vector_without_constant_term :
    (homogeneousEquation [2, 3]).isLinear = true ∧
    (homogeneousEquation [2, 3]).hasConstantTerm = false ∧
    (homogeneousEquation [2, 3]).constantPart = 0 ∧
    gcdList [2, 3] = 1 ∧
    evalLinear 0 [2, 3] [0, 0] = 0 ∧
    solveLinearDiophantine (homogeneousEquation [2, 3]) = none := by
  decide

/-- C34, amended (a solution is found when one exists and the constant term is stored):
let the polynomial of the equation store a constant term `c` in front of `n ≥ 1` linear
terms with the coefficients `a_0, ..., a_(n-1)`, let `a_0` be not `0` and let the
greatest common divisor of the coefficients divide `c`.  Then `solveLinearDiophantine`
returns a vector `x`, and `c` plus the sum of the products `a_k * x_k`, the coefficients
and the entries of `x` paired by index, is `0`. -/
theorem C34_solution_found (c : Int) (a : List Int) (a0 : Int)
    (h0 : a[0]? = some a0) (hne : a0 ≠ 0) (hg : (gcdList a : Int) ∣ c) :
    ∃ x, solveLinearDiophantine (linearEquation c a) = some x ∧ evalLinear c a x = 0 :=
  solveLinearDiophantine_spec c a a0 h0 hne hg

/-- C34, amended, at the equation `3 + 6 * x_0 + 10 * x_1 + 15 * x_2 = 0`. -/
theorem C34_solution_found_witness :
    ([6, 10, 15] : List Int)[0]? = some 6 ∧ (6 : Int) ≠ 0 ∧
    ((gcdList [6, 10, 15] : Nat) : Int) ∣ 3 ∧
    ∃ x, solveLinearDiophantine (linearEquation 3 [6, 10, 15]) = some x ∧
      evalLinear 3 [6, 10, 15] x = 0 :=
  ⟨by decide, by decide, by decide,
    C34_solution_found 3 [6, 10, 15] 6 (by decide) (by decide) (by decide)⟩

/-- C38 (shape of the result), the code at failing inputs.  The equation
`1 + 2 * x_0 + 3 * x_1 = 0` has `n = 2` variable terms and the returned vector has `4`
entries; the equation `1 + 2 * x_0 + 3 * x_1 + 5 * x_2 + 7 * x_3 + 11 * x_4 = 0` has
`n = 5` and the returned vector has `4` entries as well: the padding loop of lines 71-73
starts at `j = n - size` and so appends `size` entries, not `n - size`.  The two other
branches return `n` entries: `4 + 2 * x_0 + 3 * x_1 = 0` is solved by the first branch,
and `1 + 2 * x_0 + 4 * x_1 = 0` has no solution. -/
theorem C38_vector_of_wrong_length :
    solveLinearDiophantine (linearEquation 1 [2, 3]) = some [1, -1, 0, 0] ∧
    solveLinearDiophantine (linearEquation 1 [2, 3, 5, 7, 11]) = some [1, -1, 0, 0] ∧
    solveLinearDiophantine (linearEquation 4 [2, 3]) = some [-2, 0] ∧
    solveLinearDiophantine (linearEquation 1 [2, 4]) = some [0, 0] := by
  decide

end carl
